import Mathlib

/-!
Ring buffer (`src/src/ring_buffer.c`): shallow embedding and verification.

The embedding follows `ring_buffer.c`, `ring_buffer_gtypes.h` and
`ring_buffer_ptypes.h`.

* `size_t` values are natural numbers, without wrap-around. Every subtraction
  of the source is written with the truncated subtraction of `Nat`; under the
  invariant `Inv` below, which holds in every state reachable through the API,
  no subtraction goes below zero, so both agree there. The sums of the source
  stay at or below `2 * buffer_size`, so the model describes the C code for
  regions with `2 * buffer_size` below the range of `size_t`.
* A `uint8_t *` into the backing region is an address (`0` is `NULL`) into a
  byte memory `Memory`; the region of a buffer is the address range
  `[conf.buffer, conf.buffer + conf.buffer_size)`.
* The caller's element buffer (`data`) is passed by value as `Option Memory`
  (`none` is `NULL`), indexed from offset `0`; it does not alias the region.
* A `ring_buffer_t *` is `Option ring_buffer_t` (`none` is `NULL`).
-/

namespace RingBuffer

/-- One byte. -/
abbrev uint8_t := Fin 256

/-- Byte-addressed memory. -/
abbrev Memory := Nat → uint8_t

/-- Status codes of `ring_buffer_gtypes.h`. -/
inductive ring_buffer_status_e where
  | RING_BUFFER_STATUS_OK
  | RING_BUFFER_STATUS_ERROR
  | RING_BUFFER_STATUS_ERROR_INPUT_ARGS
  | RING_BUFFER_STATUS_ERROR_NOT_INITIALIZED
  | RING_BUFFER_STATUS_ERROR_INVALID_INDEX
  | RING_BUFFER_STATUS_ERROR_BUFFER_EMPTY
  | RING_BUFFER_STATUS_ERROR_BUFFER_FULL
  | RING_BUFFER_STATUS_ERROR_OVERFLOW
  deriving DecidableEq

open ring_buffer_status_e

/-- Configuration record `ring_buffer_conf_t`. -/
structure ring_buffer_conf_t where
  buffer : Nat
  buffer_size : Nat
  element_size : Nat
  overwrite : Bool
  deriving DecidableEq

/-- State record `ring_buffer_t`. -/
structure ring_buffer_t where
  conf : ring_buffer_conf_t
  head : Nat
  tail : Nat
  count : Nat
  max_elements : Nat
  deriving DecidableEq

/-- The record after `MEMSET(rb, 0, sizeof(ring_buffer_t))`. -/
def ring_buffer_zero : ring_buffer_t :=
  { conf := { buffer := 0, buffer_size := 0, element_size := 0, overwrite := false },
    head := 0, tail := 0, count := 0, max_elements := 0 }

/-- The loop of the `MEMCPY` macro: after `len` iterations the bytes
`dst[dstp + i] = src[srcp + i]` have been stored for `i = 0 .. len - 1`, in
that order. The macro's `NULL` guard is true at each of its uses, which all
follow the `CHECK_ARGS_NULL_PTR` tests of both pointers. -/
def MEMCPY (dst : Memory) (dstp : Nat) (src : Memory) (srcp : Nat) : Nat → Memory
  | 0 => dst
  | len + 1 => Function.update (MEMCPY dst dstp src srcp len) (dstp + len) (src (srcp + len))

/-- Outcome of a call that may change the record and the region. -/
structure StateResult where
  status : ring_buffer_status_e
  rb : Option ring_buffer_t
  mem : Memory

/-- Outcome of a call that also writes the caller's element buffer. -/
structure DataResult where
  status : ring_buffer_status_e
  rb : Option ring_buffer_t
  mem : Memory
  data : Option Memory

/-- Outcome of a query that writes a `size_t` output location. -/
structure QueryResult where
  status : ring_buffer_status_e
  rb : Option ring_buffer_t
  mem : Memory
  result : Option Nat

/-- Function `RING_BUFFER_Init` of `ring_buffer.c`. -/
def RING_BUFFER_Init (rb : Option ring_buffer_t) (mem : Memory) (conf : ring_buffer_conf_t) :
    StateResult :=
  match rb with
  | none => ⟨RING_BUFFER_STATUS_ERROR_INPUT_ARGS, none, mem⟩
  | some rb0 =>
    if conf.buffer = 0 then ⟨RING_BUFFER_STATUS_ERROR_INPUT_ARGS, some rb0, mem⟩
    else if conf.buffer_size = 0 then ⟨RING_BUFFER_STATUS_ERROR_INPUT_ARGS, some rb0, mem⟩
    else if conf.element_size = 0 then ⟨RING_BUFFER_STATUS_ERROR_INPUT_ARGS, some rb0, mem⟩
    else if conf.buffer_size < conf.element_size then
      ⟨RING_BUFFER_STATUS_ERROR_INPUT_ARGS, some rb0, mem⟩
    else
      let rb1 := ring_buffer_zero
      let rb2 := { rb1 with conf := conf }
      let rb3 := { rb2 with max_elements := rb2.conf.buffer_size / rb2.conf.element_size }
      ⟨RING_BUFFER_STATUS_OK, some rb3, mem⟩

/-- Function `RING_BUFFER_DeInit` of `ring_buffer.c`. -/
def RING_BUFFER_DeInit (rb : Option ring_buffer_t) (mem : Memory) : StateResult :=
  match rb with
  | none => ⟨RING_BUFFER_STATUS_ERROR_INPUT_ARGS, none, mem⟩
  | some rb0 =>
    if rb0.conf.buffer = 0 then ⟨RING_BUFFER_STATUS_ERROR_NOT_INITIALIZED, some rb0, mem⟩
    else ⟨RING_BUFFER_STATUS_OK, some ring_buffer_zero, mem⟩

/-- Function `RING_BUFFER_Insert` of `ring_buffer.c`. -/
def RING_BUFFER_Insert (rb : Option ring_buffer_t) (mem : Memory) (data : Option Memory) :
    StateResult :=
  match rb with
  | none => ⟨RING_BUFFER_STATUS_ERROR_INPUT_ARGS, none, mem⟩
  | some rb0 =>
    match data with
    | none => ⟨RING_BUFFER_STATUS_ERROR_INPUT_ARGS, some rb0, mem⟩
    | some d =>
      if rb0.conf.buffer = 0 then ⟨RING_BUFFER_STATUS_ERROR_NOT_INITIALIZED, some rb0, mem⟩
      else if rb0.conf.overwrite = false ∧ rb0.count ≥ rb0.max_elements then
        ⟨RING_BUFFER_STATUS_ERROR_BUFFER_FULL, some rb0, mem⟩
      else
        let dest := rb0.conf.buffer + rb0.head
        let end_space := rb0.conf.buffer_size - rb0.head
        let mem1 :=
          if end_space ≥ rb0.conf.element_size then
            MEMCPY mem dest d 0 rb0.conf.element_size
          else
            MEMCPY (MEMCPY mem dest d 0 end_space) rb0.conf.buffer d end_space
              (rb0.conf.element_size - end_space)
        let rb1 :=
          if end_space ≥ rb0.conf.element_size then
            { rb0 with head := rb0.head + rb0.conf.element_size }
          else
            { rb0 with head := rb0.conf.element_size - end_space }
        let rb2 := if rb1.head ≥ rb1.conf.buffer_size then { rb1 with head := 0 } else rb1
        let rb3 :=
          if rb2.conf.overwrite = true then
            if rb2.count ≥ rb2.max_elements then
              { rb2 with tail := (rb2.tail + rb2.conf.element_size) % rb2.conf.buffer_size }
            else rb2
          else rb2
        let rb4 := if rb3.count < rb3.max_elements then { rb3 with count := rb3.count + 1 } else rb3
        ⟨RING_BUFFER_STATUS_OK, some rb4, mem1⟩

/-- Function `RING_BUFFER_Retrieve` of `ring_buffer.c`. -/
def RING_BUFFER_Retrieve (rb : Option ring_buffer_t) (mem : Memory) (data : Option Memory) :
    DataResult :=
  match rb with
  | none => ⟨RING_BUFFER_STATUS_ERROR_INPUT_ARGS, none, mem, data⟩
  | some rb0 =>
    match data with
    | none => ⟨RING_BUFFER_STATUS_ERROR_INPUT_ARGS, some rb0, mem, none⟩
    | some d =>
      if rb0.conf.buffer = 0 then ⟨RING_BUFFER_STATUS_ERROR_NOT_INITIALIZED, some rb0, mem, some d⟩
      else if rb0.count = 0 then ⟨RING_BUFFER_STATUS_ERROR_BUFFER_EMPTY, some rb0, mem, some d⟩
      else
        let src := rb0.conf.buffer + rb0.tail
        let end_space := rb0.conf.buffer_size - rb0.tail
        let d1 :=
          if end_space ≥ rb0.conf.element_size then
            MEMCPY d 0 mem src rb0.conf.element_size
          else
            MEMCPY (MEMCPY d 0 mem src end_space) end_space mem rb0.conf.buffer
              (rb0.conf.element_size - end_space)
        let rb1 :=
          if end_space ≥ rb0.conf.element_size then
            { rb0 with tail := rb0.tail + rb0.conf.element_size }
          else
            { rb0 with tail := rb0.conf.element_size - end_space }
        let rb2 := { rb1 with count := rb1.count - 1 }
        ⟨RING_BUFFER_STATUS_OK, some rb2, mem, some d1⟩

/-- Function `RING_BUFFER_Peek` of `ring_buffer.c`. -/
def RING_BUFFER_Peek (rb : Option ring_buffer_t) (mem : Memory) (index : Nat)
    (data : Option Memory) : DataResult :=
  match rb with
  | none => ⟨RING_BUFFER_STATUS_ERROR_INPUT_ARGS, none, mem, data⟩
  | some rb0 =>
    match data with
    | none => ⟨RING_BUFFER_STATUS_ERROR_INPUT_ARGS, some rb0, mem, none⟩
    | some d =>
      if rb0.conf.buffer = 0 then ⟨RING_BUFFER_STATUS_ERROR_NOT_INITIALIZED, some rb0, mem, some d⟩
      else if rb0.count = 0 then ⟨RING_BUFFER_STATUS_ERROR_BUFFER_EMPTY, some rb0, mem, some d⟩
      else if index ≥ rb0.count then
        ⟨RING_BUFFER_STATUS_ERROR_INVALID_INDEX, some rb0, mem, some d⟩
      else
        let element_pos := (rb0.tail + index * rb0.conf.element_size) % rb0.conf.buffer_size
        let src := rb0.conf.buffer + element_pos
        let end_space := rb0.conf.buffer_size - element_pos
        let d1 :=
          if end_space ≥ rb0.conf.element_size then
            MEMCPY d 0 mem src rb0.conf.element_size
          else
            MEMCPY (MEMCPY d 0 mem src end_space) end_space mem rb0.conf.buffer
              (rb0.conf.element_size - end_space)
        ⟨RING_BUFFER_STATUS_OK, some rb0, mem, some d1⟩

/-- Function `RING_BUFFER_Replace` of `ring_buffer.c`. -/
def RING_BUFFER_Replace (rb : Option ring_buffer_t) (mem : Memory) (index : Nat)
    (data : Option Memory) : StateResult :=
  match rb with
  | none => ⟨RING_BUFFER_STATUS_ERROR_INPUT_ARGS, none, mem⟩
  | some rb0 =>
    match data with
    | none => ⟨RING_BUFFER_STATUS_ERROR_INPUT_ARGS, some rb0, mem⟩
    | some d =>
      if rb0.conf.buffer = 0 then ⟨RING_BUFFER_STATUS_ERROR_NOT_INITIALIZED, some rb0, mem⟩
      else if rb0.count = 0 then ⟨RING_BUFFER_STATUS_ERROR_BUFFER_EMPTY, some rb0, mem⟩
      else if index ≥ rb0.count then ⟨RING_BUFFER_STATUS_ERROR_INVALID_INDEX, some rb0, mem⟩
      else
        let element_pos := (rb0.tail + index * rb0.conf.element_size) % rb0.conf.buffer_size
        let dest := rb0.conf.buffer + element_pos
        let end_space := rb0.conf.buffer_size - element_pos
        let mem1 :=
          if end_space ≥ rb0.conf.element_size then
            MEMCPY mem dest d 0 rb0.conf.element_size
          else
            MEMCPY (MEMCPY mem dest d 0 end_space) rb0.conf.buffer d end_space
              (rb0.conf.element_size - end_space)
        ⟨RING_BUFFER_STATUS_OK, some rb0, mem1⟩

/-- Function `RING_BUFFER_IsEmpty` of `ring_buffer.c`. -/
def RING_BUFFER_IsEmpty (rb : Option ring_buffer_t) (mem : Memory) : StateResult :=
  match rb with
  | none => ⟨RING_BUFFER_STATUS_ERROR_INPUT_ARGS, none, mem⟩
  | some rb0 =>
    if rb0.conf.buffer = 0 then ⟨RING_BUFFER_STATUS_ERROR_NOT_INITIALIZED, some rb0, mem⟩
    else if 0 = rb0.count then ⟨RING_BUFFER_STATUS_OK, some rb0, mem⟩
    else ⟨RING_BUFFER_STATUS_ERROR, some rb0, mem⟩

/-- Function `RING_BUFFER_IsFull` of `ring_buffer.c`. -/
def RING_BUFFER_IsFull (rb : Option ring_buffer_t) (mem : Memory) : StateResult :=
  match rb with
  | none => ⟨RING_BUFFER_STATUS_ERROR_INPUT_ARGS, none, mem⟩
  | some rb0 =>
    if rb0.conf.buffer = 0 then ⟨RING_BUFFER_STATUS_ERROR_NOT_INITIALIZED, some rb0, mem⟩
    else if rb0.max_elements = rb0.count then ⟨RING_BUFFER_STATUS_OK, some rb0, mem⟩
    else ⟨RING_BUFFER_STATUS_ERROR, some rb0, mem⟩

/-- Function `RING_BUFFER_GetFreeElements` of `ring_buffer.c`. -/
def RING_BUFFER_GetFreeElements (rb : Option ring_buffer_t) (mem : Memory)
    (result : Option Nat) : QueryResult :=
  match rb with
  | none => ⟨RING_BUFFER_STATUS_ERROR_INPUT_ARGS, none, mem, result⟩
  | some rb0 =>
    match result with
    | none => ⟨RING_BUFFER_STATUS_ERROR_INPUT_ARGS, some rb0, mem, none⟩
    | some r =>
      if rb0.conf.buffer = 0 then
        ⟨RING_BUFFER_STATUS_ERROR_NOT_INITIALIZED, some rb0, mem, some r⟩
      else ⟨RING_BUFFER_STATUS_OK, some rb0, mem, some (rb0.max_elements - rb0.count)⟩

/-- Function `RING_BUFFER_GetElementSize` of `ring_buffer.c`. -/
def RING_BUFFER_GetElementSize (rb : Option ring_buffer_t) (mem : Memory)
    (result : Option Nat) : QueryResult :=
  match rb with
  | none => ⟨RING_BUFFER_STATUS_ERROR_INPUT_ARGS, none, mem, result⟩
  | some rb0 =>
    match result with
    | none => ⟨RING_BUFFER_STATUS_ERROR_INPUT_ARGS, some rb0, mem, none⟩
    | some r =>
      if rb0.conf.buffer = 0 then
        ⟨RING_BUFFER_STATUS_ERROR_NOT_INITIALIZED, some rb0, mem, some r⟩
      else ⟨RING_BUFFER_STATUS_OK, some rb0, mem, some rb0.conf.element_size⟩

/-! Section: Machine: the record together with the memory, driven by API calls -/

/-- The `ring_buffer_t` object together with the byte memory its region lives in. -/
structure Machine where
  rb : ring_buffer_t
  mem : Memory

/-- One API call on an existing object, with its arguments. -/
inductive Call where
  | Insert (data : Option Memory)
  | Retrieve (data : Option Memory)
  | Peek (index : Nat) (data : Option Memory)
  | Replace (index : Nat) (data : Option Memory)
  | IsEmpty
  | IsFull
  | GetFreeElements (result : Option Nat)
  | GetElementSize (result : Option Nat)

/-- The machine after one call on the (non-`NULL`) object. -/
def Machine.call (m : Machine) : Call → Machine
  | .Insert d =>
    let r := RING_BUFFER_Insert (some m.rb) m.mem d
    ⟨r.rb.getD m.rb, r.mem⟩
  | .Retrieve d =>
    let r := RING_BUFFER_Retrieve (some m.rb) m.mem d
    ⟨r.rb.getD m.rb, r.mem⟩
  | .Peek i d =>
    let r := RING_BUFFER_Peek (some m.rb) m.mem i d
    ⟨r.rb.getD m.rb, r.mem⟩
  | .Replace i d =>
    let r := RING_BUFFER_Replace (some m.rb) m.mem i d
    ⟨r.rb.getD m.rb, r.mem⟩
  | .IsEmpty =>
    let r := RING_BUFFER_IsEmpty (some m.rb) m.mem
    ⟨r.rb.getD m.rb, r.mem⟩
  | .IsFull =>
    let r := RING_BUFFER_IsFull (some m.rb) m.mem
    ⟨r.rb.getD m.rb, r.mem⟩
  | .GetFreeElements res =>
    let r := RING_BUFFER_GetFreeElements (some m.rb) m.mem res
    ⟨r.rb.getD m.rb, r.mem⟩
  | .GetElementSize res =>
    let r := RING_BUFFER_GetElementSize (some m.rb) m.mem res
    ⟨r.rb.getD m.rb, r.mem⟩

/-- The machine after a sequence of calls, first call first. -/
def Machine.run (m : Machine) (cs : List Call) : Machine :=
  cs.foldl Machine.call m

/-- The machine after `RING_BUFFER_Init` on an object with prior content `rb0`. -/
def Machine.init (rb0 : ring_buffer_t) (mem0 : Memory) (conf : ring_buffer_conf_t) : Machine :=
  let r := RING_BUFFER_Init (some rb0) mem0 conf
  ⟨r.rb.getD rb0, r.mem⟩

/-- A configuration that `RING_BUFFER_Init` accepts. -/
def ValidConf (conf : ring_buffer_conf_t) : Prop :=
  conf.buffer ≠ 0 ∧ conf.buffer_size ≠ 0 ∧ conf.element_size ≠ 0 ∧
    conf.element_size ≤ conf.buffer_size

instance (conf : ring_buffer_conf_t) : Decidable (ValidConf conf) := by
  unfold ValidConf; infer_instance

/-- States reachable from a successful `RING_BUFFER_Init conf` by API calls. -/
def Reachable (conf : ring_buffer_conf_t) (m : Machine) : Prop :=
  ValidConf conf ∧ ∃ rb0 mem0 cs, m = (Machine.init rb0 mem0 conf).run cs

/-- The first `es` bytes of a caller buffer: one element. -/
def element (es : Nat) (d : Memory) : List uint8_t :=
  (List.range es).map d

/-- The element a successful `RING_BUFFER_Peek` stores into the destination `dst`. -/
def Peek_value (rb : ring_buffer_t) (mem : Memory) (index : Nat) (dst : Memory) :
    Option (List uint8_t) :=
  let r := RING_BUFFER_Peek (some rb) mem index (some dst)
  match r.status, r.data with
  | RING_BUFFER_STATUS_OK, some d => some (element rb.conf.element_size d)
  | _, _ => none

/-- The element a successful `RING_BUFFER_Retrieve` stores into the destination `dst`. -/
def Retrieve_value (rb : ring_buffer_t) (mem : Memory) (dst : Memory) :
    Option (List uint8_t) :=
  let r := RING_BUFFER_Retrieve (some rb) mem (some dst)
  match r.status, r.data with
  | RING_BUFFER_STATUS_OK, some d => some (element rb.conf.element_size d)
  | _, _ => none

/-! Section: Auxiliary definitions used by the statements and proofs -/

/-- The two-part copy out of the region, as written in Retrieve and Peek. -/
def wrapRead (d mem : Memory) (buf rs es pos : Nat) : Memory :=
  if rs - pos ≥ es then MEMCPY d 0 mem (buf + pos) es
  else MEMCPY (MEMCPY d 0 mem (buf + pos) (rs - pos)) (rs - pos) mem buf (es - (rs - pos))

/-- The two-part copy into the region, as written in Insert and Replace. -/
def wrapWrite (mem d : Memory) (buf rs es pos : Nat) : Memory :=
  if rs - pos ≥ es then MEMCPY mem (buf + pos) d 0 es
  else MEMCPY (MEMCPY mem (buf + pos) d 0 (rs - pos)) buf d (rs - pos) (es - (rs - pos))

/-- Representation invariant of an initialised buffer. -/
structure Inv (rb : ring_buffer_t) : Prop where
  buffer_ne : rb.conf.buffer ≠ 0
  es_pos : 0 < rb.conf.element_size
  es_le : rb.conf.element_size ≤ rb.conf.buffer_size
  max_eq : rb.max_elements = rb.conf.buffer_size / rb.conf.element_size
  count_le : rb.count ≤ rb.max_elements
  head_lt : rb.head < rb.conf.buffer_size
  tail_le : rb.tail ≤ rb.conf.buffer_size
  cursors : rb.head % rb.conf.buffer_size =
    (rb.tail + rb.count * rb.conf.element_size) % rb.conf.buffer_size

/-- The record after a successful insert. -/
def insertNext (rb : ring_buffer_t) : ring_buffer_t :=
  { rb with
    head := (rb.head + rb.conf.element_size) % rb.conf.buffer_size,
    tail := if rb.count ≥ rb.max_elements then
        (rb.tail + rb.conf.element_size) % rb.conf.buffer_size else rb.tail,
    count := if rb.count < rb.max_elements then rb.count + 1 else rb.count }

/-- The record after a successful retrieve. -/
def retrieveNext (rb : ring_buffer_t) : ring_buffer_t :=
  { rb with
    tail := if rb.conf.buffer_size - rb.tail ≥ rb.conf.element_size then
        rb.tail + rb.conf.element_size
      else rb.conf.element_size - (rb.conf.buffer_size - rb.tail),
    count := rb.count - 1 }

/-- Byte `k` of the logical element `i` (`0` is the oldest): the region byte at
offset `(tail + i * element_size + k) mod buffer_size`. -/
def elemByte (rb : ring_buffer_t) (mem : Memory) (i k : Nat) : uint8_t :=
  mem (rb.conf.buffer + (rb.tail + i * rb.conf.element_size + k) % rb.conf.buffer_size)

/-- The logical element `i`, as a list of `element_size` bytes. -/
def elemAt (rb : ring_buffer_t) (mem : Memory) (i : Nat) : List uint8_t :=
  (List.range rb.conf.element_size).map (elemByte rb mem i)

/-- The live elements, oldest first. -/
def contents (rb : ring_buffer_t) (mem : Memory) : List (List uint8_t) :=
  (List.range rb.count).map (elemAt rb mem)

/-- Reference queue, insert: append, dropping the oldest element when the queue
is full and overwriting is on, rejecting when it is full and overwriting is off. -/
def RefQueue.insert (cap : Nat) (overwrite : Bool) (q : List (List uint8_t))
    (e : List uint8_t) : List (List uint8_t) :=
  if q.length < cap then q ++ [e]
  else if overwrite then q.drop 1 ++ [e]
  else q

/-- Reference queue, retrieve: pop the front. -/
def RefQueue.retrieve (q : List (List uint8_t)) : List (List uint8_t) :=
  q.drop 1

/-- Reference queue, replace: set at index. -/
def RefQueue.replace (q : List (List uint8_t)) (i : Nat) (e : List uint8_t) :
    List (List uint8_t) :=
  q.set i e

/-- The reference queue driven by one API call; a call with a `NULL` data
pointer, a peek and the queries leave it as it is. -/
def RefQueue.call (cap : Nat) (overwrite : Bool) (es : Nat) (q : List (List uint8_t)) :
    Call → List (List uint8_t)
  | .Insert (some d) => RefQueue.insert cap overwrite q (element es d)
  | .Retrieve (some _) => RefQueue.retrieve q
  | .Replace i (some d) => RefQueue.replace q i (element es d)
  | _ => q

/-- The reference queue after a sequence of calls. -/
def RefQueue.run (cap : Nat) (overwrite : Bool) (es : Nat) (q : List (List uint8_t))
    (cs : List Call) : List (List uint8_t) :=
  cs.foldl (RefQueue.call cap overwrite es) q

/-- Insert the elements of `ds` one after the other; the statuses returned, in
call order, and the machine afterwards. -/
def insertAll : List Memory → Machine → List ring_buffer_status_e × Machine
  | [], m => ([], m)
  | d :: ds, m =>
    let r := RING_BUFFER_Insert (some m.rb) m.mem (some d)
    let rest := insertAll ds ⟨r.rb.getD m.rb, r.mem⟩
    (r.status :: rest.1, rest.2)

/-- Retrieve once into each destination of `dsts`; the status and the element
returned by each call, in call order, and the machine afterwards. -/
def retrieveAll : List Memory → Machine →
    List (ring_buffer_status_e × Option (List uint8_t)) × Machine
  | [], m => ([], m)
  | d :: ds, m =>
    let r := RING_BUFFER_Retrieve (some m.rb) m.mem (some d)
    let rest := retrieveAll ds ⟨r.rb.getD m.rb, r.mem⟩
    ((r.status, Retrieve_value m.rb m.mem d) :: rest.1, rest.2)

/-- A two-byte caller buffer holding `a`, `b`. -/
def bytes2 (a b : uint8_t) : Memory :=
  fun i => if i = 0 then a else b

/-- Example configuration: a region of 5 bytes at address 100, elements of 2
bytes, overwriting on; the region size is not a multiple of the element size. -/
def demo_conf : ring_buffer_conf_t :=
  { buffer := 100, buffer_size := 5, element_size := 2, overwrite := true }

/-- Example: the buffer of `demo_conf` after one insert. -/
def demo_one : Machine :=
  (Machine.init ring_buffer_zero (fun _ => 0) demo_conf).run [.Insert (some (bytes2 1 2))]

/-- Example: the buffer of `demo_conf` after four inserts; it is full, the
oldest element starts at offset 4 and straddles the end of the region. -/
def demo_full : Machine :=
  (Machine.init ring_buffer_zero (fun _ => 0) demo_conf).run
    [.Insert (some (bytes2 1 2)), .Insert (some (bytes2 3 4)), .Insert (some (bytes2 5 6)),
     .Insert (some (bytes2 7 8))]

/-- Example: a full buffer of one byte that does not overwrite. -/
def demo_full_reject : ring_buffer_t :=
  { conf := { buffer := 100, buffer_size := 1, element_size := 1, overwrite := false },
    head := 0, tail := 0, count := 1, max_elements := 1 }

/-- Example: an empty initialised buffer whose tail is not at offset 0. -/
def demo_empty : ring_buffer_t :=
  { conf := { buffer := 100, buffer_size := 4, element_size := 2, overwrite := false },
    head := 2, tail := 2, count := 0, max_elements := 2 }

/-- Example: a record whose every field is set, as a stale or garbage object. -/
def demo_garbage : ring_buffer_t :=
  { conf := { buffer := 255, buffer_size := 255, element_size := 255, overwrite := true },
    head := 255, tail := 255, count := 255, max_elements := 255 }

/-- The value a successful `RING_BUFFER_GetFreeElements` stores into the result
location, which held `res` before. -/
def GetFreeElements_value (rb : ring_buffer_t) (mem : Memory) (res : Nat) : Option Nat :=
  let r := RING_BUFFER_GetFreeElements (some rb) mem (some res)
  match r.status, r.result with
  | RING_BUFFER_STATUS_OK, some v => some v
  | _, _ => none

/-- Example: the buffer of `demo_conf` after two inserts; it is full and has
not wrapped yet, the byte at offset 4 is still untouched. -/
def demo_two : Machine :=
  (Machine.init ring_buffer_zero (fun _ => 0) demo_conf).run
    [.Insert (some (bytes2 1 2)), .Insert (some (bytes2 3 4))]

/-- Any call on an existing object: an API call of `Call`, a new
`RING_BUFFER_Init` with some configuration, or `RING_BUFFER_DeInit`. -/
inductive LifeCall where
  | api (c : Call)
  | Init (conf : ring_buffer_conf_t)
  | DeInit

/-- The machine after one call, lifecycle calls included. -/
def Machine.lifeCall (m : Machine) : LifeCall → Machine
  | .api c => m.call c
  | .Init conf =>
    let r := RING_BUFFER_Init (some m.rb) m.mem conf
    ⟨r.rb.getD m.rb, r.mem⟩
  | .DeInit =>
    let r := RING_BUFFER_DeInit (some m.rb) m.mem
    ⟨r.rb.getD m.rb, r.mem⟩

/-- The machine after a sequence of calls, lifecycle calls included. -/
def Machine.runLife (m : Machine) (cs : List LifeCall) : Machine :=
  cs.foldl Machine.lifeCall m

/-- Example: a region of 1 byte with 1-byte elements after Insert, Retrieve,
Insert; one element is stored. -/
def demo_tail_end : Machine :=
  (Machine.init ring_buffer_zero (fun _ => 0)
    { buffer := 100, buffer_size := 1, element_size := 1, overwrite := false }).run
    [.Insert (some (bytes2 10 0)), .Retrieve (some (bytes2 0 0)), .Insert (some (bytes2 20 0))]

/-- Example: the 5-byte buffer after three inserts with a wrap, a retrieve, a
DeInit, a new Init and one more insert. -/
def demo_life : Machine :=
  (Machine.init ring_buffer_zero (fun _ => 0) demo_conf).runLife
    [.api (.Insert (some (bytes2 1 2))), .api (.Insert (some (bytes2 3 4))),
     .api (.Insert (some (bytes2 5 6))), .api (.Retrieve (some (bytes2 0 0))),
     .DeInit, .Init demo_conf, .api (.Insert (some (bytes2 7 8)))]

/-- The accesses of the copy of one element at region offset `pos`, one pair
(region offset, index into the caller's element buffer) per iteration of the
`MEMCPY` loops, in order: a single copy of `es` bytes when
`end_space = rs - pos ≥ es`, else `end_space` bytes at `pos` followed by
`es - end_space` bytes at offset 0. -/
def copy_accesses (rs es pos : Nat) : List (Nat × Nat) :=
  if rs - pos ≥ es then (List.range es).map (fun i => (pos + i, i))
  else (List.range (rs - pos)).map (fun i => (pos + i, i)) ++
    (List.range (es - (rs - pos))).map (fun i => (i, rs - pos + i))

/-- Memory after storing, for each access in order, the byte of the caller's
buffer `d` into the region at `buf`. -/
def apply_writes (mem d : Memory) (buf : Nat) (acc : List (Nat × Nat)) : Memory :=
  acc.foldl (fun m a => Function.update m (buf + a.1) (d a.2)) mem

/-- Caller's buffer after loading, for each access in order, the region byte
into the buffer `dst`. -/
def apply_reads (dst mem : Memory) (buf : Nat) (acc : List (Nat × Nat)) : Memory :=
  acc.foldl (fun o a => Function.update o a.2 (mem (buf + a.1))) dst

/-- Addition of two `size_t` values on a machine whose `size_t` has `w` bits. -/
def size_add (w a b : Nat) : Nat :=
  (a + b) % 2 ^ w

/-- Multiplication of two `size_t` values on a machine whose `size_t` has `w` bits. -/
def size_mul (w a b : Nat) : Nat :=
  (a * b) % 2 ^ w

/-- The `element_pos` of Peek and Replace,
`(rb->tail + index * rb->conf.element_size) % rb->conf.buffer_size`, computed
with `w`-bit `size_t` arithmetic. -/
def element_pos_w (w : Nat) (rb : ring_buffer_t) (index : Nat) : Nat :=
  size_add w rb.tail (size_mul w index rb.conf.element_size) % rb.conf.buffer_size

/-- The new tail of an evicting Insert,
`(rb->tail + rb->conf.element_size) % rb->conf.buffer_size`, computed with
`w`-bit `size_t` arithmetic. -/
def evicted_tail_w (w : Nat) (rb : ring_buffer_t) : Nat :=
  size_add w rb.tail rb.conf.element_size % rb.conf.buffer_size

/-- The configuration and capacity stored in the record behind a state pointer. -/
def conf_max (rb : Option ring_buffer_t) : Option (ring_buffer_conf_t × Nat) :=
  rb.map (fun x => (x.conf, x.max_elements))

/-- The loop of the `MEMCPY` macro on bounded objects: the destination object
occupies the indices `[dlo, dhi)` of `dst` and the source object the indices
`[slo, shi)` of `src`. Every iteration first checks the index it stores to and
the index it loads from; the copy is `none` as soon as one iteration touches an
index outside its object, and otherwise the memory `MEMCPY` produces. -/
def MEMCPY_checked (dst : Memory) (dlo dhi dstp : Nat) (src : Memory) (slo shi srcp : Nat) :
    Nat → Option Memory
  | 0 => some dst
  | len + 1 =>
    match MEMCPY_checked dst dlo dhi dstp src slo shi srcp len with
    | none => none
    | some m =>
      if dlo ≤ dstp + len ∧ dstp + len < dhi ∧ slo ≤ srcp + len ∧ srcp + len < shi then
        some (Function.update m (dstp + len) (src (srcp + len)))
      else none

/-- Function `RING_BUFFER_Insert` of `ring_buffer.c` with bounds-checked copies:
the region is the object `[buffer, buffer + buffer_size)` of memory and the
caller's element the object `[0, element_size)` of `data`; the result is `none`
when a copy touches an index outside its object. -/
def RING_BUFFER_Insert_checked (rb : Option ring_buffer_t) (mem : Memory)
    (data : Option Memory) : Option StateResult :=
  match rb with
  | none => some ⟨RING_BUFFER_STATUS_ERROR_INPUT_ARGS, none, mem⟩
  | some rb0 =>
    match data with
    | none => some ⟨RING_BUFFER_STATUS_ERROR_INPUT_ARGS, some rb0, mem⟩
    | some d =>
      if rb0.conf.buffer = 0 then
        some ⟨RING_BUFFER_STATUS_ERROR_NOT_INITIALIZED, some rb0, mem⟩
      else if rb0.conf.overwrite = false ∧ rb0.count ≥ rb0.max_elements then
        some ⟨RING_BUFFER_STATUS_ERROR_BUFFER_FULL, some rb0, mem⟩
      else
        let lo := rb0.conf.buffer
        let hi := rb0.conf.buffer + rb0.conf.buffer_size
        let dest := rb0.conf.buffer + rb0.head
        let end_space := rb0.conf.buffer_size - rb0.head
        let mem1 : Option Memory :=
          if end_space ≥ rb0.conf.element_size then
            MEMCPY_checked mem lo hi dest d 0 rb0.conf.element_size 0 rb0.conf.element_size
          else
            (MEMCPY_checked mem lo hi dest d 0 rb0.conf.element_size 0 end_space).bind
              (fun m1 => MEMCPY_checked m1 lo hi rb0.conf.buffer d 0 rb0.conf.element_size
                end_space (rb0.conf.element_size - end_space))
        let rb1 :=
          if end_space ≥ rb0.conf.element_size then
            { rb0 with head := rb0.head + rb0.conf.element_size }
          else
            { rb0 with head := rb0.conf.element_size - end_space }
        let rb2 := if rb1.head ≥ rb1.conf.buffer_size then { rb1 with head := 0 } else rb1
        let rb3 :=
          if rb2.conf.overwrite = true then
            if rb2.count ≥ rb2.max_elements then
              { rb2 with tail := (rb2.tail + rb2.conf.element_size) % rb2.conf.buffer_size }
            else rb2
          else rb2
        let rb4 := if rb3.count < rb3.max_elements then { rb3 with count := rb3.count + 1 } else rb3
        mem1.map (fun m => ⟨RING_BUFFER_STATUS_OK, some rb4, m⟩)

/-- Function `RING_BUFFER_Retrieve` of `ring_buffer.c` with bounds-checked
copies; `none` when a copy touches an index outside the region or outside the
caller's element. -/
def RING_BUFFER_Retrieve_checked (rb : Option ring_buffer_t) (mem : Memory)
    (data : Option Memory) : Option DataResult :=
  match rb with
  | none => some ⟨RING_BUFFER_STATUS_ERROR_INPUT_ARGS, none, mem, data⟩
  | some rb0 =>
    match data with
    | none => some ⟨RING_BUFFER_STATUS_ERROR_INPUT_ARGS, some rb0, mem, none⟩
    | some d =>
      if rb0.conf.buffer = 0 then
        some ⟨RING_BUFFER_STATUS_ERROR_NOT_INITIALIZED, some rb0, mem, some d⟩
      else if rb0.count = 0 then
        some ⟨RING_BUFFER_STATUS_ERROR_BUFFER_EMPTY, some rb0, mem, some d⟩
      else
        let lo := rb0.conf.buffer
        let hi := rb0.conf.buffer + rb0.conf.buffer_size
        let src := rb0.conf.buffer + rb0.tail
        let end_space := rb0.conf.buffer_size - rb0.tail
        let d1 : Option Memory :=
          if end_space ≥ rb0.conf.element_size then
            MEMCPY_checked d 0 rb0.conf.element_size 0 mem lo hi src rb0.conf.element_size
          else
            (MEMCPY_checked d 0 rb0.conf.element_size 0 mem lo hi src end_space).bind
              (fun o => MEMCPY_checked o 0 rb0.conf.element_size end_space mem lo hi
                rb0.conf.buffer (rb0.conf.element_size - end_space))
        let rb1 :=
          if end_space ≥ rb0.conf.element_size then
            { rb0 with tail := rb0.tail + rb0.conf.element_size }
          else
            { rb0 with tail := rb0.conf.element_size - end_space }
        let rb2 := { rb1 with count := rb1.count - 1 }
        d1.map (fun o => ⟨RING_BUFFER_STATUS_OK, some rb2, mem, some o⟩)

/-- Function `RING_BUFFER_Peek` of `ring_buffer.c` with bounds-checked copies;
`none` when a copy touches an index outside the region or outside the caller's
element. -/
def RING_BUFFER_Peek_checked (rb : Option ring_buffer_t) (mem : Memory) (index : Nat)
    (data : Option Memory) : Option DataResult :=
  match rb with
  | none => some ⟨RING_BUFFER_STATUS_ERROR_INPUT_ARGS, none, mem, data⟩
  | some rb0 =>
    match data with
    | none => some ⟨RING_BUFFER_STATUS_ERROR_INPUT_ARGS, some rb0, mem, none⟩
    | some d =>
      if rb0.conf.buffer = 0 then
        some ⟨RING_BUFFER_STATUS_ERROR_NOT_INITIALIZED, some rb0, mem, some d⟩
      else if rb0.count = 0 then
        some ⟨RING_BUFFER_STATUS_ERROR_BUFFER_EMPTY, some rb0, mem, some d⟩
      else if index ≥ rb0.count then
        some ⟨RING_BUFFER_STATUS_ERROR_INVALID_INDEX, some rb0, mem, some d⟩
      else
        let lo := rb0.conf.buffer
        let hi := rb0.conf.buffer + rb0.conf.buffer_size
        let element_pos := (rb0.tail + index * rb0.conf.element_size) % rb0.conf.buffer_size
        let src := rb0.conf.buffer + element_pos
        let end_space := rb0.conf.buffer_size - element_pos
        let d1 : Option Memory :=
          if end_space ≥ rb0.conf.element_size then
            MEMCPY_checked d 0 rb0.conf.element_size 0 mem lo hi src rb0.conf.element_size
          else
            (MEMCPY_checked d 0 rb0.conf.element_size 0 mem lo hi src end_space).bind
              (fun o => MEMCPY_checked o 0 rb0.conf.element_size end_space mem lo hi
                rb0.conf.buffer (rb0.conf.element_size - end_space))
        d1.map (fun o => ⟨RING_BUFFER_STATUS_OK, some rb0, mem, some o⟩)

/-- Function `RING_BUFFER_Replace` of `ring_buffer.c` with bounds-checked
copies; `none` when a copy touches an index outside the region or outside the
caller's element. -/
def RING_BUFFER_Replace_checked (rb : Option ring_buffer_t) (mem : Memory) (index : Nat)
    (data : Option Memory) : Option StateResult :=
  match rb with
  | none => some ⟨RING_BUFFER_STATUS_ERROR_INPUT_ARGS, none, mem⟩
  | some rb0 =>
    match data with
    | none => some ⟨RING_BUFFER_STATUS_ERROR_INPUT_ARGS, some rb0, mem⟩
    | some d =>
      if rb0.conf.buffer = 0 then
        some ⟨RING_BUFFER_STATUS_ERROR_NOT_INITIALIZED, some rb0, mem⟩
      else if rb0.count = 0 then some ⟨RING_BUFFER_STATUS_ERROR_BUFFER_EMPTY, some rb0, mem⟩
      else if index ≥ rb0.count then
        some ⟨RING_BUFFER_STATUS_ERROR_INVALID_INDEX, some rb0, mem⟩
      else
        let lo := rb0.conf.buffer
        let hi := rb0.conf.buffer + rb0.conf.buffer_size
        let element_pos := (rb0.tail + index * rb0.conf.element_size) % rb0.conf.buffer_size
        let dest := rb0.conf.buffer + element_pos
        let end_space := rb0.conf.buffer_size - element_pos
        let mem1 : Option Memory :=
          if end_space ≥ rb0.conf.element_size then
            MEMCPY_checked mem lo hi dest d 0 rb0.conf.element_size 0 rb0.conf.element_size
          else
            (MEMCPY_checked mem lo hi dest d 0 rb0.conf.element_size 0 end_space).bind
              (fun m1 => MEMCPY_checked m1 lo hi rb0.conf.buffer d 0 rb0.conf.element_size
                end_space (rb0.conf.element_size - end_space))
        mem1.map (fun m => ⟨RING_BUFFER_STATUS_OK, some rb0, m⟩)

/-- Example: a record that Init never produces, with an element size larger
than the region; used to show that the checked copies reject an access past
the region. -/
def demo_oversized : ring_buffer_t :=
  { conf := { buffer := 100, buffer_size := 1, element_size := 3, overwrite := false },
    head := 0, tail := 0, count := 1, max_elements := 1 }

/-! Section: Lemmas -/

theorem MEMCPY_apply (dst : Memory) (dstp : Nat) (src : Memory) (srcp len a : Nat) :
    MEMCPY dst dstp src srcp len a =
      if dstp ≤ a ∧ a < dstp + len then src (srcp + (a - dstp)) else dst a := by
  induction len with
  | zero =>
    have : ¬ (dstp ≤ a ∧ a < dstp + 0) := by omega
    rw [if_neg this]; rfl
  | succ n ih =>
    simp only [MEMCPY, Function.update_apply, ih]
    by_cases h1 : a = dstp + n
    · subst h1
      have : dstp ≤ dstp + n ∧ dstp + n < dstp + (n + 1) := by omega
      simp [this]
    · by_cases h2 : dstp ≤ a ∧ a < dstp + n
      · have : dstp ≤ a ∧ a < dstp + (n + 1) := by omega
        simp [h1, h2, this]
      · have : ¬ (dstp ≤ a ∧ a < dstp + (n + 1)) := by omega
        simp [h1, h2, this]

theorem mod_wrap_lo {x rs : Nat} (h : x < rs) : x % rs = x := Nat.mod_eq_of_lt h

theorem mod_wrap_hi {x rs : Nat} (h1 : rs ≤ x) (h2 : x < 2 * rs) : x % rs = x - rs := by
  rw [Nat.mod_eq_sub_mod h1]
  exact Nat.mod_eq_of_lt (by omega)

theorem wrapRead_apply (d mem : Memory) (buf rs es pos k : Nat)
    (hes : es ≤ rs) (hpos : pos ≤ rs) :
    wrapRead d mem buf rs es pos k =
      if k < es then mem (buf + (pos + k) % rs) else d k := by
  unfold wrapRead
  by_cases hk : k < es
  · simp only [hk, if_true]
    rcases Nat.lt_or_ge (pos + k) rs with hlt | hge
    · rw [mod_wrap_lo hlt]
      split
      · rw [MEMCPY_apply]
        have : 0 ≤ k ∧ k < 0 + es := by omega
        rw [if_pos this]
        congr 1
        omega
      · rw [MEMCPY_apply]
        have h1 : ¬ (rs - pos ≤ k ∧ k < rs - pos + (es - (rs - pos))) := by omega
        rw [if_neg h1, MEMCPY_apply]
        have h2 : 0 ≤ k ∧ k < 0 + (rs - pos) := by omega
        rw [if_pos h2]
        congr 1
        omega
    · rw [mod_wrap_hi hge (by omega)]
      split
      · omega
      · rw [MEMCPY_apply]
        have h1 : rs - pos ≤ k ∧ k < rs - pos + (es - (rs - pos)) := by omega
        rw [if_pos h1]
        congr 1
        omega
  · simp only [hk, if_false]
    split
    · rw [MEMCPY_apply]
      have : ¬ (0 ≤ k ∧ k < 0 + es) := by omega
      rw [if_neg this]
    · rw [MEMCPY_apply]
      have h1 : ¬ (rs - pos ≤ k ∧ k < rs - pos + (es - (rs - pos))) := by omega
      rw [if_neg h1, MEMCPY_apply]
      have h2 : ¬ (0 ≤ k ∧ k < 0 + (rs - pos)) := by omega
      rw [if_neg h2]

theorem wrapWrite_hit (mem d : Memory) (buf rs es pos k : Nat)
    (hes : es ≤ rs) (hpos : pos < rs) (hk : k < es) :
    wrapWrite mem d buf rs es pos (buf + (pos + k) % rs) = d k := by
  unfold wrapWrite
  rcases Nat.lt_or_ge (pos + k) rs with hlt | hge
  · rw [mod_wrap_lo hlt]
    split
    · rw [MEMCPY_apply]
      have : buf + pos ≤ buf + (pos + k) ∧ buf + (pos + k) < buf + pos + es := by omega
      rw [if_pos this]
      congr 1
      omega
    · rw [MEMCPY_apply]
      have h1 : ¬ (buf ≤ buf + (pos + k) ∧ buf + (pos + k) < buf + (es - (rs - pos))) := by omega
      rw [if_neg h1, MEMCPY_apply]
      have h2 : buf + pos ≤ buf + (pos + k) ∧ buf + (pos + k) < buf + pos + (rs - pos) := by omega
      rw [if_pos h2]
      congr 1
      omega
  · rw [mod_wrap_hi hge (by omega)]
    split
    · omega
    · rw [MEMCPY_apply]
      have h1 : buf ≤ buf + (pos + k - rs) ∧ buf + (pos + k - rs) < buf + (es - (rs - pos)) := by
        omega
      rw [if_pos h1]
      congr 1
      omega

theorem wrapWrite_miss (mem d : Memory) (buf rs es pos a : Nat)
    (hes : es ≤ rs) (hpos : pos < rs)
    (ha : ∀ k, k < es → a ≠ buf + (pos + k) % rs) :
    wrapWrite mem d buf rs es pos a = mem a := by
  unfold wrapWrite
  split
  · rw [MEMCPY_apply]
    by_cases h : buf + pos ≤ a ∧ a < buf + pos + es
    · exfalso
      have hk := ha (a - (buf + pos)) (by omega)
      rw [mod_wrap_lo (by omega)] at hk
      omega
    · rw [if_neg h]
  · rw [MEMCPY_apply]
    by_cases h : buf ≤ a ∧ a < buf + (es - (rs - pos))
    · exfalso
      have hk := ha (a - buf + (rs - pos)) (by omega)
      rw [mod_wrap_hi (by omega) (by omega)] at hk
      omega
    · rw [if_neg h, MEMCPY_apply]
      by_cases h2 : buf + pos ≤ a ∧ a < buf + pos + (rs - pos)
      · exfalso
        have hk := ha (a - (buf + pos)) (by omega)
        rw [mod_wrap_lo (by omega)] at hk
        omega
      · rw [if_neg h2]

theorem Inv.max_mul_le {rb : ring_buffer_t} (h : Inv rb) :
    rb.max_elements * rb.conf.element_size ≤ rb.conf.buffer_size := by
  rw [h.max_eq]; exact Nat.div_mul_le_self _ _

theorem Insert_eq {rb : ring_buffer_t} (h : Inv rb) (mem d : Memory)
    (hg : ¬ (rb.conf.overwrite = false ∧ rb.count ≥ rb.max_elements)) :
    RING_BUFFER_Insert (some rb) mem (some d) =
      ⟨RING_BUFFER_STATUS_OK, some (insertNext rb),
        wrapWrite mem d rb.conf.buffer rb.conf.buffer_size rb.conf.element_size rb.head⟩ := by
  have hb := h.buffer_ne
  have h1 := h.es_pos
  have h2 := h.es_le
  have h3 := h.head_lt
  obtain ⟨⟨buf, rs, es, ov⟩, head, tail, count, mx⟩ := rb
  simp only at hb h1 h2 h3 hg
  simp only [RING_BUFFER_Insert, if_neg hb, if_neg hg, wrapWrite, insertNext]
  congr 2
  by_cases hc : rs - head ≥ es
  · have hm : (head + es) % rs = if head + es ≥ rs then 0 else head + es := by
      split
      · have : head + es = rs := by omega
        rw [this, Nat.mod_self]
      · exact Nat.mod_eq_of_lt (by omega)
    simp only [if_pos hc, hm]
    cases ov <;> split_ifs <;> simp_all
  · have hm : (head + es) % rs = es - (rs - head) := by
      rw [mod_wrap_hi (by omega) (by omega)]; omega
    have hn : ¬ (es - (rs - head) ≥ rs) := by omega
    simp only [if_neg hc, hm, if_neg hn]
    cases ov <;> split_ifs <;> simp_all

theorem Retrieve_eq (rb : ring_buffer_t) (mem d : Memory)
    (hb : rb.conf.buffer ≠ 0) (hc : rb.count ≠ 0) :
    RING_BUFFER_Retrieve (some rb) mem (some d) =
      ⟨RING_BUFFER_STATUS_OK, some (retrieveNext rb), mem,
        some (wrapRead d mem rb.conf.buffer rb.conf.buffer_size rb.conf.element_size rb.tail)⟩ := by
  simp only [RING_BUFFER_Retrieve, if_neg hb, if_neg hc, wrapRead, retrieveNext]
  split <;> rfl

theorem Peek_eq (rb : ring_buffer_t) (mem d : Memory) (index : Nat)
    (hb : rb.conf.buffer ≠ 0) (hi : index < rb.count) :
    RING_BUFFER_Peek (some rb) mem index (some d) =
      ⟨RING_BUFFER_STATUS_OK, some rb, mem,
        some (wrapRead d mem rb.conf.buffer rb.conf.buffer_size rb.conf.element_size
          ((rb.tail + index * rb.conf.element_size) % rb.conf.buffer_size))⟩ := by
  have hc : rb.count ≠ 0 := by omega
  have hi2 : ¬ index ≥ rb.count := by omega
  simp only [RING_BUFFER_Peek, if_neg hb, if_neg hc, if_neg hi2, wrapRead]

theorem Replace_eq (rb : ring_buffer_t) (mem d : Memory) (index : Nat)
    (hb : rb.conf.buffer ≠ 0) (hi : index < rb.count) :
    RING_BUFFER_Replace (some rb) mem index (some d) =
      ⟨RING_BUFFER_STATUS_OK, some rb,
        wrapWrite mem d rb.conf.buffer rb.conf.buffer_size rb.conf.element_size
          ((rb.tail + index * rb.conf.element_size) % rb.conf.buffer_size)⟩ := by
  have hc : rb.count ≠ 0 := by omega
  have hi2 : ¬ index ≥ rb.count := by omega
  simp only [RING_BUFFER_Replace, if_neg hb, if_neg hc, if_neg hi2, wrapWrite]

theorem Inv.bs_pos {rb : ring_buffer_t} (h : Inv rb) : 0 < rb.conf.buffer_size :=
  Nat.lt_of_lt_of_le h.es_pos h.es_le

theorem Inv.max_pos {rb : ring_buffer_t} (h : Inv rb) : 0 < rb.max_elements := by
  rw [h.max_eq]; exact Nat.div_pos h.es_le h.es_pos

theorem Init_eq (rb0 : ring_buffer_t) (mem0 : Memory) {conf : ring_buffer_conf_t}
    (hv : ValidConf conf) :
    RING_BUFFER_Init (some rb0) mem0 conf =
      ⟨RING_BUFFER_STATUS_OK,
        some { conf := conf, head := 0, tail := 0, count := 0,
               max_elements := conf.buffer_size / conf.element_size }, mem0⟩ := by
  obtain ⟨h1, h2, h3, h4⟩ := hv
  have h5 : ¬ conf.buffer_size < conf.element_size := by omega
  simp only [RING_BUFFER_Init, if_neg h1, if_neg h2, if_neg h3, if_neg h5, ring_buffer_zero]

theorem Inv_init (rb0 : ring_buffer_t) (mem0 : Memory) {conf : ring_buffer_conf_t}
    (hv : ValidConf conf) : Inv (Machine.init rb0 mem0 conf).rb := by
  simp only [Machine.init, Init_eq rb0 mem0 hv, Option.getD_some]
  obtain ⟨h1, h2, h3, h4⟩ := hv
  exact ⟨h1, Nat.pos_of_ne_zero h3, h4, rfl, Nat.zero_le _, Nat.pos_of_ne_zero h2,
    Nat.zero_le _, by simp⟩

theorem Inv_insertNext {rb : ring_buffer_t} (h : Inv rb) : Inv (insertNext rb) := by
  have hp := h.bs_pos
  have hmp := h.max_pos
  refine ⟨h.buffer_ne, h.es_pos, h.es_le, h.max_eq, ?_, ?_, ?_, ?_⟩
  · have := h.count_le
    simp only [insertNext]; split <;> omega
  · exact Nat.mod_lt _ hp
  · simp only [insertNext]
    split
    · exact Nat.le_of_lt (Nat.mod_lt _ hp)
    · exact h.tail_le
  · have hc := h.cursors
    have hcl := h.count_le
    simp only [insertNext, Nat.mod_mod]
    by_cases hf : rb.count < rb.max_elements
    · have hf2 : ¬ rb.count ≥ rb.max_elements := by omega
      simp only [if_pos hf, if_neg hf2]
      rw [Nat.add_mod, hc, ← Nat.add_mod]
      congr 1
      rw [Nat.add_mul]; omega
    · have hf2 : rb.count ≥ rb.max_elements := by omega
      simp only [if_neg hf, if_pos hf2]
      rw [Nat.add_mod, hc, ← Nat.add_mod, Nat.mod_add_mod]
      congr 1
      omega

theorem retrieveNext_tail_mod {rb : ring_buffer_t} (h : Inv rb) :
    (retrieveNext rb).tail % rb.conf.buffer_size =
      (rb.tail + rb.conf.element_size) % rb.conf.buffer_size := by
  have h1 := h.es_pos
  have h2 := h.es_le
  have h3 := h.tail_le
  simp only [retrieveNext]
  split
  · rfl
  · have e : rb.tail + rb.conf.element_size =
        rb.conf.element_size - (rb.conf.buffer_size - rb.tail) + rb.conf.buffer_size := by
      omega
    rw [e, Nat.add_mod_right]

theorem Inv_retrieveNext {rb : ring_buffer_t} (h : Inv rb) (hc : rb.count ≠ 0) :
    Inv (retrieveNext rb) := by
  have hp := h.bs_pos
  have h1 := h.es_pos
  have h2 := h.es_le
  have h3 := h.tail_le
  refine ⟨h.buffer_ne, h.es_pos, h.es_le, h.max_eq, ?_, h.head_lt, ?_, ?_⟩
  · have := h.count_le
    simp only [retrieveNext]; omega
  · simp only [retrieveNext]; split <;> omega
  · have ht := retrieveNext_tail_mod h
    have hcu := h.cursors
    show rb.head % rb.conf.buffer_size =
      ((retrieveNext rb).tail + (rb.count - 1) * rb.conf.element_size) % rb.conf.buffer_size
    rw [Nat.add_mod, ht, ← Nat.add_mod, hcu]
    congr 1
    obtain ⟨c, hc2⟩ : ∃ c, rb.count = c + 1 := ⟨rb.count - 1, by omega⟩
    rw [hc2, Nat.add_sub_cancel, Nat.add_mul]; omega

theorem mul_add_lt {i c k es : Nat} (hi : i < c) (hk : k < es) : i * es + k < c * es := by
  calc i * es + k < i * es + es := by omega
    _ = (i + 1) * es := by rw [Nat.add_mul, Nat.one_mul]
    _ ≤ c * es := Nat.mul_le_mul_right es hi

theorem mod_add_ne {t x y rs : Nat} (hxy : x < y) (hy : y < x + rs) :
    (t + x) % rs ≠ (t + y) % rs := by
  intro h
  have h1 : (t + x + 0) % rs = (t + x + (y - x)) % rs := by
    rw [Nat.add_zero, h]; congr 1; omega
  have h2 : 0 % rs = (y - x) % rs := Nat.ModEq.add_left_cancel' (t + x) h1
  rw [Nat.zero_mod, Nat.mod_eq_of_lt (by omega)] at h2
  omega

theorem mod_add_ne_of_ne {t x y rs : Nat} (hne : x ≠ y) (hx : x < rs) (hy : y < rs) :
    (t + x) % rs ≠ (t + y) % rs := by
  rcases Nat.lt_or_gt_of_ne hne with h | h
  · exact mod_add_ne h (by omega)
  · exact fun e => mod_add_ne h (by omega) e.symm

theorem mul_add_ne {i j k l es : Nat} (hij : i ≠ j) (hk : k < es) (hl : l < es) :
    i * es + k ≠ j * es + l := by
  rcases Nat.lt_or_gt_of_ne hij with h | h
  · have := mul_add_lt h hk; omega
  · have := mul_add_lt h hl; omega

theorem element_eq_of_forall {es : Nat} {f g : Memory} (h : ∀ k, k < es → f k = g k) :
    element es f = element es g := by
  unfold element
  apply List.map_congr_left
  intro k hk
  exact h k (List.mem_range.mp hk)

theorem Peek_value_eq {rb : ring_buffer_t} (h : Inv rb) (mem dst : Memory) {i : Nat}
    (hi : i < rb.count) : Peek_value rb mem i dst = some (elemAt rb mem i) := by
  simp only [Peek_value, Peek_eq rb mem dst i h.buffer_ne hi, elemAt]
  congr 1
  apply List.map_congr_left
  intro k hk
  have hk2 := List.mem_range.mp hk
  rw [wrapRead_apply _ _ _ _ _ _ _ h.es_le (Nat.le_of_lt (Nat.mod_lt _ h.bs_pos)), if_pos hk2,
    Nat.mod_add_mod]
  rfl

theorem Retrieve_value_eq {rb : ring_buffer_t} (h : Inv rb) (mem dst : Memory)
    (hc : rb.count ≠ 0) : Retrieve_value rb mem dst = some (elemAt rb mem 0) := by
  simp only [Retrieve_value, Retrieve_eq rb mem dst h.buffer_ne hc, elemAt]
  congr 1
  apply List.map_congr_left
  intro k hk
  have hk2 := List.mem_range.mp hk
  rw [wrapRead_apply _ _ _ _ _ _ _ h.es_le h.tail_le, if_pos hk2]
  simp only [elemByte, Nat.zero_mul, Nat.add_zero]

/-- A write of one element at a position congruent to `t + off` stores byte `k`
of the source at offset `(t + off + k) mod rs`. -/
theorem wrapWrite_at (mem d : Memory) {buf rs es pos t off k : Nat}
    (hes : es ≤ rs) (hpos : pos < rs) (hc : pos % rs = (t + off) % rs) (hk : k < es) :
    wrapWrite mem d buf rs es pos (buf + (t + off + k) % rs) = d k := by
  have e : (t + off + k) % rs = (pos + k) % rs := by
    rw [Nat.add_mod (t + off), ← hc, ← Nat.add_mod]
  rw [e]
  exact wrapWrite_hit mem d buf rs es pos k hes hpos hk

/-- Such a write leaves every offset outside the element unchanged. -/
theorem wrapWrite_other (mem d : Memory) {buf rs es pos t off x : Nat}
    (hes : es ≤ rs) (hpos : pos < rs) (hc : pos % rs = (t + off) % rs)
    (hx : ∀ k, k < es → (t + x) % rs ≠ (t + (off + k)) % rs) :
    wrapWrite mem d buf rs es pos (buf + (t + x) % rs) = mem (buf + (t + x) % rs) := by
  apply wrapWrite_miss mem d buf rs es pos _ hes hpos
  intro k hk e
  apply hx k hk
  have e2 : (t + (off + k)) % rs = (pos + k) % rs := by
    rw [← Nat.add_assoc, Nat.add_mod (t + off), ← hc, ← Nat.add_mod]
  rw [e2]
  omega

theorem Inv.head_mod {rb : ring_buffer_t} (h : Inv rb) :
    rb.head % rb.conf.buffer_size =
      (rb.tail + rb.count * rb.conf.element_size) % rb.conf.buffer_size := h.cursors

/-- Insert into a non-full buffer: the live elements keep their bytes. -/
theorem elemByte_insert_old {rb : ring_buffer_t} (h : Inv rb) (mem d : Memory) {i k : Nat}
    (hf : rb.count < rb.max_elements) (hi : i < rb.count) (hk : k < rb.conf.element_size) :
    elemByte (insertNext rb)
        (wrapWrite mem d rb.conf.buffer rb.conf.buffer_size rb.conf.element_size rb.head) i k =
      elemByte rb mem i k := by
  have hf2 : ¬ rb.count ≥ rb.max_elements := by omega
  simp only [elemByte, insertNext, if_neg hf2]
  rw [Nat.add_assoc]
  apply wrapWrite_other mem d h.es_le h.head_lt h.head_mod
  intro l hl
  have h1 := mul_add_lt hi hk
  have h2 := mul_add_lt hf hl
  have h3 := h.max_mul_le
  exact mod_add_ne (by omega) (by omega)

/-- Insert into a non-full buffer: the new element is the last one. -/
theorem elemByte_insert_new {rb : ring_buffer_t} (h : Inv rb) (mem d : Memory) {k : Nat}
    (hf : rb.count < rb.max_elements) (hk : k < rb.conf.element_size) :
    elemByte (insertNext rb)
        (wrapWrite mem d rb.conf.buffer rb.conf.buffer_size rb.conf.element_size rb.head)
        rb.count k = d k := by
  have hf2 : ¬ rb.count ≥ rb.max_elements := by omega
  simp only [elemByte, insertNext, if_neg hf2]
  exact wrapWrite_at mem d h.es_le h.head_lt h.head_mod hk

/-- Insert into a full buffer: element `i + 1` becomes element `i`. -/
theorem elemByte_overwrite_old {rb : ring_buffer_t} (h : Inv rb) (mem d : Memory) {i k : Nat}
    (hf : rb.count = rb.max_elements) (hi : i + 1 < rb.count) (hk : k < rb.conf.element_size) :
    elemByte (insertNext rb)
        (wrapWrite mem d rb.conf.buffer rb.conf.buffer_size rb.conf.element_size rb.head) i k =
      elemByte rb mem (i + 1) k := by
  have hf2 : rb.count ≥ rb.max_elements := by omega
  simp only [elemByte, insertNext, if_pos hf2]
  have e : ((rb.tail + rb.conf.element_size) % rb.conf.buffer_size + i * rb.conf.element_size
      + k) % rb.conf.buffer_size =
      (rb.tail + ((i + 1) * rb.conf.element_size + k)) % rb.conf.buffer_size := by
    rw [Nat.add_assoc, Nat.mod_add_mod, Nat.add_mul, Nat.one_mul]
    congr 1
    omega
  rw [e, Nat.add_assoc rb.tail]
  apply wrapWrite_other mem d h.es_le h.head_lt h.head_mod
  intro l hl
  have h1 := mul_add_lt hi hk
  have h3 := h.max_mul_le
  have h4 : (i + 1) * rb.conf.element_size = i * rb.conf.element_size + rb.conf.element_size := by
    rw [Nat.add_mul, Nat.one_mul]
  rw [hf] at h1 ⊢
  exact mod_add_ne (by omega) (by omega)

/-- Insert into a full buffer: the new element is the last one. -/
theorem elemByte_overwrite_new {rb : ring_buffer_t} (h : Inv rb) (mem d : Memory) {i k : Nat}
    (hf : rb.count = rb.max_elements) (hi : i + 1 = rb.count) (hk : k < rb.conf.element_size) :
    elemByte (insertNext rb)
        (wrapWrite mem d rb.conf.buffer rb.conf.buffer_size rb.conf.element_size rb.head) i k =
      d k := by
  have hf2 : rb.count ≥ rb.max_elements := by omega
  simp only [elemByte, insertNext, if_pos hf2]
  have e : ((rb.tail + rb.conf.element_size) % rb.conf.buffer_size + i * rb.conf.element_size
      + k) % rb.conf.buffer_size =
      (rb.tail + rb.count * rb.conf.element_size + k) % rb.conf.buffer_size := by
    rw [Nat.add_assoc, Nat.mod_add_mod, ← hi, Nat.add_mul, Nat.one_mul]
    congr 1
    omega
  rw [e]
  exact wrapWrite_at mem d h.es_le h.head_lt h.head_mod hk

/-- Retrieve: element `i + 1` becomes element `i`. -/
theorem elemByte_retrieve {rb : ring_buffer_t} (h : Inv rb) (mem : Memory) (i k : Nat) :
    elemByte (retrieveNext rb) mem i k = elemByte rb mem (i + 1) k := by
  have ht := retrieveNext_tail_mod h
  show mem (rb.conf.buffer + ((retrieveNext rb).tail + i * rb.conf.element_size + k)
      % rb.conf.buffer_size) = _
  simp only [elemByte]
  congr 2
  rw [Nat.add_assoc, Nat.add_mod, ht, ← Nat.add_mod, Nat.add_mul, Nat.one_mul]
  congr 1
  omega

/-- Replace: the addressed element takes the new bytes. -/
theorem elemByte_replace_same {rb : ring_buffer_t} (h : Inv rb) (mem d : Memory) {j k : Nat}
    (hk : k < rb.conf.element_size) :
    elemByte rb
        (wrapWrite mem d rb.conf.buffer rb.conf.buffer_size rb.conf.element_size
          ((rb.tail + j * rb.conf.element_size) % rb.conf.buffer_size)) j k = d k := by
  simp only [elemByte]
  exact wrapWrite_at mem d h.es_le (Nat.mod_lt _ h.bs_pos) (Nat.mod_mod _ _) hk

/-- Replace: every other live element keeps its bytes. -/
theorem elemByte_replace_other {rb : ring_buffer_t} (h : Inv rb) (mem d : Memory) {i j k : Nat}
    (hi : i < rb.count) (hj : j < rb.count) (hij : i ≠ j) (hk : k < rb.conf.element_size) :
    elemByte rb
        (wrapWrite mem d rb.conf.buffer rb.conf.buffer_size rb.conf.element_size
          ((rb.tail + j * rb.conf.element_size) % rb.conf.buffer_size)) i k =
      elemByte rb mem i k := by
  simp only [elemByte]
  rw [Nat.add_assoc]
  apply wrapWrite_other mem d h.es_le (Nat.mod_lt _ h.bs_pos) (Nat.mod_mod _ _)
  intro l hl
  have h1 := mul_add_lt (Nat.lt_of_lt_of_le hi h.count_le) hk
  have h2 := mul_add_lt (Nat.lt_of_lt_of_le hj h.count_le) hl
  have h3 := h.max_mul_le
  exact mod_add_ne_of_ne (mul_add_ne hij hk hl) (by omega) (by omega)

theorem call_Insert_none (m : Machine) : m.call (.Insert none) = m := rfl

theorem call_Insert_full {m : Machine} (d : Memory) (hb : m.rb.conf.buffer ≠ 0)
    (hg : m.rb.conf.overwrite = false ∧ m.rb.count ≥ m.rb.max_elements) :
    m.call (.Insert (some d)) = m := by
  simp only [Machine.call, RING_BUFFER_Insert, if_neg hb, if_pos hg, Option.getD_some]

theorem call_Insert_ok {m : Machine} (h : Inv m.rb) (d : Memory)
    (hg : ¬ (m.rb.conf.overwrite = false ∧ m.rb.count ≥ m.rb.max_elements)) :
    m.call (.Insert (some d)) =
      ⟨insertNext m.rb, wrapWrite m.mem d m.rb.conf.buffer m.rb.conf.buffer_size
        m.rb.conf.element_size m.rb.head⟩ := by
  simp only [Machine.call, Insert_eq h m.mem d hg, Option.getD_some]

theorem call_Retrieve_none (m : Machine) : m.call (.Retrieve none) = m := rfl

theorem call_Retrieve_empty {m : Machine} (d : Memory) (hc : m.rb.count = 0) :
    m.call (.Retrieve (some d)) = m := by
  simp only [Machine.call, RING_BUFFER_Retrieve, if_pos hc]
  split <;> rfl

theorem call_Retrieve_ok {m : Machine} (d : Memory) (hb : m.rb.conf.buffer ≠ 0)
    (hc : m.rb.count ≠ 0) :
    m.call (.Retrieve (some d)) = ⟨retrieveNext m.rb, m.mem⟩ := by
  simp only [Machine.call, Retrieve_eq m.rb m.mem d hb hc, Option.getD_some]

theorem call_Peek (m : Machine) (i : Nat) (d : Option Memory) : m.call (.Peek i d) = m := by
  cases d with
  | none => rfl
  | some d =>
    simp only [Machine.call, RING_BUFFER_Peek]
    split_ifs <;> rfl

theorem call_Replace_none (m : Machine) (i : Nat) : m.call (.Replace i none) = m := rfl

theorem call_Replace_bad {m : Machine} (i : Nat) (d : Memory) (hi : ¬ i < m.rb.count) :
    m.call (.Replace i (some d)) = m := by
  simp only [Machine.call, RING_BUFFER_Replace]
  have : i ≥ m.rb.count := by omega
  split_ifs <;> rfl

theorem call_Replace_ok {m : Machine} (i : Nat) (d : Memory) (hb : m.rb.conf.buffer ≠ 0)
    (hi : i < m.rb.count) :
    m.call (.Replace i (some d)) =
      ⟨m.rb, wrapWrite m.mem d m.rb.conf.buffer m.rb.conf.buffer_size m.rb.conf.element_size
        ((m.rb.tail + i * m.rb.conf.element_size) % m.rb.conf.buffer_size)⟩ := by
  simp only [Machine.call, Replace_eq m.rb m.mem d i hb hi, Option.getD_some]

theorem call_IsEmpty (m : Machine) : m.call .IsEmpty = m := by
  simp only [Machine.call, RING_BUFFER_IsEmpty]
  split_ifs <;> rfl

theorem call_IsFull (m : Machine) : m.call .IsFull = m := by
  simp only [Machine.call, RING_BUFFER_IsFull]
  split_ifs <;> rfl

theorem call_GetFreeElements (m : Machine) (r : Option Nat) :
    m.call (.GetFreeElements r) = m := by
  cases r with
  | none => rfl
  | some r =>
    simp only [Machine.call, RING_BUFFER_GetFreeElements]
    split_ifs <;> rfl

theorem call_GetElementSize (m : Machine) (r : Option Nat) :
    m.call (.GetElementSize r) = m := by
  cases r with
  | none => rfl
  | some r =>
    simp only [Machine.call, RING_BUFFER_GetElementSize]
    split_ifs <;> rfl

/-- Every call keeps the invariant and the configuration. -/
theorem Inv_call {m : Machine} (h : Inv m.rb) (c : Call) :
    Inv (m.call c).rb ∧ (m.call c).rb.conf = m.rb.conf := by
  cases c with
  | Insert d =>
    cases d with
    | none => exact ⟨h, rfl⟩
    | some d =>
      by_cases hg : m.rb.conf.overwrite = false ∧ m.rb.count ≥ m.rb.max_elements
      · rw [call_Insert_full d h.buffer_ne hg]; exact ⟨h, rfl⟩
      · rw [call_Insert_ok h d hg]; exact ⟨Inv_insertNext h, rfl⟩
  | Retrieve d =>
    cases d with
    | none => exact ⟨h, rfl⟩
    | some d =>
      by_cases hc : m.rb.count = 0
      · rw [call_Retrieve_empty d hc]; exact ⟨h, rfl⟩
      · rw [call_Retrieve_ok d h.buffer_ne hc]; exact ⟨Inv_retrieveNext h hc, rfl⟩
  | Peek i d => rw [call_Peek]; exact ⟨h, rfl⟩
  | Replace i d =>
    cases d with
    | none => exact ⟨h, rfl⟩
    | some d =>
      by_cases hi : i < m.rb.count
      · rw [call_Replace_ok i d h.buffer_ne hi]; exact ⟨h, rfl⟩
      · rw [call_Replace_bad i d hi]; exact ⟨h, rfl⟩
  | IsEmpty => rw [call_IsEmpty]; exact ⟨h, rfl⟩
  | IsFull => rw [call_IsFull]; exact ⟨h, rfl⟩
  | GetFreeElements r => rw [call_GetFreeElements]; exact ⟨h, rfl⟩
  | GetElementSize r => rw [call_GetElementSize]; exact ⟨h, rfl⟩

theorem Inv_run (cs : List Call) : ∀ {m : Machine}, Inv m.rb →
    Inv (m.run cs).rb ∧ (m.run cs).rb.conf = m.rb.conf := by
  induction cs with
  | nil => intro m h; exact ⟨h, rfl⟩
  | cons c cs ih =>
    intro m h
    have h1 := Inv_call h c
    have h2 := ih h1.1
    exact ⟨h2.1, h2.2.trans h1.2⟩

theorem init_conf (rb0 : ring_buffer_t) (mem0 : Memory) {conf : ring_buffer_conf_t}
    (hv : ValidConf conf) : (Machine.init rb0 mem0 conf).rb.conf = conf := by
  simp only [Machine.init, Init_eq rb0 mem0 hv, Option.getD_some]

/-- Reachable states satisfy the invariant and carry the configuration of Init. -/
theorem Reachable.inv {conf : ring_buffer_conf_t} {m : Machine} (h : Reachable conf m) :
    Inv m.rb ∧ m.rb.conf = conf := by
  obtain ⟨hv, rb0, mem0, cs, rfl⟩ := h
  have h1 := Inv_run cs (Inv_init rb0 mem0 hv)
  exact ⟨h1.1, h1.2.trans (init_conf rb0 mem0 hv)⟩

theorem contents_length (rb : ring_buffer_t) (mem : Memory) :
    (contents rb mem).length = rb.count := by
  simp [contents]

theorem contents_getElem (rb : ring_buffer_t) (mem : Memory) (i : Nat)
    (hi : i < (contents rb mem).length) : (contents rb mem)[i] = elemAt rb mem i := by
  simp [contents]

theorem contents_getElem_some {rb : ring_buffer_t} (mem : Memory) {i : Nat} (hi : i < rb.count) :
    (contents rb mem)[i]? = some (elemAt rb mem i) := by
  rw [List.getElem?_eq_getElem (by rw [contents_length]; exact hi), contents_getElem]

theorem elemAt_congr {rb rb2 : ring_buffer_t} {mem mem2 : Memory} {i j : Nat}
    (hes : rb2.conf.element_size = rb.conf.element_size)
    (h : ∀ k, k < rb.conf.element_size → elemByte rb2 mem2 i k = elemByte rb mem j k) :
    elemAt rb2 mem2 i = elemAt rb mem j := by
  unfold elemAt
  rw [hes]
  apply List.map_congr_left
  intro k hk
  exact h k (List.mem_range.mp hk)

theorem elemAt_eq_element {rb2 : ring_buffer_t} {mem2 d : Memory} {i es : Nat}
    (hes : rb2.conf.element_size = es)
    (h : ∀ k, k < es → elemByte rb2 mem2 i k = d k) :
    elemAt rb2 mem2 i = element es d := by
  unfold elemAt element
  rw [hes]
  apply List.map_congr_left
  intro k hk
  exact h k (List.mem_range.mp hk)

theorem contents_insert {rb : ring_buffer_t} (h : Inv rb) (mem d : Memory)
    (hf : rb.count < rb.max_elements) :
    contents (insertNext rb)
        (wrapWrite mem d rb.conf.buffer rb.conf.buffer_size rb.conf.element_size rb.head) =
      contents rb mem ++ [element rb.conf.element_size d] := by
  have hc : (insertNext rb).count = rb.count + 1 := by simp only [insertNext, if_pos hf]
  apply List.ext_getElem
  · simp [contents_length, hc]
  · intro i h1 h2
    rw [contents_getElem]
    rw [contents_length, hc] at h1
    by_cases hi : i < rb.count
    · rw [List.getElem_append_left (by rw [contents_length]; exact hi), contents_getElem]
      exact elemAt_congr rfl (fun k hk => elemByte_insert_old h mem d hf hi hk)
    · have hi2 : i = rb.count := by omega
      subst hi2
      rw [List.getElem_append_right (by rw [contents_length])]
      simp only [contents_length, Nat.sub_self, List.getElem_cons_zero]
      exact elemAt_eq_element rfl (fun k hk => elemByte_insert_new h mem d hf hk)

theorem contents_overwrite {rb : ring_buffer_t} (h : Inv rb) (mem d : Memory)
    (hf : rb.count = rb.max_elements) :
    contents (insertNext rb)
        (wrapWrite mem d rb.conf.buffer rb.conf.buffer_size rb.conf.element_size rb.head) =
      (contents rb mem).drop 1 ++ [element rb.conf.element_size d] := by
  have hf2 : ¬ rb.count < rb.max_elements := by omega
  have hc : (insertNext rb).count = rb.count := by simp only [insertNext, if_neg hf2]
  have hp : 0 < rb.count := hf ▸ h.max_pos
  apply List.ext_getElem
  · simp only [contents_length, hc, List.length_append, List.length_drop, List.length_singleton]
    omega
  · intro i h1 h2
    rw [contents_getElem]
    rw [contents_length, hc] at h1
    by_cases hi : i + 1 < rb.count
    · rw [List.getElem_append_left (by simp only [List.length_drop, contents_length]; omega),
        List.getElem_drop, contents_getElem]
      have e : 1 + i = i + 1 := by omega
      rw [e]
      exact elemAt_congr rfl (fun k hk => elemByte_overwrite_old h mem d hf hi hk)
    · have hi2 : i + 1 = rb.count := by omega
      rw [List.getElem_append_right (by simp only [List.length_drop, contents_length]; omega)]
      simp only [List.length_drop, contents_length]
      have e : i - (rb.count - 1) = 0 := by omega
      simp only [e, List.getElem_cons_zero]
      exact elemAt_eq_element rfl (fun k hk => elemByte_overwrite_new h mem d hf hi2 hk)

theorem contents_retrieve {rb : ring_buffer_t} (h : Inv rb) (mem : Memory) :
    contents (retrieveNext rb) mem = (contents rb mem).drop 1 := by
  have hc : (retrieveNext rb).count = rb.count - 1 := rfl
  apply List.ext_getElem
  · simp only [contents_length, hc, List.length_drop]
  · intro i h1 h2
    rw [contents_getElem, List.getElem_drop, contents_getElem]
    have e : 1 + i = i + 1 := by omega
    rw [e]
    exact elemAt_congr rfl (fun k _ => elemByte_retrieve h mem i k)

theorem contents_replace {rb : ring_buffer_t} (h : Inv rb) (mem d : Memory) {j : Nat}
    (hj : j < rb.count) :
    contents rb
        (wrapWrite mem d rb.conf.buffer rb.conf.buffer_size rb.conf.element_size
          ((rb.tail + j * rb.conf.element_size) % rb.conf.buffer_size)) =
      (contents rb mem).set j (element rb.conf.element_size d) := by
  apply List.ext_getElem
  · simp only [contents_length, List.length_set]
  · intro i h1 h2
    rw [contents_getElem, List.getElem_set]
    rw [contents_length] at h1
    by_cases hij : j = i
    · subst hij
      rw [if_pos rfl]
      exact elemAt_eq_element rfl (fun k hk => elemByte_replace_same h mem d hk)
    · rw [if_neg hij, contents_getElem]
      exact elemAt_congr rfl
        (fun k hk => elemByte_replace_other h mem d h1 hj (fun e => hij e.symm) hk)

/-- One call on the buffer is one call on the reference queue. -/
theorem contents_call {m : Machine} (h : Inv m.rb) (c : Call) :
    contents (m.call c).rb (m.call c).mem =
      RefQueue.call m.rb.max_elements m.rb.conf.overwrite m.rb.conf.element_size
        (contents m.rb m.mem) c := by
  cases c with
  | Insert d =>
    cases d with
    | none => rfl
    | some d =>
      simp only [RefQueue.call, RefQueue.insert, contents_length]
      by_cases hf : m.rb.count < m.rb.max_elements
      · have hg : ¬ (m.rb.conf.overwrite = false ∧ m.rb.count ≥ m.rb.max_elements) := by omega
        rw [call_Insert_ok h d hg, if_pos hf]
        exact contents_insert h m.mem d hf
      · rw [if_neg hf]
        have hfe : m.rb.count = m.rb.max_elements := by have := h.count_le; omega
        cases hov : m.rb.conf.overwrite with
        | false =>
          have hg : m.rb.conf.overwrite = false ∧ m.rb.count ≥ m.rb.max_elements :=
            ⟨hov, by omega⟩
          rw [call_Insert_full d h.buffer_ne hg]
          simp
        | true =>
          have hg : ¬ (m.rb.conf.overwrite = false ∧ m.rb.count ≥ m.rb.max_elements) := by
            simp [hov]
          rw [call_Insert_ok h d hg, if_pos rfl]
          exact contents_overwrite h m.mem d hfe
  | Retrieve d =>
    cases d with
    | none => rfl
    | some d =>
      simp only [RefQueue.call, RefQueue.retrieve]
      by_cases hc : m.rb.count = 0
      · rw [call_Retrieve_empty d hc]
        have : contents m.rb m.mem = [] := List.eq_nil_of_length_eq_zero
          (by rw [contents_length]; exact hc)
        rw [this]; rfl
      · rw [call_Retrieve_ok d h.buffer_ne hc]
        exact contents_retrieve h m.mem
  | Peek i d => rw [call_Peek]; rfl
  | Replace i d =>
    cases d with
    | none => rfl
    | some d =>
      simp only [RefQueue.call, RefQueue.replace]
      by_cases hi : i < m.rb.count
      · rw [call_Replace_ok i d h.buffer_ne hi]
        exact contents_replace h m.mem d hi
      · rw [call_Replace_bad i d hi, List.set_eq_of_length_le]
        rw [contents_length]; omega
  | IsEmpty => rw [call_IsEmpty]; rfl
  | IsFull => rw [call_IsFull]; rfl
  | GetFreeElements r => rw [call_GetFreeElements]; rfl
  | GetElementSize r => rw [call_GetElementSize]; rfl

theorem Inv_call_max {m : Machine} (h : Inv m.rb) (c : Call) :
    (m.call c).rb.max_elements = m.rb.max_elements := by
  have h1 := Inv_call h c
  rw [h1.1.max_eq, h.max_eq, h1.2]

/-- A run of calls on the buffer is the same run on the reference queue. -/
theorem contents_run (cs : List Call) : ∀ {m : Machine}, Inv m.rb →
    contents (m.run cs).rb (m.run cs).mem =
      RefQueue.run m.rb.max_elements m.rb.conf.overwrite m.rb.conf.element_size
        (contents m.rb m.mem) cs := by
  induction cs with
  | nil => intro m _; rfl
  | cons c cs ih =>
    intro m h
    have h1 := Inv_call h c
    have h2 := ih h1.1
    rw [Inv_call_max h c, h1.2, contents_call h c] at h2
    exact h2

theorem insertAll_spec (ds : List Memory) : ∀ {m : Machine}, Inv m.rb →
    m.rb.count + ds.length ≤ m.rb.max_elements →
    (insertAll ds m).1 = List.replicate ds.length RING_BUFFER_STATUS_OK ∧
    Inv (insertAll ds m).2.rb ∧
    (insertAll ds m).2.rb.conf = m.rb.conf ∧
    contents (insertAll ds m).2.rb (insertAll ds m).2.mem =
      contents m.rb m.mem ++ ds.map (element m.rb.conf.element_size) := by
  induction ds with
  | nil => intro m h _; simp [insertAll, h]
  | cons d ds ih =>
    intro m h hle
    rw [List.length_cons] at hle
    have hf : m.rb.count < m.rb.max_elements := by omega
    have hg : ¬ (m.rb.conf.overwrite = false ∧ m.rb.count ≥ m.rb.max_elements) := by omega
    have hc : (insertNext m.rb).count = m.rb.count + 1 := by simp only [insertNext, if_pos hf]
    have hi := Inv_insertNext h
    have ih2 := @ih ⟨insertNext m.rb, wrapWrite m.mem d m.rb.conf.buffer m.rb.conf.buffer_size
        m.rb.conf.element_size m.rb.head⟩ hi
      (by show (insertNext m.rb).count + ds.length ≤ m.rb.max_elements; omega)
    simp only [insertAll, Insert_eq h m.mem d hg, Option.getD_some]
    refine ⟨?_, ih2.2.1, ih2.2.2.1, ?_⟩
    · rw [ih2.1]; rfl
    · rw [ih2.2.2.2, contents_insert h m.mem d hf]
      simp [insertNext]

theorem retrieveAll_spec (dsts : List Memory) : ∀ {m : Machine}, Inv m.rb →
    dsts.length ≤ m.rb.count →
    (retrieveAll dsts m).1 =
      ((contents m.rb m.mem).take dsts.length).map (fun e => (RING_BUFFER_STATUS_OK, some e)) ∧
    (retrieveAll dsts m).2.rb.count = m.rb.count - dsts.length := by
  induction dsts with
  | nil => intro m h _; simp [retrieveAll]
  | cons d ds ih =>
    intro m h hle
    rw [List.length_cons] at hle
    have hc : m.rb.count ≠ 0 := by omega
    have hi := Inv_retrieveNext h hc
    have ih2 := @ih ⟨retrieveNext m.rb, m.mem⟩ hi
      (by show ds.length ≤ m.rb.count - 1; omega)
    simp only [retrieveAll, Retrieve_eq m.rb m.mem d h.buffer_ne hc, Option.getD_some,
      Retrieve_value_eq h m.mem d hc]
    constructor
    · rw [ih2.1, contents_retrieve h m.mem]
      have hlen : 0 < (contents m.rb m.mem).length := by rw [contents_length]; omega
      have e0 := contents_getElem m.rb m.mem 0 hlen
      cases hq : contents m.rb m.mem with
      | nil => rw [hq] at hlen; simp at hlen
      | cons q qs =>
        simp only [hq, List.getElem_cons_zero] at e0
        simp [e0]
    · rw [ih2.2]
      show m.rb.count - 1 - ds.length = m.rb.count - (ds.length + 1)
      omega

theorem contents_init (rb0 : ring_buffer_t) (mem0 : Memory) {conf : ring_buffer_conf_t}
    (hv : ValidConf conf) :
    contents (Machine.init rb0 mem0 conf).rb (Machine.init rb0 mem0 conf).mem = [] := by
  simp only [Machine.init, Init_eq rb0 mem0 hv, Option.getD_some, contents, List.range_zero,
    List.map_nil]

theorem init_count (rb0 : ring_buffer_t) (mem0 : Memory) {conf : ring_buffer_conf_t}
    (hv : ValidConf conf) : (Machine.init rb0 mem0 conf).rb.count = 0 := by
  simp only [Machine.init, Init_eq rb0 mem0 hv, Option.getD_some]

theorem init_max (rb0 : ring_buffer_t) (mem0 : Memory) {conf : ring_buffer_conf_t}
    (hv : ValidConf conf) :
    (Machine.init rb0 mem0 conf).rb.max_elements = conf.buffer_size / conf.element_size := by
  simp only [Machine.init, Init_eq rb0 mem0 hv, Option.getD_some]

theorem wrapRead_indep (d1 d2 mem : Memory) (buf rs es pos : Nat) {k : Nat} (hk : k < es) :
    wrapRead d1 mem buf rs es pos k = wrapRead d2 mem buf rs es pos k := by
  unfold wrapRead
  split
  · simp only [MEMCPY_apply]
    split_ifs <;> first | rfl | (exfalso; omega)
  · simp only [MEMCPY_apply]
    split_ifs <;> first | rfl | (exfalso; omega)

theorem Peek_frame (rb : ring_buffer_t) (mem : Memory) (index : Nat) (data : Option Memory) :
    (RING_BUFFER_Peek (some rb) mem index data).rb = some rb ∧
      (RING_BUFFER_Peek (some rb) mem index data).mem = mem := by
  cases data with
  | none => exact ⟨rfl, rfl⟩
  | some d =>
    simp only [RING_BUFFER_Peek]
    split_ifs <;> exact ⟨rfl, rfl⟩

theorem Peek_ok_iff (rb : ring_buffer_t) (mem d : Memory) (index : Nat) :
    (RING_BUFFER_Peek (some rb) mem index (some d)).status = RING_BUFFER_STATUS_OK ↔
      rb.conf.buffer ≠ 0 ∧ index < rb.count := by
  by_cases h1 : rb.conf.buffer = 0
  · simp [RING_BUFFER_Peek, h1]
  · by_cases h2 : rb.count = 0
    · simp [RING_BUFFER_Peek, h1, h2]
    · by_cases h3 : index ≥ rb.count
      · simp only [RING_BUFFER_Peek, if_neg h1, if_neg h2, if_pos h3]
        constructor
        · intro h; cases h
        · intro h; omega
      · simp only [RING_BUFFER_Peek, if_neg h1, if_neg h2, if_neg h3]
        exact ⟨fun _ => ⟨h1, by omega⟩, fun _ => trivial⟩

/-- C1: FIFO round trip. For every valid configuration, every list `ds` of at
most `max_elements = buffer_size / element_size` elements and any destinations
`dsts` (one per element), starting from the freshly initialised buffer every
insert returns OK, and the following retrieves all return OK and yield the
inserted elements in insertion order, byte for byte; afterwards `count = 0`. -/
theorem C1_fifo_round_trip (conf : ring_buffer_conf_t) (hv : ValidConf conf)
    (rb0 : ring_buffer_t) (mem0 : Memory) (ds dsts : List Memory)
    (hn : ds.length ≤ conf.buffer_size / conf.element_size) (hl : dsts.length = ds.length) :
    (insertAll ds (Machine.init rb0 mem0 conf)).1 =
        List.replicate ds.length RING_BUFFER_STATUS_OK ∧
      (retrieveAll dsts (insertAll ds (Machine.init rb0 mem0 conf)).2).1 =
        ds.map (fun d => (RING_BUFFER_STATUS_OK, some (element conf.element_size d))) ∧
      (retrieveAll dsts (insertAll ds (Machine.init rb0 mem0 conf)).2).2.rb.count = 0 := by
  have h0 := Inv_init rb0 mem0 hv
  have hc0 := init_count rb0 mem0 hv
  have hm0 := init_max rb0 mem0 hv
  have hi := insertAll_spec ds h0 (by rw [hc0, hm0]; omega)
  have hcount : (insertAll ds (Machine.init rb0 mem0 conf)).2.rb.count = ds.length := by
    rw [← contents_length _ (insertAll ds (Machine.init rb0 mem0 conf)).2.mem, hi.2.2.2,
      contents_init rb0 mem0 hv]
    simp
  have hr := retrieveAll_spec dsts hi.2.1 (by rw [hcount, hl])
  refine ⟨hi.1, ?_, ?_⟩
  · rw [hr.1, hi.2.2.2, contents_init rb0 mem0 hv, init_conf rb0 mem0 hv, hl]
    simp [List.map_map, Function.comp_def]
  · rw [hr.2, hcount, hl, Nat.sub_self]

/-- Witness of C1 on a 5-byte region with 2-byte elements. -/
theorem C1_fifo_round_trip_witness :
    ValidConf demo_conf ∧
      (retrieveAll [bytes2 0 0, bytes2 0 0]
        (insertAll [bytes2 1 2, bytes2 3 4]
          (Machine.init ring_buffer_zero (fun _ => 0) demo_conf)).2).1 =
        [bytes2 1 2, bytes2 3 4].map
          (fun d => (RING_BUFFER_STATUS_OK, some (element demo_conf.element_size d))) :=
  ⟨by decide,
    (C1_fifo_round_trip demo_conf (by decide) ring_buffer_zero (fun _ => 0)
      [bytes2 1 2, bytes2 3 4] [bytes2 0 0, bytes2 0 0] (by decide) (by decide)).2.1⟩

/-- C2: wraparound correctness against a reference queue. For every valid
configuration and every finite sequence of calls after Init, the buffer holds as
many elements as the reference list-based bounded queue driven by the same
calls, and for every index `i < count` Peek returns OK and exactly the `i`-th
oldest element of the reference queue. -/
theorem C2_reference_queue (conf : ring_buffer_conf_t) (hv : ValidConf conf)
    (rb0 : ring_buffer_t) (mem0 : Memory) (cs : List Call) (i : Nat) (dst : Memory) :
    ((Machine.init rb0 mem0 conf).run cs).rb.count =
        (RefQueue.run (conf.buffer_size / conf.element_size) conf.overwrite conf.element_size
          [] cs).length ∧
      (i < ((Machine.init rb0 mem0 conf).run cs).rb.count →
        (RING_BUFFER_Peek (some ((Machine.init rb0 mem0 conf).run cs).rb)
          ((Machine.init rb0 mem0 conf).run cs).mem i (some dst)).status = RING_BUFFER_STATUS_OK ∧
        Peek_value ((Machine.init rb0 mem0 conf).run cs).rb
          ((Machine.init rb0 mem0 conf).run cs).mem i dst =
          (RefQueue.run (conf.buffer_size / conf.element_size) conf.overwrite conf.element_size
            [] cs)[i]?) := by
  have h0 := Inv_init rb0 mem0 hv
  have hrun := contents_run cs h0
  rw [init_max rb0 mem0 hv, init_conf rb0 mem0 hv, contents_init rb0 mem0 hv] at hrun
  have hI := (Inv_run cs h0).1
  constructor
  · rw [← hrun, contents_length]
  · intro hi
    refine ⟨(Peek_ok_iff _ _ _ _).mpr ⟨hI.buffer_ne, hi⟩, ?_⟩
    rw [← hrun, Peek_value_eq hI _ dst hi, contents_getElem_some _ hi]

/-- Witness of C2: the second oldest element of the wrapped full buffer. -/
theorem C2_reference_queue_witness :
    ValidConf demo_conf ∧
      Peek_value demo_full.rb demo_full.mem 1 (bytes2 0 0) = some [7, 8] := by
  refine ⟨by decide, ?_⟩
  have h := (C2_reference_queue demo_conf (by decide) ring_buffer_zero (fun _ => 0)
    [.Insert (some (bytes2 1 2)), .Insert (some (bytes2 3 4)), .Insert (some (bytes2 5 6)),
     .Insert (some (bytes2 7 8))] 1 (bytes2 0 0)).2 (by decide)
  exact h.2.trans (by decide)

/-- C3: no-overwrite policy. On an initialised buffer with `overwrite = false`
and `count = max_elements`, Insert with a non-null source returns BUFFER_FULL
and leaves the whole record (so `count`, `head`, `tail`) and every byte of
memory (so the region) unchanged. -/
theorem C3_insert_full_rejected (rb : ring_buffer_t) (mem d : Memory)
    (hinit : rb.conf.buffer ≠ 0) (hov : rb.conf.overwrite = false)
    (hfull : rb.count = rb.max_elements) :
    RING_BUFFER_Insert (some rb) mem (some d) =
      ⟨RING_BUFFER_STATUS_ERROR_BUFFER_FULL, some rb, mem⟩ := by
  have hg : rb.conf.overwrite = false ∧ rb.count ≥ rb.max_elements := ⟨hov, by omega⟩
  simp only [RING_BUFFER_Insert, if_neg hinit, if_pos hg]

/-- Witness of C3 on a full one-byte buffer. -/
theorem C3_insert_full_rejected_witness :
    demo_full_reject.conf.buffer ≠ 0 ∧ demo_full_reject.conf.overwrite = false ∧
      demo_full_reject.count = demo_full_reject.max_elements ∧
      RING_BUFFER_Insert (some demo_full_reject) (fun _ => 0) (some (bytes2 20 0)) =
        ⟨RING_BUFFER_STATUS_ERROR_BUFFER_FULL, some demo_full_reject, fun _ => 0⟩ :=
  ⟨by decide, by decide, by decide,
    C3_insert_full_rejected demo_full_reject (fun _ => 0) (bytes2 20 0) (by decide) (by decide)
      (by decide)⟩

/-- C4: overwrite policy, cursors. In every reachable state with
`overwrite = true` and `count = max_elements`, Insert with a non-null source
returns OK, leaves `count = max_elements` and sets `tail` to
`(tail + element_size) mod buffer_size`. -/
theorem C4_overwrite_cursors (conf : ring_buffer_conf_t) (m : Machine) (d : Memory)
    (hr : Reachable conf m) (hov : m.rb.conf.overwrite = true)
    (hfull : m.rb.count = m.rb.max_elements) :
    (RING_BUFFER_Insert (some m.rb) m.mem (some d)).status = RING_BUFFER_STATUS_OK ∧
      ∃ rb1, (RING_BUFFER_Insert (some m.rb) m.mem (some d)).rb = some rb1 ∧
        rb1.count = m.rb.max_elements ∧
        rb1.tail = (m.rb.tail + m.rb.conf.element_size) % m.rb.conf.buffer_size := by
  have hI := hr.inv.1
  have hg : ¬ (m.rb.conf.overwrite = false ∧ m.rb.count ≥ m.rb.max_elements) := by simp [hov]
  rw [Insert_eq hI m.mem d hg]
  have h1 : ¬ m.rb.count < m.rb.max_elements := by omega
  have h2 : m.rb.count ≥ m.rb.max_elements := by omega
  refine ⟨rfl, insertNext m.rb, rfl, ?_, ?_⟩
  · simp only [insertNext, if_neg h1]; exact hfull
  · simp only [insertNext, if_pos h2]

/-- Witness of C4 on the wrapped full buffer: the tail moves from 4 to 1. -/
theorem C4_overwrite_cursors_witness :
    Reachable demo_conf demo_full ∧ demo_full.rb.conf.overwrite = true ∧
      demo_full.rb.count = demo_full.rb.max_elements ∧
      ∃ rb1, (RING_BUFFER_Insert (some demo_full.rb) demo_full.mem (some (bytes2 9 9))).rb
          = some rb1 ∧
        rb1.count = demo_full.rb.max_elements ∧
        rb1.tail = (demo_full.rb.tail + demo_full.rb.conf.element_size)
          % demo_full.rb.conf.buffer_size :=
  ⟨⟨by decide, _, _, _, rfl⟩, by decide, by decide,
    (C4_overwrite_cursors demo_conf demo_full (bytes2 9 9) ⟨by decide, _, _, _, rfl⟩
      (by decide) (by decide)).2⟩

/-- C5: overwrite policy, contents. In every reachable state with
`overwrite = true` and `count = max_elements`, after Insert of `d` the record is
some `rb1` such that for every `i` with `i + 1 < count` Peek at `i` afterwards
returns the element Peek at `i + 1` returned before, Peek at `count - 1`
afterwards returns `d`, and when `max_elements ≥ 2` the next Retrieve returns
the element that was second oldest before. -/
theorem C5_overwrite_contents (conf : ring_buffer_conf_t) (m : Machine) (d : Memory)
    (hr : Reachable conf m) (hov : m.rb.conf.overwrite = true)
    (hfull : m.rb.count = m.rb.max_elements) :
    ∃ rb1, (RING_BUFFER_Insert (some m.rb) m.mem (some d)).rb = some rb1 ∧
      (∀ i dst dst1, i + 1 < m.rb.count →
        Peek_value rb1 (RING_BUFFER_Insert (some m.rb) m.mem (some d)).mem i dst =
          Peek_value m.rb m.mem (i + 1) dst1 ∧
        (Peek_value m.rb m.mem (i + 1) dst1).isSome = true) ∧
      (∀ dst, Peek_value rb1 (RING_BUFFER_Insert (some m.rb) m.mem (some d)).mem
          (m.rb.count - 1) dst = some (element m.rb.conf.element_size d)) ∧
      (2 ≤ m.rb.max_elements → ∀ dst dst1,
        Retrieve_value rb1 (RING_BUFFER_Insert (some m.rb) m.mem (some d)).mem dst =
          Peek_value m.rb m.mem 1 dst1 ∧
        (Peek_value m.rb m.mem 1 dst1).isSome = true) := by
  have hI := hr.inv.1
  have hg : ¬ (m.rb.conf.overwrite = false ∧ m.rb.count ≥ m.rb.max_elements) := by simp [hov]
  have hI1 := Inv_insertNext hI
  have h1 : ¬ m.rb.count < m.rb.max_elements := by omega
  have hc : (insertNext m.rb).count = m.rb.count := by simp only [insertNext, if_neg h1]
  have hp := hI.max_pos
  rw [Insert_eq hI m.mem d hg]
  refine ⟨insertNext m.rb, rfl, ?_, ?_, ?_⟩
  · intro i dst dst1 hi
    rw [Peek_value_eq hI1 _ dst (by rw [hc]; omega), Peek_value_eq hI m.mem dst1 hi]
    exact ⟨congrArg some
      (elemAt_congr rfl (fun k hk => elemByte_overwrite_old hI m.mem d hfull hi hk)), rfl⟩
  · intro dst
    rw [Peek_value_eq hI1 _ dst (by rw [hc]; omega)]
    exact congrArg some (elemAt_eq_element rfl
      (fun k hk => elemByte_overwrite_new hI m.mem d hfull (by omega) hk))
  · intro h2 dst dst1
    have hi : 0 + 1 < m.rb.count := by omega
    rw [Retrieve_value_eq hI1 _ dst (by rw [hc]; omega), Peek_value_eq hI m.mem dst1 hi]
    exact ⟨congrArg some
      (elemAt_congr rfl (fun k hk => elemByte_overwrite_old hI m.mem d hfull hi hk)), rfl⟩

/-- Witness of C5 on the wrapped full buffer, where the new element straddles
the end of the region. -/
theorem C5_overwrite_contents_witness :
    Reachable demo_conf demo_full ∧ demo_full.rb.conf.overwrite = true ∧
      demo_full.rb.count = demo_full.rb.max_elements ∧
      ∃ rb1, (RING_BUFFER_Insert (some demo_full.rb) demo_full.mem (some (bytes2 9 9))).rb
          = some rb1 ∧
        (∀ dst, Peek_value rb1
          (RING_BUFFER_Insert (some demo_full.rb) demo_full.mem (some (bytes2 9 9))).mem
          (demo_full.rb.count - 1) dst = some (element demo_full.rb.conf.element_size
            (bytes2 9 9))) := by
  refine ⟨⟨by decide, _, _, _, rfl⟩, by decide, by decide, ?_⟩
  obtain ⟨rb1, h1, _, h3, _⟩ := C5_overwrite_contents demo_conf demo_full (bytes2 9 9)
    ⟨by decide, _, _, _, rfl⟩ (by decide) (by decide)
  exact ⟨rb1, h1, h3⟩

/-- C6: insert into a non-full buffer appends. In every reachable state with
`count < max_elements`, Insert of `d` returns OK, `count` grows by exactly 1,
`tail` is unchanged, Peek at the old `count` afterwards returns `d`, and for
every `i` below the old `count` Peek at `i` returns the same element as before. -/
theorem C6_insert_appends (conf : ring_buffer_conf_t) (m : Machine) (d : Memory)
    (hr : Reachable conf m) (hroom : m.rb.count < m.rb.max_elements) :
    (RING_BUFFER_Insert (some m.rb) m.mem (some d)).status = RING_BUFFER_STATUS_OK ∧
      ∃ rb1, (RING_BUFFER_Insert (some m.rb) m.mem (some d)).rb = some rb1 ∧
        rb1.count = m.rb.count + 1 ∧ rb1.tail = m.rb.tail ∧
        (∀ dst, Peek_value rb1 (RING_BUFFER_Insert (some m.rb) m.mem (some d)).mem
          m.rb.count dst = some (element m.rb.conf.element_size d)) ∧
        (∀ i dst dst1, i < m.rb.count →
          Peek_value rb1 (RING_BUFFER_Insert (some m.rb) m.mem (some d)).mem i dst =
            Peek_value m.rb m.mem i dst1 ∧
          (Peek_value m.rb m.mem i dst1).isSome = true) := by
  have hI := hr.inv.1
  have hg : ¬ (m.rb.conf.overwrite = false ∧ m.rb.count ≥ m.rb.max_elements) := by omega
  have hI1 := Inv_insertNext hI
  have h1 : ¬ m.rb.count ≥ m.rb.max_elements := by omega
  have hc : (insertNext m.rb).count = m.rb.count + 1 := by simp only [insertNext, if_pos hroom]
  rw [Insert_eq hI m.mem d hg]
  refine ⟨rfl, insertNext m.rb, rfl, hc, ?_, ?_, ?_⟩
  · simp only [insertNext, if_neg h1]
  · intro dst
    rw [Peek_value_eq hI1 _ dst (by rw [hc]; omega)]
    exact congrArg some (elemAt_eq_element rfl
      (fun k hk => elemByte_insert_new hI m.mem d hroom hk))
  · intro i dst dst1 hi
    rw [Peek_value_eq hI1 _ dst (by rw [hc]; omega), Peek_value_eq hI m.mem dst1 hi]
    exact ⟨congrArg some
      (elemAt_congr rfl (fun k hk => elemByte_insert_old hI m.mem d hroom hi hk)), rfl⟩

/-- Witness of C6 on the buffer holding one element. -/
theorem C6_insert_appends_witness :
    Reachable demo_conf demo_one ∧ demo_one.rb.count < demo_one.rb.max_elements ∧
      (RING_BUFFER_Insert (some demo_one.rb) demo_one.mem (some (bytes2 3 4))).status =
        RING_BUFFER_STATUS_OK :=
  ⟨⟨by decide, _, _, _, rfl⟩, by decide,
    (C6_insert_appends demo_conf demo_one (bytes2 3 4) ⟨by decide, _, _, _, rfl⟩
      (by decide)).1⟩

/-- C7: Retrieve copies and removes the oldest live element. In every reachable
state with `count > 0`, Retrieve returns OK and leaves every byte of memory as
it was; byte `k < element_size` of the destination is afterwards the region
byte at offset `(tail + k) mod buffer_size` (the bytes of the oldest element),
and the destination bytes from `element_size` on are not written; this is the
element Peek at 0 returned immediately before. `count` decreases by exactly 1,
and for every `i` below the new `count` Peek at `i` afterwards returns what
Peek at `i + 1` returned before, namely the region bytes at offsets
`(tail + (i + 1) * element_size + k) mod buffer_size` of the old `tail`. -/
theorem C7_retrieve_oldest (conf : ring_buffer_conf_t) (m : Machine) (dst : Memory)
    (hr : Reachable conf m) (hpos : 0 < m.rb.count) :
    (RING_BUFFER_Retrieve (some m.rb) m.mem (some dst)).status = RING_BUFFER_STATUS_OK ∧
      (∀ dst0, Retrieve_value m.rb m.mem dst = Peek_value m.rb m.mem 0 dst0 ∧
        (Peek_value m.rb m.mem 0 dst0).isSome = true) ∧
      (∃ rb1, (RING_BUFFER_Retrieve (some m.rb) m.mem (some dst)).rb = some rb1 ∧
        rb1.count + 1 = m.rb.count ∧
        (∀ i dst1 dst2, i < rb1.count →
          Peek_value rb1 (RING_BUFFER_Retrieve (some m.rb) m.mem (some dst)).mem i dst1 =
            Peek_value m.rb m.mem (i + 1) dst2 ∧
          (Peek_value m.rb m.mem (i + 1) dst2).isSome = true ∧
          Peek_value rb1 (RING_BUFFER_Retrieve (some m.rb) m.mem (some dst)).mem i dst1 =
            some ((List.range m.rb.conf.element_size).map (fun k =>
              m.mem (m.rb.conf.buffer +
                (m.rb.tail + (i + 1) * m.rb.conf.element_size + k)
                  % m.rb.conf.buffer_size))))) ∧
      (RING_BUFFER_Retrieve (some m.rb) m.mem (some dst)).mem = m.mem ∧
      (∃ out, (RING_BUFFER_Retrieve (some m.rb) m.mem (some dst)).data = some out ∧
        (∀ k, k < m.rb.conf.element_size →
          out k = m.mem (m.rb.conf.buffer + (m.rb.tail + k) % m.rb.conf.buffer_size)) ∧
        (∀ k, m.rb.conf.element_size ≤ k → out k = dst k)) ∧
      Retrieve_value m.rb m.mem dst =
        some ((List.range m.rb.conf.element_size).map (fun k =>
          m.mem (m.rb.conf.buffer + (m.rb.tail + k) % m.rb.conf.buffer_size))) := by
  have hI := hr.inv.1
  have hc : m.rb.count ≠ 0 := by omega
  have hI1 := Inv_retrieveNext hI hc
  have hc1 : (retrieveNext m.rb).count = m.rb.count - 1 := rfl
  refine ⟨by rw [Retrieve_eq m.rb m.mem dst hI.buffer_ne hc], ?_, ?_, ?_, ?_, ?_⟩
  · intro dst0
    rw [Retrieve_value_eq hI m.mem dst hc, Peek_value_eq hI m.mem dst0 hpos]
    exact ⟨rfl, rfl⟩
  · rw [Retrieve_eq m.rb m.mem dst hI.buffer_ne hc]
    refine ⟨retrieveNext m.rb, rfl, by rw [hc1]; omega, ?_⟩
    intro i dst1 dst2 hi
    rw [hc1] at hi
    rw [Peek_value_eq hI1 _ dst1 (by rw [hc1]; exact hi),
      Peek_value_eq hI m.mem dst2 (by omega)]
    exact ⟨congrArg some (elemAt_congr rfl (fun k _ => elemByte_retrieve hI m.mem i k)), rfl,
      congrArg some (elemAt_congr rfl (fun k _ => elemByte_retrieve hI m.mem i k))⟩
  · rw [Retrieve_eq m.rb m.mem dst hI.buffer_ne hc]
  · rw [Retrieve_eq m.rb m.mem dst hI.buffer_ne hc]
    refine ⟨_, rfl, ?_, ?_⟩
    · intro k hk
      rw [wrapRead_apply _ _ _ _ _ _ _ hI.es_le hI.tail_le, if_pos hk]
    · intro k hk
      rw [wrapRead_apply _ _ _ _ _ _ _ hI.es_le hI.tail_le, if_neg (by omega)]
  · rw [Retrieve_value_eq hI m.mem dst hc]
    refine congrArg some ?_
    unfold elemAt
    apply List.map_congr_left
    intro k _
    simp only [elemByte, Nat.zero_mul, Nat.add_zero]

/-- Witness of C7 on the wrapped full buffer: the retrieved element is the one
that straddles the end of the region, bytes 5 and 6 at offsets 4 and 0. -/
theorem C7_retrieve_oldest_witness :
    Reachable demo_conf demo_full ∧ 0 < demo_full.rb.count ∧
      (RING_BUFFER_Retrieve (some demo_full.rb) demo_full.mem (some (bytes2 0 0))).status =
        RING_BUFFER_STATUS_OK ∧
      Retrieve_value demo_full.rb demo_full.mem (bytes2 0 0) =
        some ((List.range demo_full.rb.conf.element_size).map (fun k =>
          demo_full.mem (demo_full.rb.conf.buffer +
            (demo_full.rb.tail + k) % demo_full.rb.conf.buffer_size))) ∧
      (List.range demo_full.rb.conf.element_size).map (fun k =>
          demo_full.mem (demo_full.rb.conf.buffer +
            (demo_full.rb.tail + k) % demo_full.rb.conf.buffer_size)) = [5, 6] :=
  ⟨⟨by decide, _, _, _, rfl⟩, by decide,
    (C7_retrieve_oldest demo_conf demo_full (bytes2 0 0) ⟨by decide, _, _, _, rfl⟩
      (by decide)).1,
    (C7_retrieve_oldest demo_conf demo_full (bytes2 0 0) ⟨by decide, _, _, _, rfl⟩
      (by decide)).2.2.2.2.2, by decide⟩

/-- C8: Retrieve on an empty buffer fails without mutation. On every
initialised buffer with `count = 0` and a non-null destination, Retrieve
returns BUFFER_EMPTY and leaves the record, the memory and the destination
unchanged. And on a region of 1 byte with element size 1 and overwriting off,
Insert(10), Insert(20), Retrieve, Retrieve return OK (count 1), BUFFER_FULL
(count 1), OK with value 10 (count 0), BUFFER_EMPTY. -/
theorem C8_retrieve_empty :
    (∀ (rb : ring_buffer_t) (mem d : Memory), rb.conf.buffer ≠ 0 → rb.count = 0 →
      RING_BUFFER_Retrieve (some rb) mem (some d) =
        ⟨RING_BUFFER_STATUS_ERROR_BUFFER_EMPTY, some rb, mem, some d⟩) ∧
    (∀ (b : Nat) (rb0 : ring_buffer_t) (mem0 d10 d20 dst dst2 : Memory),
      b ≠ 0 → d10 0 = 10 → d20 0 = 20 →
      let r0 := RING_BUFFER_Init (some rb0) mem0
        { buffer := b, buffer_size := 1, element_size := 1, overwrite := false }
      let r1 := RING_BUFFER_Insert r0.rb r0.mem (some d10)
      let r2 := RING_BUFFER_Insert r1.rb r1.mem (some d20)
      let r3 := RING_BUFFER_Retrieve r2.rb r2.mem (some dst)
      let r4 := RING_BUFFER_Retrieve r3.rb r3.mem (some dst2)
      r0.status = RING_BUFFER_STATUS_OK ∧
      r1.status = RING_BUFFER_STATUS_OK ∧ r1.rb.map ring_buffer_t.count = some 1 ∧
      r2.status = RING_BUFFER_STATUS_ERROR_BUFFER_FULL ∧
      r2.rb.map ring_buffer_t.count = some 1 ∧
      r3.status = RING_BUFFER_STATUS_OK ∧ r3.data.map (fun o => o 0) = some 10 ∧
      r3.rb.map ring_buffer_t.count = some 0 ∧
      r4.status = RING_BUFFER_STATUS_ERROR_BUFFER_EMPTY) := by
  constructor
  · intro rb mem d hb hc
    simp only [RING_BUFFER_Retrieve, if_neg hb, if_pos hc]
  · intro b rb0 mem0 d10 d20 dst dst2 hb h10 h20
    simp [RING_BUFFER_Init, RING_BUFFER_Insert, RING_BUFFER_Retrieve, ring_buffer_zero, MEMCPY,
      hb, h10]

/-- Witness of C8 on an empty buffer whose cursors are at offset 2. -/
theorem C8_retrieve_empty_witness :
    demo_empty.conf.buffer ≠ 0 ∧ demo_empty.count = 0 ∧
      RING_BUFFER_Retrieve (some demo_empty) (fun _ => 0) (some (bytes2 7 7)) =
        ⟨RING_BUFFER_STATUS_ERROR_BUFFER_EMPTY, some demo_empty, fun _ => 0,
          some (bytes2 7 7)⟩ :=
  ⟨by decide, by decide,
    C8_retrieve_empty.1 demo_empty (fun _ => 0) (bytes2 7 7) (by decide) (by decide)⟩

/-- C9: Peek reads from the modular offset. In every reachable state and for
every `index < count`, Peek returns OK and for every `k < element_size` byte
`k` of the destination is the region byte at offset
`(tail + index * element_size + k) mod buffer_size`; the destination bytes from
`element_size` on are not written. -/
theorem C9_peek_modular_read (conf : ring_buffer_conf_t) (m : Machine) (index : Nat)
    (dst : Memory) (hr : Reachable conf m) (hi : index < m.rb.count) :
    (RING_BUFFER_Peek (some m.rb) m.mem index (some dst)).status = RING_BUFFER_STATUS_OK ∧
      ∃ out, (RING_BUFFER_Peek (some m.rb) m.mem index (some dst)).data = some out ∧
        (∀ k, k < m.rb.conf.element_size →
          out k = m.mem (m.rb.conf.buffer +
            (m.rb.tail + index * m.rb.conf.element_size + k) % m.rb.conf.buffer_size)) ∧
        (∀ k, m.rb.conf.element_size ≤ k → out k = dst k) := by
  have hI := hr.inv.1
  rw [Peek_eq m.rb m.mem dst index hI.buffer_ne hi]
  refine ⟨rfl, _, rfl, ?_, ?_⟩
  · intro k hk
    rw [wrapRead_apply _ _ _ _ _ _ _ hI.es_le (Nat.le_of_lt (Nat.mod_lt _ hI.bs_pos)),
      if_pos hk, Nat.mod_add_mod]
  · intro k hk
    rw [wrapRead_apply _ _ _ _ _ _ _ hI.es_le (Nat.le_of_lt (Nat.mod_lt _ hI.bs_pos)),
      if_neg (by omega)]

/-- Witness of C9 on the wrapped full buffer, at the element that straddles the
end of the region. -/
theorem C9_peek_modular_read_witness :
    Reachable demo_conf demo_full ∧ 0 < demo_full.rb.count ∧
      (RING_BUFFER_Peek (some demo_full.rb) demo_full.mem 0 (some (bytes2 0 0))).status =
        RING_BUFFER_STATUS_OK :=
  ⟨⟨by decide, _, _, _, rfl⟩, by decide,
    (C9_peek_modular_read demo_conf demo_full 0 (bytes2 0 0) ⟨by decide, _, _, _, rfl⟩
      (by decide)).1⟩

/-- C10: Peek is read-only and repeatable. For every record, memory, index and
destination (null or not), Peek leaves the record (`conf`, `head`, `tail`,
`count`, `max_elements`) and every byte of memory unchanged, whatever status it
returns; and when a Peek succeeds, a second Peek at the same index right after
it succeeds too and stores the same `element_size` bytes, whatever the two
destinations held before. -/
theorem C10_peek_read_only (rb : ring_buffer_t) (mem : Memory) (index : Nat)
    (data : Option Memory) (d1 d2 : Memory) :
    (RING_BUFFER_Peek (some rb) mem index data).rb = some rb ∧
      (RING_BUFFER_Peek (some rb) mem index data).mem = mem ∧
      ((RING_BUFFER_Peek (some rb) mem index (some d1)).status = RING_BUFFER_STATUS_OK →
        (RING_BUFFER_Peek (RING_BUFFER_Peek (some rb) mem index (some d1)).rb
          (RING_BUFFER_Peek (some rb) mem index (some d1)).mem index (some d2)).status =
            RING_BUFFER_STATUS_OK ∧
        ∃ o1 o2, (RING_BUFFER_Peek (some rb) mem index (some d1)).data = some o1 ∧
          (RING_BUFFER_Peek (RING_BUFFER_Peek (some rb) mem index (some d1)).rb
            (RING_BUFFER_Peek (some rb) mem index (some d1)).mem index (some d2)).data =
              some o2 ∧
          ∀ k, k < rb.conf.element_size → o1 k = o2 k) := by
  refine ⟨(Peek_frame rb mem index data).1, (Peek_frame rb mem index data).2, ?_⟩
  intro hok
  obtain ⟨hb, hi⟩ := (Peek_ok_iff rb mem d1 index).mp hok
  rw [(Peek_frame rb mem index (some d1)).1, (Peek_frame rb mem index (some d1)).2]
  rw [Peek_eq rb mem d1 index hb hi, Peek_eq rb mem d2 index hb hi]
  exact ⟨rfl, _, _, rfl, rfl, fun k hk => wrapRead_indep d1 d2 mem _ _ _ _ hk⟩

/-- Witness of C10 on the wrapped full buffer. -/
theorem C10_peek_read_only_witness :
    (RING_BUFFER_Peek (some demo_full.rb) demo_full.mem 1 (some (bytes2 0 0))).status =
        RING_BUFFER_STATUS_OK ∧
      (RING_BUFFER_Peek
        (RING_BUFFER_Peek (some demo_full.rb) demo_full.mem 1 (some (bytes2 0 0))).rb
        (RING_BUFFER_Peek (some demo_full.rb) demo_full.mem 1 (some (bytes2 0 0))).mem 1
        (some (bytes2 5 5))).status = RING_BUFFER_STATUS_OK :=
  ⟨by decide,
    ((C10_peek_read_only demo_full.rb demo_full.mem 1 none (bytes2 0 0) (bytes2 5 5)).2.2
      (by decide)).1⟩

theorem Peek_status (rb : ring_buffer_t) (mem d : Memory) (index : Nat)
    (hb : rb.conf.buffer ≠ 0) :
    (RING_BUFFER_Peek (some rb) mem index (some d)).status =
      if rb.count = 0 then RING_BUFFER_STATUS_ERROR_BUFFER_EMPTY
      else if index ≥ rb.count then RING_BUFFER_STATUS_ERROR_INVALID_INDEX
      else RING_BUFFER_STATUS_OK := by
  simp only [RING_BUFFER_Peek, if_neg hb]
  split_ifs <;> rfl

theorem Replace_status (rb : ring_buffer_t) (mem d : Memory) (index : Nat)
    (hb : rb.conf.buffer ≠ 0) :
    (RING_BUFFER_Replace (some rb) mem index (some d)).status =
      if rb.count = 0 then RING_BUFFER_STATUS_ERROR_BUFFER_EMPTY
      else if index ≥ rb.count then RING_BUFFER_STATUS_ERROR_INVALID_INDEX
      else RING_BUFFER_STATUS_OK := by
  simp only [RING_BUFFER_Replace, if_neg hb]
  split_ifs <;> rfl

/-- C11: index validation of Peek and Replace. On every initialised buffer and
with a non-null data pointer: when `count = 0` both return BUFFER_EMPTY for
every index, and when `count > 0` both return INVALID_INDEX exactly when
`index ≥ count` and OK exactly when `index < count`. -/
theorem C11_index_validation (rb : ring_buffer_t) (mem d : Memory) (index : Nat)
    (hinit : rb.conf.buffer ≠ 0) :
    (rb.count = 0 →
      (RING_BUFFER_Peek (some rb) mem index (some d)).status =
        RING_BUFFER_STATUS_ERROR_BUFFER_EMPTY ∧
      (RING_BUFFER_Replace (some rb) mem index (some d)).status =
        RING_BUFFER_STATUS_ERROR_BUFFER_EMPTY) ∧
    (0 < rb.count →
      ((RING_BUFFER_Peek (some rb) mem index (some d)).status =
        RING_BUFFER_STATUS_ERROR_INVALID_INDEX ↔ index ≥ rb.count) ∧
      ((RING_BUFFER_Peek (some rb) mem index (some d)).status =
        RING_BUFFER_STATUS_OK ↔ index < rb.count) ∧
      ((RING_BUFFER_Replace (some rb) mem index (some d)).status =
        RING_BUFFER_STATUS_ERROR_INVALID_INDEX ↔ index ≥ rb.count) ∧
      ((RING_BUFFER_Replace (some rb) mem index (some d)).status =
        RING_BUFFER_STATUS_OK ↔ index < rb.count)) := by
  rw [Peek_status rb mem d index hinit, Replace_status rb mem d index hinit]
  constructor
  · intro h0
    rw [if_pos h0]
    exact ⟨rfl, rfl⟩
  · intro hpos
    have h0 : ¬ rb.count = 0 := by omega
    rw [if_neg h0]
    by_cases hi : index ≥ rb.count
    · rw [if_pos hi]
      have hlt : ¬ index < rb.count := by omega
      simp [hi, hlt]
    · rw [if_neg hi]
      have hlt : index < rb.count := by omega
      simp [hi, hlt]

/-- Witness of C11 on the wrapped full buffer, at the first invalid index. -/
theorem C11_index_validation_witness :
    demo_full.rb.conf.buffer ≠ 0 ∧ 0 < demo_full.rb.count ∧
      ((RING_BUFFER_Replace (some demo_full.rb) demo_full.mem 2 (some (bytes2 0 0))).status =
        RING_BUFFER_STATUS_ERROR_INVALID_INDEX ↔ 2 ≥ demo_full.rb.count) :=
  ⟨by decide, by decide,
    ((C11_index_validation demo_full.rb demo_full.mem (bytes2 0 0) 2 (by decide)).2
      (by decide)).2.2.1⟩

/-- C12: Replace then Peek round trip. In every reachable state, for every
`index < count` and every element `d`, Replace at `index` returns OK and a Peek
at `index` right after it returns OK with exactly the bytes of `d`. And on a
region of 2 bytes with element size 1 (either policy): after Insert(0xAA),
Insert(0xBB), Replace(1, 0x99), Peek(1) yields 0x99 and the two Retrieves yield
0xAA then 0x99, every call returning OK. -/
theorem C12_replace_peek_round_trip :
    (∀ (conf : ring_buffer_conf_t) (m : Machine) (index : Nat) (d dst : Memory),
      Reachable conf m → index < m.rb.count →
      (RING_BUFFER_Replace (some m.rb) m.mem index (some d)).status = RING_BUFFER_STATUS_OK ∧
      (RING_BUFFER_Peek (RING_BUFFER_Replace (some m.rb) m.mem index (some d)).rb
        (RING_BUFFER_Replace (some m.rb) m.mem index (some d)).mem index (some dst)).status =
          RING_BUFFER_STATUS_OK ∧
      ∃ out, (RING_BUFFER_Peek (RING_BUFFER_Replace (some m.rb) m.mem index (some d)).rb
          (RING_BUFFER_Replace (some m.rb) m.mem index (some d)).mem index (some dst)).data =
            some out ∧
        ∀ k, k < m.rb.conf.element_size → out k = d k) ∧
    (∀ (b : Nat) (ov : Bool) (rb0 : ring_buffer_t) (mem0 dAA dBB d99 dst dst1 dst2 : Memory),
      b ≠ 0 → dAA 0 = 0xAA → dBB 0 = 0xBB → d99 0 = 0x99 →
      let r0 := RING_BUFFER_Init (some rb0) mem0
        { buffer := b, buffer_size := 2, element_size := 1, overwrite := ov }
      let r1 := RING_BUFFER_Insert r0.rb r0.mem (some dAA)
      let r2 := RING_BUFFER_Insert r1.rb r1.mem (some dBB)
      let r3 := RING_BUFFER_Replace r2.rb r2.mem 1 (some d99)
      let r4 := RING_BUFFER_Peek r3.rb r3.mem 1 (some dst)
      let r5 := RING_BUFFER_Retrieve r4.rb r4.mem (some dst1)
      let r6 := RING_BUFFER_Retrieve r5.rb r5.mem (some dst2)
      r0.status = RING_BUFFER_STATUS_OK ∧ r1.status = RING_BUFFER_STATUS_OK ∧
      r2.status = RING_BUFFER_STATUS_OK ∧ r3.status = RING_BUFFER_STATUS_OK ∧
      r4.status = RING_BUFFER_STATUS_OK ∧ r4.data.map (fun o => o 0) = some 0x99 ∧
      r5.status = RING_BUFFER_STATUS_OK ∧ r5.data.map (fun o => o 0) = some 0xAA ∧
      r6.status = RING_BUFFER_STATUS_OK ∧ r6.data.map (fun o => o 0) = some 0x99) := by
  constructor
  · intro conf m index d dst hr hi
    have hI := hr.inv.1
    rw [Replace_eq m.rb m.mem d index hI.buffer_ne hi]
    dsimp only
    rw [Peek_eq m.rb _ dst index hI.buffer_ne hi]
    refine ⟨by trivial, by trivial, _, rfl, ?_⟩
    intro k hk
    rw [wrapRead_apply _ _ _ _ _ _ _ hI.es_le (Nat.le_of_lt (Nat.mod_lt _ hI.bs_pos)),
      if_pos hk, Nat.mod_add_mod]
    exact elemByte_replace_same hI m.mem d hk
  · intro b ov rb0 mem0 dAA dBB d99 dst dst1 dst2 hb hAA hBB h99
    cases ov <;>
      simp [RING_BUFFER_Init, RING_BUFFER_Insert, RING_BUFFER_Replace, RING_BUFFER_Peek,
        RING_BUFFER_Retrieve, ring_buffer_zero, MEMCPY, hb, hAA, h99]

/-- Witness of C12 on the wrapped full buffer: replacing and peeking the
element that straddles the end of the region. -/
theorem C12_replace_peek_round_trip_witness :
    Reachable demo_conf demo_full ∧ 0 < demo_full.rb.count ∧
      (RING_BUFFER_Peek
        (RING_BUFFER_Replace (some demo_full.rb) demo_full.mem 0 (some (bytes2 9 8))).rb
        (RING_BUFFER_Replace (some demo_full.rb) demo_full.mem 0 (some (bytes2 9 8))).mem 0
        (some (bytes2 0 0))).status = RING_BUFFER_STATUS_OK :=
  ⟨⟨by decide, _, _, _, rfl⟩, by decide,
    (C12_replace_peek_round_trip.1 demo_conf demo_full 0 (bytes2 9 8) (bytes2 0 0)
      ⟨by decide, _, _, _, rfl⟩ (by decide)).2.1⟩

/-- C13: Replace changes only the addressed element. In every reachable state
and for `index < count`, Replace returns OK, leaves the record (`count`, `head`,
`tail`, `conf`, `max_elements`) unchanged, and for every `j < count` other than
`index` Peek at `j` returns the same element after the replace as before it. -/
theorem C13_replace_frame (conf : ring_buffer_conf_t) (m : Machine) (index : Nat) (d : Memory)
    (hr : Reachable conf m) (hi : index < m.rb.count) :
    (RING_BUFFER_Replace (some m.rb) m.mem index (some d)).status = RING_BUFFER_STATUS_OK ∧
      (RING_BUFFER_Replace (some m.rb) m.mem index (some d)).rb = some m.rb ∧
      ∀ j dst dst1, j < m.rb.count → j ≠ index →
        Peek_value m.rb (RING_BUFFER_Replace (some m.rb) m.mem index (some d)).mem j dst =
          Peek_value m.rb m.mem j dst1 ∧
        (Peek_value m.rb m.mem j dst1).isSome = true := by
  have hI := hr.inv.1
  rw [Replace_eq m.rb m.mem d index hI.buffer_ne hi]
  refine ⟨rfl, rfl, ?_⟩
  intro j dst dst1 hj hne
  rw [Peek_value_eq hI _ dst hj, Peek_value_eq hI m.mem dst1 hj]
  exact ⟨congrArg some
    (elemAt_congr rfl (fun k hk => elemByte_replace_other hI m.mem d hj hi hne hk)), rfl⟩

/-- Witness of C13 on the wrapped full buffer: replacing the element that
straddles the end of the region. -/
theorem C13_replace_frame_witness :
    Reachable demo_conf demo_full ∧ 0 < demo_full.rb.count ∧
      (RING_BUFFER_Replace (some demo_full.rb) demo_full.mem 0 (some (bytes2 9 9))).rb =
        some demo_full.rb :=
  ⟨⟨by decide, _, _, _, rfl⟩, by decide,
    (C13_replace_frame demo_conf demo_full 0 (bytes2 9 9) ⟨by decide, _, _, _, rfl⟩
      (by decide)).2.1⟩

/-- C14: Init postcondition. For every valid configuration and every prior
content `rb0` of the record, Init returns OK, leaves memory as it is, and the
record has `conf` equal to the given configuration, `head = tail = count = 0`
and `max_elements = buffer_size / element_size`. -/
theorem C14_init_postcondition (conf : ring_buffer_conf_t) (rb0 : ring_buffer_t)
    (mem0 : Memory) (hv : ValidConf conf) :
    RING_BUFFER_Init (some rb0) mem0 conf =
      ⟨RING_BUFFER_STATUS_OK,
        some { conf := conf, head := 0, tail := 0, count := 0,
               max_elements := conf.buffer_size / conf.element_size }, mem0⟩ :=
  Init_eq rb0 mem0 hv

/-- Witness of C14: Init over a record whose every field was 255. -/
theorem C14_init_postcondition_witness :
    ValidConf demo_conf ∧
      RING_BUFFER_Init (some demo_garbage) (fun _ => 0) demo_conf =
        ⟨RING_BUFFER_STATUS_OK,
          some { conf := demo_conf, head := 0, tail := 0, count := 0,
                 max_elements := demo_conf.buffer_size / demo_conf.element_size },
          fun _ => 0⟩ :=
  ⟨by decide, C14_init_postcondition demo_conf demo_garbage (fun _ => 0) (by decide)⟩

theorem Init_status_ok_iff (rb0 : ring_buffer_t) (mem : Memory) (conf : ring_buffer_conf_t) :
    (RING_BUFFER_Init (some rb0) mem conf).status = RING_BUFFER_STATUS_OK ↔ ValidConf conf := by
  constructor
  · intro h
    simp only [RING_BUFFER_Init] at h
    split_ifs at h with h1 h2 h3 h4
    exact ⟨h1, h2, h3, by omega⟩
  · intro hv
    rw [Init_eq rb0 mem hv]

theorem Init_fail (rb0 : ring_buffer_t) (mem : Memory) (conf : ring_buffer_conf_t)
    (h : ¬ ValidConf conf) :
    RING_BUFFER_Init (some rb0) mem conf =
      ⟨RING_BUFFER_STATUS_ERROR_INPUT_ARGS, some rb0, mem⟩ := by
  simp only [RING_BUFFER_Init]
  split_ifs with h1 h2 h3 h4 <;> first | rfl | exact absurd ⟨h1, h2, h3, by omega⟩ h

/-- C15: Init validation. Init returns OK if and only if the state pointer is
non-null, `conf.buffer` is non-null, `conf.buffer_size ≠ 0`,
`conf.element_size ≠ 0` and `conf.buffer_size ≥ conf.element_size`; whenever it
does not return OK it returns INPUT_ARGS and leaves the record and the memory
unchanged. -/
theorem C15_init_validation (rb : Option ring_buffer_t) (mem : Memory)
    (conf : ring_buffer_conf_t) :
    ((RING_BUFFER_Init rb mem conf).status = RING_BUFFER_STATUS_OK ↔
      rb ≠ none ∧ conf.buffer ≠ 0 ∧ conf.buffer_size ≠ 0 ∧ conf.element_size ≠ 0 ∧
        conf.buffer_size ≥ conf.element_size) ∧
    ((RING_BUFFER_Init rb mem conf).status ≠ RING_BUFFER_STATUS_OK →
      RING_BUFFER_Init rb mem conf = ⟨RING_BUFFER_STATUS_ERROR_INPUT_ARGS, rb, mem⟩) := by
  cases rb with
  | none =>
    constructor
    · constructor
      · intro h; cases h
      · intro h; exact absurd rfl h.1
    · intro _; rfl
  | some rb0 =>
    constructor
    · rw [Init_status_ok_iff]
      constructor
      · intro hv; exact ⟨by simp, hv⟩
      · intro h; exact h.2
    · intro h
      rw [Ne, Init_status_ok_iff] at h
      exact Init_fail rb0 mem conf h

/-- Witness of C15: an element size larger than the region is rejected and the
prior record survives. -/
theorem C15_init_validation_witness :
    (RING_BUFFER_Init (some demo_garbage) (fun _ => 0)
        { buffer := 100, buffer_size := 2, element_size := 3, overwrite := false }).status ≠
        RING_BUFFER_STATUS_OK ∧
      RING_BUFFER_Init (some demo_garbage) (fun _ => 0)
        { buffer := 100, buffer_size := 2, element_size := 3, overwrite := false } =
        ⟨RING_BUFFER_STATUS_ERROR_INPUT_ARGS, some demo_garbage, fun _ => 0⟩ :=
  ⟨by decide,
    (C15_init_validation (some demo_garbage) (fun _ => 0)
      { buffer := 100, buffer_size := 2, element_size := 3, overwrite := false }).2
      (by decide)⟩

/-- C16: DeInit. On a null state it returns INPUT_ARGS; on a record whose
region reference is null it returns NOT_INITIALIZED and changes nothing;
otherwise it returns OK with every field cleared (`conf.buffer` null, sizes `0`,
`overwrite` false, `head = tail = count = max_elements = 0`), memory untouched,
and a second DeInit right after it returns NOT_INITIALIZED and changes nothing. -/
theorem C16_deinit (rb : ring_buffer_t) (mem : Memory) :
    RING_BUFFER_DeInit none mem = ⟨RING_BUFFER_STATUS_ERROR_INPUT_ARGS, none, mem⟩ ∧
    (rb.conf.buffer = 0 →
      RING_BUFFER_DeInit (some rb) mem =
        ⟨RING_BUFFER_STATUS_ERROR_NOT_INITIALIZED, some rb, mem⟩) ∧
    (rb.conf.buffer ≠ 0 →
      RING_BUFFER_DeInit (some rb) mem =
        ⟨RING_BUFFER_STATUS_OK,
          some { conf := { buffer := 0, buffer_size := 0, element_size := 0,
                           overwrite := false },
                 head := 0, tail := 0, count := 0, max_elements := 0 }, mem⟩ ∧
      RING_BUFFER_DeInit (RING_BUFFER_DeInit (some rb) mem).rb
          (RING_BUFFER_DeInit (some rb) mem).mem =
        ⟨RING_BUFFER_STATUS_ERROR_NOT_INITIALIZED, (RING_BUFFER_DeInit (some rb) mem).rb,
          mem⟩) := by
  refine ⟨rfl, ?_, ?_⟩
  · intro h
    simp only [RING_BUFFER_DeInit, if_pos h]
  · intro h
    simp only [RING_BUFFER_DeInit, if_neg h, ring_buffer_zero, if_true, and_self]

/-- Witness of C16: the wrapped full buffer is cleared, and a record that was
never initialised is rejected. -/
theorem C16_deinit_witness :
    (demo_full.rb.conf.buffer ≠ 0 ∧
      (RING_BUFFER_DeInit (some demo_full.rb) demo_full.mem).status = RING_BUFFER_STATUS_OK) ∧
    (ring_buffer_zero.conf.buffer = 0 ∧
      RING_BUFFER_DeInit (some ring_buffer_zero) (fun _ => 0) =
        ⟨RING_BUFFER_STATUS_ERROR_NOT_INITIALIZED, some ring_buffer_zero, fun _ => 0⟩) :=
  ⟨⟨by decide,
    congrArg StateResult.status ((C16_deinit demo_full.rb demo_full.mem).2.2 (by decide)).1⟩,
   ⟨by decide, (C16_deinit ring_buffer_zero (fun _ => 0)).2.1 (by decide)⟩⟩

/-- C17: use after DeInit is rejected. On the record left by a successful
DeInit, each of DeInit, Insert, Retrieve, Peek, Replace, IsEmpty, IsFull,
GetFreeElements and GetElementSize, with non-null data and result arguments and
any index, returns NOT_INITIALIZED and leaves the record all-zero. -/
theorem C17_use_after_deinit (rb : ring_buffer_t) (mem d : Memory) (index res : Nat)
    (hinit : rb.conf.buffer ≠ 0) :
    let z := RING_BUFFER_DeInit (some rb) mem
    z.status = RING_BUFFER_STATUS_OK ∧ z.rb = some ring_buffer_zero ∧
    RING_BUFFER_DeInit z.rb z.mem =
      ⟨RING_BUFFER_STATUS_ERROR_NOT_INITIALIZED, some ring_buffer_zero, mem⟩ ∧
    RING_BUFFER_Insert z.rb z.mem (some d) =
      ⟨RING_BUFFER_STATUS_ERROR_NOT_INITIALIZED, some ring_buffer_zero, mem⟩ ∧
    RING_BUFFER_Retrieve z.rb z.mem (some d) =
      ⟨RING_BUFFER_STATUS_ERROR_NOT_INITIALIZED, some ring_buffer_zero, mem, some d⟩ ∧
    RING_BUFFER_Peek z.rb z.mem index (some d) =
      ⟨RING_BUFFER_STATUS_ERROR_NOT_INITIALIZED, some ring_buffer_zero, mem, some d⟩ ∧
    RING_BUFFER_Replace z.rb z.mem index (some d) =
      ⟨RING_BUFFER_STATUS_ERROR_NOT_INITIALIZED, some ring_buffer_zero, mem⟩ ∧
    RING_BUFFER_IsEmpty z.rb z.mem =
      ⟨RING_BUFFER_STATUS_ERROR_NOT_INITIALIZED, some ring_buffer_zero, mem⟩ ∧
    RING_BUFFER_IsFull z.rb z.mem =
      ⟨RING_BUFFER_STATUS_ERROR_NOT_INITIALIZED, some ring_buffer_zero, mem⟩ ∧
    RING_BUFFER_GetFreeElements z.rb z.mem (some res) =
      ⟨RING_BUFFER_STATUS_ERROR_NOT_INITIALIZED, some ring_buffer_zero, mem, some res⟩ ∧
    RING_BUFFER_GetElementSize z.rb z.mem (some res) =
      ⟨RING_BUFFER_STATUS_ERROR_NOT_INITIALIZED, some ring_buffer_zero, mem, some res⟩ := by
  intro z
  have hz : z = ⟨RING_BUFFER_STATUS_OK, some ring_buffer_zero, mem⟩ := by
    simp only [z, RING_BUFFER_DeInit, if_neg hinit]
  have h0 : ring_buffer_zero.conf.buffer = 0 := rfl
  rw [hz]
  refine ⟨rfl, rfl, ?_, ?_, ?_, ?_, ?_, ?_, ?_, ?_, ?_⟩
  · simp only [RING_BUFFER_DeInit, if_pos h0]
  · simp only [RING_BUFFER_Insert, if_pos h0]
  · simp only [RING_BUFFER_Retrieve, if_pos h0]
  · simp only [RING_BUFFER_Peek, if_pos h0]
  · simp only [RING_BUFFER_Replace, if_pos h0]
  · simp only [RING_BUFFER_IsEmpty, if_pos h0]
  · simp only [RING_BUFFER_IsFull, if_pos h0]
  · simp only [RING_BUFFER_GetFreeElements, if_pos h0]
  · simp only [RING_BUFFER_GetElementSize, if_pos h0]

/-- Witness of C17: Peek on the wrapped full buffer after DeInit. -/
theorem C17_use_after_deinit_witness :
    demo_full.rb.conf.buffer ≠ 0 ∧
      RING_BUFFER_Peek (RING_BUFFER_DeInit (some demo_full.rb) demo_full.mem).rb
          (RING_BUFFER_DeInit (some demo_full.rb) demo_full.mem).mem 0 (some (bytes2 7 7)) =
        ⟨RING_BUFFER_STATUS_ERROR_NOT_INITIALIZED, some ring_buffer_zero, demo_full.mem,
          some (bytes2 7 7)⟩ :=
  ⟨by decide,
    (C17_use_after_deinit demo_full.rb demo_full.mem (bytes2 7 7) 0 0 (by decide)).2.2.2.2.2.1⟩

theorem Insert_fail (rb : Option ring_buffer_t) (mem : Memory) (data : Option Memory)
    (h : (RING_BUFFER_Insert rb mem data).status ≠ RING_BUFFER_STATUS_OK) :
    (RING_BUFFER_Insert rb mem data).rb = rb ∧ (RING_BUFFER_Insert rb mem data).mem = mem := by
  cases rb with
  | none => exact ⟨rfl, rfl⟩
  | some rb0 =>
    cases data with
    | none => exact ⟨rfl, rfl⟩
    | some d =>
      by_cases h1 : rb0.conf.buffer = 0
      · simp only [RING_BUFFER_Insert, if_pos h1, and_self]
      · by_cases h2 : rb0.conf.overwrite = false ∧ rb0.count ≥ rb0.max_elements
        · simp only [RING_BUFFER_Insert, if_neg h1, if_pos h2, and_self]
        · exfalso
          apply h
          simp only [RING_BUFFER_Insert, if_neg h1, if_neg h2]

theorem Retrieve_fail (rb : Option ring_buffer_t) (mem : Memory) (data : Option Memory)
    (h : (RING_BUFFER_Retrieve rb mem data).status ≠ RING_BUFFER_STATUS_OK) :
    (RING_BUFFER_Retrieve rb mem data).rb = rb ∧ (RING_BUFFER_Retrieve rb mem data).mem = mem ∧
      (RING_BUFFER_Retrieve rb mem data).data = data := by
  cases rb with
  | none => exact ⟨rfl, rfl, rfl⟩
  | some rb0 =>
    cases data with
    | none => exact ⟨rfl, rfl, rfl⟩
    | some d =>
      by_cases h1 : rb0.conf.buffer = 0
      · simp only [RING_BUFFER_Retrieve, if_pos h1, and_self]
      · by_cases h2 : rb0.count = 0
        · simp only [RING_BUFFER_Retrieve, if_neg h1, if_pos h2, and_self]
        · exfalso
          apply h
          simp only [RING_BUFFER_Retrieve, if_neg h1, if_neg h2]

theorem Peek_fail (rb : Option ring_buffer_t) (mem : Memory) (index : Nat)
    (data : Option Memory)
    (h : (RING_BUFFER_Peek rb mem index data).status ≠ RING_BUFFER_STATUS_OK) :
    (RING_BUFFER_Peek rb mem index data).rb = rb ∧
      (RING_BUFFER_Peek rb mem index data).mem = mem ∧
      (RING_BUFFER_Peek rb mem index data).data = data := by
  cases rb with
  | none => exact ⟨rfl, rfl, rfl⟩
  | some rb0 =>
    cases data with
    | none => exact ⟨rfl, rfl, rfl⟩
    | some d =>
      by_cases h1 : rb0.conf.buffer = 0
      · simp only [RING_BUFFER_Peek, if_pos h1, and_self]
      · by_cases h2 : rb0.count = 0
        · simp only [RING_BUFFER_Peek, if_neg h1, if_pos h2, and_self]
        · by_cases h3 : index ≥ rb0.count
          · simp only [RING_BUFFER_Peek, if_neg h1, if_neg h2, if_pos h3, and_self]
          · exfalso
            apply h
            simp only [RING_BUFFER_Peek, if_neg h1, if_neg h2, if_neg h3]

theorem Replace_fail (rb : Option ring_buffer_t) (mem : Memory) (index : Nat)
    (data : Option Memory)
    (h : (RING_BUFFER_Replace rb mem index data).status ≠ RING_BUFFER_STATUS_OK) :
    (RING_BUFFER_Replace rb mem index data).rb = rb ∧
      (RING_BUFFER_Replace rb mem index data).mem = mem := by
  cases rb with
  | none => exact ⟨rfl, rfl⟩
  | some rb0 =>
    cases data with
    | none => exact ⟨rfl, rfl⟩
    | some d =>
      by_cases h1 : rb0.conf.buffer = 0
      · simp only [RING_BUFFER_Replace, if_pos h1, and_self]
      · by_cases h2 : rb0.count = 0
        · simp only [RING_BUFFER_Replace, if_neg h1, if_pos h2, and_self]
        · by_cases h3 : index ≥ rb0.count
          · simp only [RING_BUFFER_Replace, if_neg h1, if_neg h2, if_pos h3, and_self]
          · exfalso
            apply h
            simp only [RING_BUFFER_Replace, if_neg h1, if_neg h2, if_neg h3]

theorem DeInit_fail (rb : Option ring_buffer_t) (mem : Memory)
    (h : (RING_BUFFER_DeInit rb mem).status ≠ RING_BUFFER_STATUS_OK) :
    (RING_BUFFER_DeInit rb mem).rb = rb ∧ (RING_BUFFER_DeInit rb mem).mem = mem := by
  cases rb with
  | none => exact ⟨rfl, rfl⟩
  | some rb0 =>
    by_cases h1 : rb0.conf.buffer = 0
    · simp only [RING_BUFFER_DeInit, if_pos h1, and_self]
    · exfalso
      apply h
      simp only [RING_BUFFER_DeInit, if_neg h1]

theorem IsEmpty_frame (rb : Option ring_buffer_t) (mem : Memory) :
    (RING_BUFFER_IsEmpty rb mem).rb = rb ∧ (RING_BUFFER_IsEmpty rb mem).mem = mem := by
  cases rb with
  | none => exact ⟨rfl, rfl⟩
  | some rb0 =>
    simp only [RING_BUFFER_IsEmpty]
    split_ifs <;> exact ⟨rfl, rfl⟩

theorem IsFull_frame (rb : Option ring_buffer_t) (mem : Memory) :
    (RING_BUFFER_IsFull rb mem).rb = rb ∧ (RING_BUFFER_IsFull rb mem).mem = mem := by
  cases rb with
  | none => exact ⟨rfl, rfl⟩
  | some rb0 =>
    simp only [RING_BUFFER_IsFull]
    split_ifs <;> exact ⟨rfl, rfl⟩

theorem GetFreeElements_fail (rb : Option ring_buffer_t) (mem : Memory) (result : Option Nat)
    (h : (RING_BUFFER_GetFreeElements rb mem result).status ≠ RING_BUFFER_STATUS_OK) :
    (RING_BUFFER_GetFreeElements rb mem result).rb = rb ∧
      (RING_BUFFER_GetFreeElements rb mem result).mem = mem ∧
      (RING_BUFFER_GetFreeElements rb mem result).result = result := by
  cases rb with
  | none => exact ⟨rfl, rfl, rfl⟩
  | some rb0 =>
    cases result with
    | none => exact ⟨rfl, rfl, rfl⟩
    | some r =>
      by_cases h1 : rb0.conf.buffer = 0
      · simp only [RING_BUFFER_GetFreeElements, if_pos h1, and_self]
      · exfalso
        apply h
        simp only [RING_BUFFER_GetFreeElements, if_neg h1]

theorem GetElementSize_fail (rb : Option ring_buffer_t) (mem : Memory) (result : Option Nat)
    (h : (RING_BUFFER_GetElementSize rb mem result).status ≠ RING_BUFFER_STATUS_OK) :
    (RING_BUFFER_GetElementSize rb mem result).rb = rb ∧
      (RING_BUFFER_GetElementSize rb mem result).mem = mem ∧
      (RING_BUFFER_GetElementSize rb mem result).result = result := by
  cases rb with
  | none => exact ⟨rfl, rfl, rfl⟩
  | some rb0 =>
    cases result with
    | none => exact ⟨rfl, rfl, rfl⟩
    | some r =>
      by_cases h1 : rb0.conf.buffer = 0
      · simp only [RING_BUFFER_GetElementSize, if_pos h1, and_self]
      · exfalso
        apply h
        simp only [RING_BUFFER_GetElementSize, if_neg h1]

theorem Init_fail_frame (rb : Option ring_buffer_t) (mem : Memory) (conf : ring_buffer_conf_t)
    (h : (RING_BUFFER_Init rb mem conf).status ≠ RING_BUFFER_STATUS_OK) :
    (RING_BUFFER_Init rb mem conf).rb = rb ∧ (RING_BUFFER_Init rb mem conf).mem = mem := by
  cases rb with
  | none => exact ⟨rfl, rfl⟩
  | some rb0 =>
    rw [Ne, Init_status_ok_iff] at h
    rw [Init_fail rb0 mem conf h]
    exact ⟨rfl, rfl⟩

/-- C18: all-or-nothing. For each of the ten operations, with any arguments
(null or not), a call whose status is not OK returns the record and every byte
of memory as they were, and leaves the caller's output location (the
destination of Retrieve and Peek, the result of the two size queries) as it
was. -/
theorem C18_all_or_nothing (rb : Option ring_buffer_t) (mem : Memory)
    (conf : ring_buffer_conf_t) (index : Nat) (data : Option Memory) (result : Option Nat) :
    ((RING_BUFFER_Init rb mem conf).status ≠ RING_BUFFER_STATUS_OK →
      (RING_BUFFER_Init rb mem conf).rb = rb ∧ (RING_BUFFER_Init rb mem conf).mem = mem) ∧
    ((RING_BUFFER_DeInit rb mem).status ≠ RING_BUFFER_STATUS_OK →
      (RING_BUFFER_DeInit rb mem).rb = rb ∧ (RING_BUFFER_DeInit rb mem).mem = mem) ∧
    ((RING_BUFFER_Insert rb mem data).status ≠ RING_BUFFER_STATUS_OK →
      (RING_BUFFER_Insert rb mem data).rb = rb ∧ (RING_BUFFER_Insert rb mem data).mem = mem) ∧
    ((RING_BUFFER_Retrieve rb mem data).status ≠ RING_BUFFER_STATUS_OK →
      (RING_BUFFER_Retrieve rb mem data).rb = rb ∧
      (RING_BUFFER_Retrieve rb mem data).mem = mem ∧
      (RING_BUFFER_Retrieve rb mem data).data = data) ∧
    ((RING_BUFFER_Peek rb mem index data).status ≠ RING_BUFFER_STATUS_OK →
      (RING_BUFFER_Peek rb mem index data).rb = rb ∧
      (RING_BUFFER_Peek rb mem index data).mem = mem ∧
      (RING_BUFFER_Peek rb mem index data).data = data) ∧
    ((RING_BUFFER_Replace rb mem index data).status ≠ RING_BUFFER_STATUS_OK →
      (RING_BUFFER_Replace rb mem index data).rb = rb ∧
      (RING_BUFFER_Replace rb mem index data).mem = mem) ∧
    ((RING_BUFFER_IsEmpty rb mem).status ≠ RING_BUFFER_STATUS_OK →
      (RING_BUFFER_IsEmpty rb mem).rb = rb ∧ (RING_BUFFER_IsEmpty rb mem).mem = mem) ∧
    ((RING_BUFFER_IsFull rb mem).status ≠ RING_BUFFER_STATUS_OK →
      (RING_BUFFER_IsFull rb mem).rb = rb ∧ (RING_BUFFER_IsFull rb mem).mem = mem) ∧
    ((RING_BUFFER_GetFreeElements rb mem result).status ≠ RING_BUFFER_STATUS_OK →
      (RING_BUFFER_GetFreeElements rb mem result).rb = rb ∧
      (RING_BUFFER_GetFreeElements rb mem result).mem = mem ∧
      (RING_BUFFER_GetFreeElements rb mem result).result = result) ∧
    ((RING_BUFFER_GetElementSize rb mem result).status ≠ RING_BUFFER_STATUS_OK →
      (RING_BUFFER_GetElementSize rb mem result).rb = rb ∧
      (RING_BUFFER_GetElementSize rb mem result).mem = mem ∧
      (RING_BUFFER_GetElementSize rb mem result).result = result) :=
  ⟨Init_fail_frame rb mem conf, DeInit_fail rb mem, Insert_fail rb mem data,
    Retrieve_fail rb mem data, Peek_fail rb mem index data, Replace_fail rb mem index data,
    fun _ => IsEmpty_frame rb mem, fun _ => IsFull_frame rb mem,
    GetFreeElements_fail rb mem result, GetElementSize_fail rb mem result⟩

/-- Witness of C18: a Peek past the last element of the wrapped full buffer
fails and writes nothing. -/
theorem C18_all_or_nothing_witness :
    (RING_BUFFER_Peek (some demo_full.rb) demo_full.mem 2 (some (bytes2 7 7))).status ≠
        RING_BUFFER_STATUS_OK ∧
      (RING_BUFFER_Peek (some demo_full.rb) demo_full.mem 2 (some (bytes2 7 7))).rb =
        some demo_full.rb ∧
      (RING_BUFFER_Peek (some demo_full.rb) demo_full.mem 2 (some (bytes2 7 7))).mem =
        demo_full.mem ∧
      (RING_BUFFER_Peek (some demo_full.rb) demo_full.mem 2 (some (bytes2 7 7))).data =
        some (bytes2 7 7) :=
  ⟨by decide,
    (C18_all_or_nothing (some demo_full.rb) demo_full.mem demo_conf 2 (some (bytes2 7 7))
      none).2.2.2.2.1 (by decide)⟩

/-- C19: null arguments. Every operation returns INPUT_ARGS when its state
pointer is null, whatever the other arguments; and for every state pointer and
every record behind it (deinitialised, full, empty), Insert, Retrieve, Peek and
Replace return INPUT_ARGS when the data pointer is null, and GetFreeElements and
GetElementSize when the result pointer is null. -/
theorem C19_null_arguments (rb : Option ring_buffer_t) (mem : Memory)
    (conf : ring_buffer_conf_t) (index : Nat) (data : Option Memory) (result : Option Nat) :
    (RING_BUFFER_Init none mem conf).status = RING_BUFFER_STATUS_ERROR_INPUT_ARGS ∧
    (RING_BUFFER_DeInit none mem).status = RING_BUFFER_STATUS_ERROR_INPUT_ARGS ∧
    (RING_BUFFER_Insert none mem data).status = RING_BUFFER_STATUS_ERROR_INPUT_ARGS ∧
    (RING_BUFFER_Retrieve none mem data).status = RING_BUFFER_STATUS_ERROR_INPUT_ARGS ∧
    (RING_BUFFER_Peek none mem index data).status = RING_BUFFER_STATUS_ERROR_INPUT_ARGS ∧
    (RING_BUFFER_Replace none mem index data).status = RING_BUFFER_STATUS_ERROR_INPUT_ARGS ∧
    (RING_BUFFER_IsEmpty none mem).status = RING_BUFFER_STATUS_ERROR_INPUT_ARGS ∧
    (RING_BUFFER_IsFull none mem).status = RING_BUFFER_STATUS_ERROR_INPUT_ARGS ∧
    (RING_BUFFER_GetFreeElements none mem result).status =
      RING_BUFFER_STATUS_ERROR_INPUT_ARGS ∧
    (RING_BUFFER_GetElementSize none mem result).status =
      RING_BUFFER_STATUS_ERROR_INPUT_ARGS ∧
    (RING_BUFFER_Insert rb mem none).status = RING_BUFFER_STATUS_ERROR_INPUT_ARGS ∧
    (RING_BUFFER_Retrieve rb mem none).status = RING_BUFFER_STATUS_ERROR_INPUT_ARGS ∧
    (RING_BUFFER_Peek rb mem index none).status = RING_BUFFER_STATUS_ERROR_INPUT_ARGS ∧
    (RING_BUFFER_Replace rb mem index none).status = RING_BUFFER_STATUS_ERROR_INPUT_ARGS ∧
    (RING_BUFFER_GetFreeElements rb mem none).status = RING_BUFFER_STATUS_ERROR_INPUT_ARGS ∧
    (RING_BUFFER_GetElementSize rb mem none).status = RING_BUFFER_STATUS_ERROR_INPUT_ARGS := by
  refine ⟨rfl, rfl, rfl, rfl, rfl, rfl, rfl, rfl, rfl, rfl, ?_, ?_, ?_, ?_, ?_, ?_⟩ <;>
    cases rb <;> rfl

theorem IsEmpty_status (rb : ring_buffer_t) (mem : Memory) (hb : rb.conf.buffer ≠ 0) :
    (RING_BUFFER_IsEmpty (some rb) mem).status =
      if rb.count = 0 then RING_BUFFER_STATUS_OK else RING_BUFFER_STATUS_ERROR := by
  simp only [RING_BUFFER_IsEmpty, if_neg hb]
  by_cases h : rb.count = 0
  · have h2 : 0 = rb.count := h.symm
    rw [if_pos h2, if_pos h]
  · have h2 : ¬ 0 = rb.count := fun e => h e.symm
    rw [if_neg h2, if_neg h]

theorem retrieveAll_eq_run (dsts : List Memory) : ∀ (m : Machine),
    (retrieveAll dsts m).2 = m.run (dsts.map (fun d => Call.Retrieve (some d))) := by
  induction dsts with
  | nil => intro m; rfl
  | cons d ds ih =>
    intro m
    simp only [retrieveAll, List.map_cons, Machine.run, List.foldl_cons]
    exact ih _

/-- C20: IsEmpty. On every initialised buffer IsEmpty returns OK exactly when
`count = 0` and the generic ERROR exactly when `count > 0`; it never changes
the record or the memory, whatever it returns. It returns OK right after a
successful Init and ERROR after every successful Insert in a reachable state;
and from a reachable state, after `n ≤ count` Retrieve calls (all of which
return OK) it returns OK exactly when `n = count`, that is once every stored
element has been retrieved. -/
theorem C20_is_empty :
    (∀ (rb : ring_buffer_t) (mem : Memory), rb.conf.buffer ≠ 0 →
      ((RING_BUFFER_IsEmpty (some rb) mem).status = RING_BUFFER_STATUS_OK ↔ rb.count = 0) ∧
      ((RING_BUFFER_IsEmpty (some rb) mem).status = RING_BUFFER_STATUS_ERROR ↔
        0 < rb.count)) ∧
    (∀ (rb : Option ring_buffer_t) (mem : Memory),
      (RING_BUFFER_IsEmpty rb mem).rb = rb ∧ (RING_BUFFER_IsEmpty rb mem).mem = mem) ∧
    (∀ (conf : ring_buffer_conf_t) (rb0 : ring_buffer_t) (mem0 : Memory), ValidConf conf →
      (RING_BUFFER_IsEmpty (RING_BUFFER_Init (some rb0) mem0 conf).rb
        (RING_BUFFER_Init (some rb0) mem0 conf).mem).status = RING_BUFFER_STATUS_OK) ∧
    (∀ (conf : ring_buffer_conf_t) (m : Machine) (d : Memory), Reachable conf m →
      (RING_BUFFER_Insert (some m.rb) m.mem (some d)).status = RING_BUFFER_STATUS_OK →
      (RING_BUFFER_IsEmpty (RING_BUFFER_Insert (some m.rb) m.mem (some d)).rb
        (RING_BUFFER_Insert (some m.rb) m.mem (some d)).mem).status =
          RING_BUFFER_STATUS_ERROR) ∧
    (∀ (conf : ring_buffer_conf_t) (m : Machine) (dsts : List Memory), Reachable conf m →
      dsts.length ≤ m.rb.count →
      (retrieveAll dsts m).1.length = dsts.length ∧
      (∀ p, p ∈ (retrieveAll dsts m).1 → p.1 = RING_BUFFER_STATUS_OK) ∧
      ((RING_BUFFER_IsEmpty (some (retrieveAll dsts m).2.rb) (retrieveAll dsts m).2.mem).status =
        RING_BUFFER_STATUS_OK ↔ dsts.length = m.rb.count)) := by
  refine ⟨?_, IsEmpty_frame, ?_, ?_, ?_⟩
  · intro rb mem hb
    rw [IsEmpty_status rb mem hb]
    by_cases h : rb.count = 0
    · rw [if_pos h]; simp [h]
    · rw [if_neg h]; simp [h]; omega
  · intro conf rb0 mem0 hv
    rw [Init_eq rb0 mem0 hv]
    have hb : conf.buffer ≠ 0 := hv.1
    simp only [RING_BUFFER_IsEmpty, if_neg hb, if_true]
  · intro conf m d hr hok
    have hI := hr.inv.1
    have hg : ¬ (m.rb.conf.overwrite = false ∧ m.rb.count ≥ m.rb.max_elements) := by
      intro hg
      simp only [RING_BUFFER_Insert, if_neg hI.buffer_ne, if_pos hg] at hok
      cases hok
    rw [Insert_eq hI m.mem d hg]
    have hI1 := Inv_insertNext hI
    have hp := hI.max_pos
    have hc : (insertNext m.rb).count ≠ 0 := by
      simp only [insertNext]; split <;> omega
    show (RING_BUFFER_IsEmpty (some (insertNext m.rb)) _).status = _
    rw [IsEmpty_status _ _ hI1.buffer_ne, if_neg hc]
  · intro conf m dsts hr hle
    have hI := hr.inv.1
    have hs := retrieveAll_spec dsts hI hle
    have hI2 : Inv (retrieveAll dsts m).2.rb := by
      rw [retrieveAll_eq_run]; exact (Inv_run _ hI).1
    refine ⟨?_, ?_, ?_⟩
    · rw [hs.1, List.length_map, List.length_take, contents_length]; omega
    · intro p hp
      rw [hs.1] at hp
      obtain ⟨e, _, rfl⟩ := List.mem_map.mp hp
      rfl
    · rw [IsEmpty_status _ _ hI2.buffer_ne, hs.2]
      by_cases h : m.rb.count - dsts.length = 0
      · rw [if_pos h]; simp; omega
      · rw [if_neg h]; simp; omega

/-- Witness of C20: on the wrapped full buffer IsEmpty returns ERROR, and after
retrieving both elements it returns OK. -/
theorem C20_is_empty_witness :
    (demo_full.rb.conf.buffer ≠ 0 ∧
      ((RING_BUFFER_IsEmpty (some demo_full.rb) demo_full.mem).status =
        RING_BUFFER_STATUS_ERROR ↔ 0 < demo_full.rb.count)) ∧
    (Reachable demo_conf demo_full ∧
      [bytes2 0 0, bytes2 0 0].length ≤ demo_full.rb.count ∧
      ((RING_BUFFER_IsEmpty (some (retrieveAll [bytes2 0 0, bytes2 0 0] demo_full).2.rb)
          (retrieveAll [bytes2 0 0, bytes2 0 0] demo_full).2.mem).status =
        RING_BUFFER_STATUS_OK ↔ [bytes2 0 0, bytes2 0 0].length = demo_full.rb.count)) :=
  ⟨⟨by decide, (C20_is_empty.1 demo_full.rb demo_full.mem (by decide)).2⟩,
   ⟨⟨by decide, _, _, _, rfl⟩, by decide,
    (C20_is_empty.2.2.2.2 demo_conf demo_full [bytes2 0 0, bytes2 0 0]
      ⟨by decide, _, _, _, rfl⟩ (by decide)).2.2⟩⟩

theorem Insert_ok_guard {rb : ring_buffer_t} {mem d : Memory} (hb : rb.conf.buffer ≠ 0)
    (hok : (RING_BUFFER_Insert (some rb) mem (some d)).status = RING_BUFFER_STATUS_OK) :
    ¬ (rb.conf.overwrite = false ∧ rb.count ≥ rb.max_elements) := by
  intro hg
  simp only [RING_BUFFER_Insert, if_neg hb, if_pos hg] at hok
  cases hok

theorem Retrieve_ok_count {rb : ring_buffer_t} {mem d : Memory} (hb : rb.conf.buffer ≠ 0)
    (hok : (RING_BUFFER_Retrieve (some rb) mem (some d)).status = RING_BUFFER_STATUS_OK) :
    rb.count ≠ 0 := by
  intro hc
  simp only [RING_BUFFER_Retrieve, if_neg hb, if_pos hc] at hok
  cases hok

theorem IsFull_status (rb : ring_buffer_t) (mem : Memory) (hb : rb.conf.buffer ≠ 0) :
    (RING_BUFFER_IsFull (some rb) mem).status =
      if rb.max_elements = rb.count then RING_BUFFER_STATUS_OK
      else RING_BUFFER_STATUS_ERROR := by
  simp only [RING_BUFFER_IsFull, if_neg hb]
  split_ifs <;> rfl

theorem GetFreeElements_eq (rb : ring_buffer_t) (mem : Memory) (res : Nat)
    (hb : rb.conf.buffer ≠ 0) :
    RING_BUFFER_GetFreeElements (some rb) mem (some res) =
      ⟨RING_BUFFER_STATUS_OK, some rb, mem, some (rb.max_elements - rb.count)⟩ := by
  simp only [RING_BUFFER_GetFreeElements, if_neg hb]

theorem GetFreeElements_value_eq (rb : ring_buffer_t) (mem : Memory) (res : Nat)
    (hb : rb.conf.buffer ≠ 0) :
    GetFreeElements_value rb mem res = some (rb.max_elements - rb.count) := by
  simp only [GetFreeElements_value, GetFreeElements_eq rb mem res hb]

/-- C21: IsFull. On every initialised buffer IsFull returns OK exactly when
`count = max_elements` and the generic ERROR otherwise. It returns ERROR right
after a successful Init; after `max_elements` inserts on the fresh buffer, all
of which return OK, it returns OK; on a full reachable buffer it still returns
OK after one more Insert under either policy (overwritten or rejected); and it
returns ERROR after one successful Retrieve from a full reachable buffer. -/
theorem C21_is_full :
    (∀ (rb : ring_buffer_t) (mem : Memory), rb.conf.buffer ≠ 0 →
      ((RING_BUFFER_IsFull (some rb) mem).status = RING_BUFFER_STATUS_OK ↔
        rb.count = rb.max_elements) ∧
      ((RING_BUFFER_IsFull (some rb) mem).status = RING_BUFFER_STATUS_ERROR ↔
        rb.count ≠ rb.max_elements)) ∧
    (∀ (conf : ring_buffer_conf_t) (rb0 : ring_buffer_t) (mem0 : Memory), ValidConf conf →
      (RING_BUFFER_IsFull (RING_BUFFER_Init (some rb0) mem0 conf).rb
        (RING_BUFFER_Init (some rb0) mem0 conf).mem).status = RING_BUFFER_STATUS_ERROR) ∧
    (∀ (conf : ring_buffer_conf_t) (rb0 : ring_buffer_t) (mem0 : Memory) (ds : List Memory),
      ValidConf conf → ds.length = conf.buffer_size / conf.element_size →
      (insertAll ds (Machine.init rb0 mem0 conf)).1 =
        List.replicate ds.length RING_BUFFER_STATUS_OK ∧
      (RING_BUFFER_IsFull (some (insertAll ds (Machine.init rb0 mem0 conf)).2.rb)
        (insertAll ds (Machine.init rb0 mem0 conf)).2.mem).status = RING_BUFFER_STATUS_OK) ∧
    (∀ (conf : ring_buffer_conf_t) (m : Machine) (d : Memory), Reachable conf m →
      m.rb.count = m.rb.max_elements →
      (RING_BUFFER_IsFull (RING_BUFFER_Insert (some m.rb) m.mem (some d)).rb
        (RING_BUFFER_Insert (some m.rb) m.mem (some d)).mem).status = RING_BUFFER_STATUS_OK) ∧
    (∀ (conf : ring_buffer_conf_t) (m : Machine) (dst : Memory), Reachable conf m →
      m.rb.count = m.rb.max_elements →
      (RING_BUFFER_Retrieve (some m.rb) m.mem (some dst)).status = RING_BUFFER_STATUS_OK ∧
      (RING_BUFFER_IsFull (RING_BUFFER_Retrieve (some m.rb) m.mem (some dst)).rb
        (RING_BUFFER_Retrieve (some m.rb) m.mem (some dst)).mem).status =
          RING_BUFFER_STATUS_ERROR) := by
  refine ⟨?_, ?_, ?_, ?_, ?_⟩
  · intro rb mem hb
    rw [IsFull_status rb mem hb]
    by_cases h : rb.max_elements = rb.count
    · rw [if_pos h]; simp [h]
    · rw [if_neg h]
      have h2 : ¬ rb.count = rb.max_elements := fun e => h e.symm
      simp [h2]
  · intro conf rb0 mem0 hv
    rw [Init_eq rb0 mem0 hv]
    have hb : conf.buffer ≠ 0 := hv.1
    have hpos : 0 < conf.buffer_size / conf.element_size :=
      Nat.div_pos hv.2.2.2 (Nat.pos_of_ne_zero hv.2.2.1)
    have hne : ¬ conf.buffer_size / conf.element_size = 0 := by omega
    simp only [RING_BUFFER_IsFull, if_neg hb, if_neg hne]
  · intro conf rb0 mem0 ds hv hlen
    have h0 := Inv_init rb0 mem0 hv
    have hc0 := init_count rb0 mem0 hv
    have hm0 := init_max rb0 mem0 hv
    have hi := insertAll_spec ds h0 (by rw [hc0, hm0]; omega)
    refine ⟨hi.1, ?_⟩
    have hcount : (insertAll ds (Machine.init rb0 mem0 conf)).2.rb.count = ds.length := by
      rw [← contents_length _ (insertAll ds (Machine.init rb0 mem0 conf)).2.mem, hi.2.2.2,
        contents_init rb0 mem0 hv]
      simp
    have hmax : (insertAll ds (Machine.init rb0 mem0 conf)).2.rb.max_elements =
        conf.buffer_size / conf.element_size := by
      rw [hi.2.1.max_eq, hi.2.2.1, init_conf rb0 mem0 hv]
    rw [IsFull_status _ _ hi.2.1.buffer_ne, if_pos (by rw [hmax, hcount, hlen])]
  · intro conf m d hr hfull
    have hI := hr.inv.1
    by_cases hg : m.rb.conf.overwrite = false ∧ m.rb.count ≥ m.rb.max_elements
    · simp only [RING_BUFFER_Insert, if_neg hI.buffer_ne, if_pos hg]
      rw [IsFull_status _ _ hI.buffer_ne, if_pos hfull.symm]
    · rw [Insert_eq hI m.mem d hg]
      have hI1 := Inv_insertNext hI
      show (RING_BUFFER_IsFull (some (insertNext m.rb)) _).status = _
      have h1 : ¬ m.rb.count < m.rb.max_elements := by omega
      have hc : (insertNext m.rb).max_elements = (insertNext m.rb).count := by
        simp only [insertNext, if_neg h1]; exact hfull.symm
      rw [IsFull_status _ _ hI1.buffer_ne, if_pos hc]
  · intro conf m dst hr hfull
    have hI := hr.inv.1
    have hp := hI.max_pos
    have hc : m.rb.count ≠ 0 := by omega
    rw [Retrieve_eq m.rb m.mem dst hI.buffer_ne hc]
    refine ⟨rfl, ?_⟩
    have hI1 := Inv_retrieveNext hI hc
    show (RING_BUFFER_IsFull (some (retrieveNext m.rb)) _).status = _
    have hne : ¬ (retrieveNext m.rb).max_elements = (retrieveNext m.rb).count := by
      show ¬ m.rb.max_elements = m.rb.count - 1
      omega
    rw [IsFull_status _ _ hI1.buffer_ne, if_neg hne]

/-- Witness of C21: the wrapped full buffer reports full, still reports full
after an overwriting insert, and no longer after one retrieve. -/
theorem C21_is_full_witness :
    (demo_full.rb.conf.buffer ≠ 0 ∧
      ((RING_BUFFER_IsFull (some demo_full.rb) demo_full.mem).status =
        RING_BUFFER_STATUS_OK ↔ demo_full.rb.count = demo_full.rb.max_elements)) ∧
    (Reachable demo_conf demo_full ∧ demo_full.rb.count = demo_full.rb.max_elements ∧
      (RING_BUFFER_IsFull
        (RING_BUFFER_Insert (some demo_full.rb) demo_full.mem (some (bytes2 9 9))).rb
        (RING_BUFFER_Insert (some demo_full.rb) demo_full.mem (some (bytes2 9 9))).mem).status =
          RING_BUFFER_STATUS_OK) ∧
    (RING_BUFFER_IsFull
        (RING_BUFFER_Retrieve (some demo_full.rb) demo_full.mem (some (bytes2 0 0))).rb
        (RING_BUFFER_Retrieve (some demo_full.rb) demo_full.mem (some (bytes2 0 0))).mem).status =
          RING_BUFFER_STATUS_ERROR :=
  ⟨⟨by decide, (C21_is_full.1 demo_full.rb demo_full.mem (by decide)).1⟩,
   ⟨⟨by decide, _, _, _, rfl⟩, by decide,
    C21_is_full.2.2.2.1 demo_conf demo_full (bytes2 9 9) ⟨by decide, _, _, _, rfl⟩
      (by decide)⟩,
   (C21_is_full.2.2.2.2 demo_conf demo_full (bytes2 0 0) ⟨by decide, _, _, _, rfl⟩
      (by decide)).2⟩

/-- C22: GetFreeElements. In every reachable state and with a non-null result
pointer it returns OK and stores `max_elements - count`, where
`count ≤ max_elements` (no underflow), leaving record and memory unchanged.
Right after Init the value is `max_elements = buffer_size / element_size`; a
successful Insert into a non-full buffer lowers it by exactly 1; a successful
Retrieve raises it by exactly 1; and it is 0 before and after an overwriting
Insert into a full buffer. -/
theorem C22_get_free_elements :
    (∀ (conf : ring_buffer_conf_t) (m : Machine) (res : Nat), Reachable conf m →
      RING_BUFFER_GetFreeElements (some m.rb) m.mem (some res) =
        ⟨RING_BUFFER_STATUS_OK, some m.rb, m.mem, some (m.rb.max_elements - m.rb.count)⟩ ∧
      m.rb.count ≤ m.rb.max_elements) ∧
    (∀ (conf : ring_buffer_conf_t) (rb0 : ring_buffer_t) (mem0 : Memory) (res : Nat),
      ValidConf conf →
      (RING_BUFFER_GetFreeElements (RING_BUFFER_Init (some rb0) mem0 conf).rb
        (RING_BUFFER_Init (some rb0) mem0 conf).mem (some res)).result =
          some (conf.buffer_size / conf.element_size)) ∧
    (∀ (conf : ring_buffer_conf_t) (m : Machine) (d : Memory) (res res1 : Nat),
      Reachable conf m → m.rb.count < m.rb.max_elements →
      ∃ rb1 v, (RING_BUFFER_Insert (some m.rb) m.mem (some d)).rb = some rb1 ∧
        GetFreeElements_value rb1 (RING_BUFFER_Insert (some m.rb) m.mem (some d)).mem res1 =
          some v ∧
        GetFreeElements_value m.rb m.mem res = some (v + 1)) ∧
    (∀ (conf : ring_buffer_conf_t) (m : Machine) (dst : Memory) (res res1 : Nat),
      Reachable conf m →
      (RING_BUFFER_Retrieve (some m.rb) m.mem (some dst)).status = RING_BUFFER_STATUS_OK →
      ∃ rb1 v, (RING_BUFFER_Retrieve (some m.rb) m.mem (some dst)).rb = some rb1 ∧
        GetFreeElements_value m.rb m.mem res = some v ∧
        GetFreeElements_value rb1 (RING_BUFFER_Retrieve (some m.rb) m.mem (some dst)).mem res1 =
          some (v + 1)) ∧
    (∀ (conf : ring_buffer_conf_t) (m : Machine) (d : Memory) (res res1 : Nat),
      Reachable conf m → m.rb.conf.overwrite = true → m.rb.count = m.rb.max_elements →
      ∃ rb1, (RING_BUFFER_Insert (some m.rb) m.mem (some d)).rb = some rb1 ∧
        GetFreeElements_value m.rb m.mem res = some 0 ∧
        GetFreeElements_value rb1 (RING_BUFFER_Insert (some m.rb) m.mem (some d)).mem res1 =
          some 0) := by
  refine ⟨?_, ?_, ?_, ?_, ?_⟩
  · intro conf m res hr
    have hI := hr.inv.1
    exact ⟨GetFreeElements_eq m.rb m.mem res hI.buffer_ne, hI.count_le⟩
  · intro conf rb0 mem0 res hv
    rw [Init_eq rb0 mem0 hv]
    have hb : conf.buffer ≠ 0 := hv.1
    simp only [RING_BUFFER_GetFreeElements, if_neg hb, Nat.sub_zero]
  · intro conf m d res res1 hr hroom
    have hI := hr.inv.1
    have hg : ¬ (m.rb.conf.overwrite = false ∧ m.rb.count ≥ m.rb.max_elements) := by omega
    have hI1 := Inv_insertNext hI
    rw [Insert_eq hI m.mem d hg]
    refine ⟨insertNext m.rb, (insertNext m.rb).max_elements - (insertNext m.rb).count, rfl,
      GetFreeElements_value_eq _ _ res1 hI1.buffer_ne, ?_⟩
    rw [GetFreeElements_value_eq _ _ res hI.buffer_ne]
    have hc : (insertNext m.rb).count = m.rb.count + 1 := by
      simp only [insertNext, if_pos hroom]
    have hm : (insertNext m.rb).max_elements = m.rb.max_elements := rfl
    rw [hc, hm]
    congr 1
    omega
  · intro conf m dst res res1 hr hok
    have hI := hr.inv.1
    have hc := Retrieve_ok_count hI.buffer_ne hok
    have hI1 := Inv_retrieveNext hI hc
    have hle := hI.count_le
    rw [Retrieve_eq m.rb m.mem dst hI.buffer_ne hc]
    refine ⟨retrieveNext m.rb, m.rb.max_elements - m.rb.count, rfl,
      GetFreeElements_value_eq _ _ res hI.buffer_ne, ?_⟩
    rw [GetFreeElements_value_eq _ _ res1 hI1.buffer_ne]
    have hc1 : (retrieveNext m.rb).count = m.rb.count - 1 := rfl
    have hm : (retrieveNext m.rb).max_elements = m.rb.max_elements := rfl
    rw [hc1, hm]
    congr 1
    omega
  · intro conf m d res res1 hr hov hfull
    have hI := hr.inv.1
    have hg : ¬ (m.rb.conf.overwrite = false ∧ m.rb.count ≥ m.rb.max_elements) := by
      simp [hov]
    have hI1 := Inv_insertNext hI
    rw [Insert_eq hI m.mem d hg]
    refine ⟨insertNext m.rb, rfl, ?_, ?_⟩
    · rw [GetFreeElements_value_eq _ _ res hI.buffer_ne, hfull, Nat.sub_self]
    · rw [GetFreeElements_value_eq _ _ res1 hI1.buffer_ne]
      have h1 : ¬ m.rb.count < m.rb.max_elements := by omega
      have hc : (insertNext m.rb).count = m.rb.count := by simp only [insertNext, if_neg h1]
      have hm : (insertNext m.rb).max_elements = m.rb.max_elements := rfl
      rw [hc, hm, hfull, Nat.sub_self]

/-- Witness of C22: one free element on the buffer holding one of two, none on
the full buffer. -/
theorem C22_get_free_elements_witness :
    (Reachable demo_conf demo_one ∧
      RING_BUFFER_GetFreeElements (some demo_one.rb) demo_one.mem (some 77) =
        ⟨RING_BUFFER_STATUS_OK, some demo_one.rb, demo_one.mem,
          some (demo_one.rb.max_elements - demo_one.rb.count)⟩) ∧
    (Reachable demo_conf demo_full ∧ demo_full.rb.conf.overwrite = true ∧
      demo_full.rb.count = demo_full.rb.max_elements ∧
      GetFreeElements_value demo_full.rb demo_full.mem 77 = some 0) := by
  refine ⟨⟨⟨by decide, _, _, _, rfl⟩,
    (C22_get_free_elements.1 demo_conf demo_one 77 ⟨by decide, _, _, _, rfl⟩).1⟩,
    ⟨by decide, _, _, _, rfl⟩, by decide, by decide, ?_⟩
  obtain ⟨_, _, h, _⟩ := C22_get_free_elements.2.2.2.2 demo_conf demo_full (bytes2 9 9) 77 77
    ⟨by decide, _, _, _, rfl⟩ (by decide) (by decide)
  exact h

/-- C23: GetElementSize. In every state reachable from a successful Init with
`conf` by any sequence of Insert, Retrieve, Peek, Replace and query calls,
GetElementSize with a non-null result pointer returns OK and stores exactly
`conf.element_size`, leaving record and memory unchanged, under either policy. -/
theorem C23_get_element_size (conf : ring_buffer_conf_t) (m : Machine) (res : Nat)
    (hr : Reachable conf m) :
    RING_BUFFER_GetElementSize (some m.rb) m.mem (some res) =
      ⟨RING_BUFFER_STATUS_OK, some m.rb, m.mem, some conf.element_size⟩ := by
  obtain ⟨hI, hc⟩ := hr.inv
  subst hc
  simp only [RING_BUFFER_GetElementSize, if_neg hI.buffer_ne]

/-- Witness of C23 on the wrapped full buffer. -/
theorem C23_get_element_size_witness :
    Reachable demo_conf demo_full ∧
      RING_BUFFER_GetElementSize (some demo_full.rb) demo_full.mem (some 77) =
        ⟨RING_BUFFER_STATUS_OK, some demo_full.rb, demo_full.mem, some 2⟩ :=
  ⟨⟨by decide, _, _, _, rfl⟩,
    C23_get_element_size demo_conf demo_full 77 ⟨by decide, _, _, _, rfl⟩⟩

theorem call_uninit {m : Machine} (h : m.rb.conf.buffer = 0) (c : Call) : m.call c = m := by
  cases c with
  | Insert d =>
    cases d with
    | none => rfl
    | some d => simp only [Machine.call, RING_BUFFER_Insert, if_pos h, Option.getD_some]
  | Retrieve d =>
    cases d with
    | none => rfl
    | some d => simp only [Machine.call, RING_BUFFER_Retrieve, if_pos h, Option.getD_some]
  | Peek i d => exact call_Peek m i d
  | Replace i d =>
    cases d with
    | none => rfl
    | some d => simp only [Machine.call, RING_BUFFER_Replace, if_pos h, Option.getD_some]
  | IsEmpty => exact call_IsEmpty m
  | IsFull => exact call_IsFull m
  | GetFreeElements r => exact call_GetFreeElements m r
  | GetElementSize r => exact call_GetElementSize m r

/-- Every call, lifecycle calls included, leads from an initialised record that
satisfies the invariant, or from the all-zero record, to one of the two. -/
theorem Inv_lifeCall {m : Machine} (h : Inv m.rb ∨ m.rb = ring_buffer_zero) (c : LifeCall) :
    Inv (m.lifeCall c).rb ∨ (m.lifeCall c).rb = ring_buffer_zero := by
  cases c with
  | api c =>
    rcases h with h | h
    · exact Or.inl (Inv_call h c).1
    · right
      have hb : m.rb.conf.buffer = 0 := by rw [h]; rfl
      show (m.call c).rb = ring_buffer_zero
      rw [call_uninit hb c]; exact h
  | Init conf =>
    have e : (m.lifeCall (.Init conf)).rb =
        (RING_BUFFER_Init (some m.rb) m.mem conf).rb.getD m.rb := rfl
    by_cases hv : ValidConf conf
    · exact Or.inl (Inv_init m.rb m.mem hv)
    · rw [e, Init_fail m.rb m.mem conf hv]
      exact h
  | DeInit =>
    have e : (m.lifeCall .DeInit).rb =
        (RING_BUFFER_DeInit (some m.rb) m.mem).rb.getD m.rb := rfl
    rw [e]
    by_cases hb : m.rb.conf.buffer = 0
    · simp only [RING_BUFFER_DeInit, if_pos hb, Option.getD_some]; exact h
    · simp only [RING_BUFFER_DeInit, if_neg hb, Option.getD_some]; exact Or.inr trivial

theorem Inv_runLife (cs : List LifeCall) : ∀ {m : Machine},
    (Inv m.rb ∨ m.rb = ring_buffer_zero) →
    Inv (m.runLife cs).rb ∨ (m.runLife cs).rb = ring_buffer_zero := by
  induction cs with
  | nil => intro m h; exact h
  | cons c cs ih => intro m h; exact ih (Inv_lifeCall h c)

/-- C24: count invariant. In every state reached from a successful Init by any
sequence of calls - the API calls with any arguments, successful or failing,
and also further Init and DeInit calls - `count ≤ max_elements` (and `0 ≤ count`
as `count` is unsigned), under either policy. -/
theorem C24_count_invariant (conf : ring_buffer_conf_t) (rb0 : ring_buffer_t) (mem0 : Memory)
    (cs : List LifeCall) (hv : ValidConf conf) :
    0 ≤ ((Machine.init rb0 mem0 conf).runLife cs).rb.count ∧
      ((Machine.init rb0 mem0 conf).runLife cs).rb.count ≤
        ((Machine.init rb0 mem0 conf).runLife cs).rb.max_elements := by
  refine ⟨Nat.zero_le _, ?_⟩
  rcases Inv_runLife cs (Or.inl (Inv_init rb0 mem0 hv)) with h | h
  · exact h.count_le
  · rw [h]; exact Nat.le_refl _

/-- Witness of C24: inserts past capacity, a failing Peek, a DeInit and a new
Init on the 5-byte region. -/
theorem C24_count_invariant_witness :
    ValidConf demo_conf ∧
      ((Machine.init ring_buffer_zero (fun _ => 0) demo_conf).runLife
        [.api (.Insert (some (bytes2 1 2))), .api (.Insert (some (bytes2 3 4))),
         .api (.Insert (some (bytes2 5 6))), .api (.Peek 7 (some (bytes2 0 0))),
         .DeInit, .Init demo_conf, .api (.Insert (some (bytes2 7 8)))]).rb.count ≤
      ((Machine.init ring_buffer_zero (fun _ => 0) demo_conf).runLife
        [.api (.Insert (some (bytes2 1 2))), .api (.Insert (some (bytes2 3 4))),
         .api (.Insert (some (bytes2 5 6))), .api (.Peek 7 (some (bytes2 0 0))),
         .DeInit, .Init demo_conf, .api (.Insert (some (bytes2 7 8)))]).rb.max_elements :=
  ⟨by decide,
    (C24_count_invariant demo_conf ring_buffer_zero (fun _ => 0)
      [.api (.Insert (some (bytes2 1 2))), .api (.Insert (some (bytes2 3 4))),
       .api (.Insert (some (bytes2 5 6))), .api (.Peek 7 (some (bytes2 0 0))),
       .DeInit, .Init demo_conf, .api (.Insert (some (bytes2 7 8)))] (by decide)).2⟩

theorem insertNext_head_cases {rb : ring_buffer_t} (h : Inv rb) :
    (rb.head + rb.conf.element_size < rb.conf.buffer_size →
      (insertNext rb).head = rb.head + rb.conf.element_size) ∧
    (rb.head + rb.conf.element_size = rb.conf.buffer_size → (insertNext rb).head = 0) ∧
    (rb.conf.buffer_size < rb.head + rb.conf.element_size →
      (insertNext rb).head = rb.conf.element_size - (rb.conf.buffer_size - rb.head)) := by
  have h1 := h.es_le
  have h2 := h.head_lt
  refine ⟨?_, ?_, ?_⟩
  · intro hlt
    exact Nat.mod_eq_of_lt hlt
  · intro heq
    show (rb.head + rb.conf.element_size) % rb.conf.buffer_size = 0
    rw [heq, Nat.mod_self]
  · intro hgt
    show (rb.head + rb.conf.element_size) % rb.conf.buffer_size = _
    rw [mod_wrap_hi (Nat.le_of_lt hgt) (by omega)]
    omega

theorem call_head_frame (m : Machine) (c : Call) (hc : ∀ x, c ≠ Call.Insert x) :
    (m.call c).rb.head = m.rb.head := by
  cases c with
  | Insert d => exact absurd rfl (hc d)
  | Retrieve d =>
    cases d with
    | none => rfl
    | some d =>
      simp only [Machine.call, RING_BUFFER_Retrieve]
      split_ifs <;> rfl
  | Peek i d => rw [call_Peek]
  | Replace i d =>
    cases d with
    | none => rfl
    | some d =>
      simp only [Machine.call, RING_BUFFER_Replace]
      split_ifs <;> rfl
  | IsEmpty => rw [call_IsEmpty]
  | IsFull => rw [call_IsFull]
  | GetFreeElements r => rw [call_GetFreeElements]
  | GetElementSize r => rw [call_GetElementSize]

/-- C25: head advance on insert. In every reachable state a successful Insert
sets `head` to `(head + element_size) mod buffer_size`: that is
`head + element_size` when this is below `buffer_size`, `0` when it equals
`buffer_size`, and `element_size - (buffer_size - head)` when the write is
split; and no other API call changes `head`, so `head` stays one element past
the start of the most recently inserted element, modulo `buffer_size`. -/
theorem C25_head_advance (conf : ring_buffer_conf_t) (m : Machine) (d : Memory)
    (hr : Reachable conf m)
    (hok : (RING_BUFFER_Insert (some m.rb) m.mem (some d)).status = RING_BUFFER_STATUS_OK) :
    (∃ rb1, (RING_BUFFER_Insert (some m.rb) m.mem (some d)).rb = some rb1 ∧
      rb1.head = (m.rb.head + m.rb.conf.element_size) % m.rb.conf.buffer_size ∧
      (m.rb.head + m.rb.conf.element_size < m.rb.conf.buffer_size →
        rb1.head = m.rb.head + m.rb.conf.element_size) ∧
      (m.rb.head + m.rb.conf.element_size = m.rb.conf.buffer_size → rb1.head = 0) ∧
      (m.rb.conf.buffer_size < m.rb.head + m.rb.conf.element_size →
        rb1.head = m.rb.conf.element_size - (m.rb.conf.buffer_size - m.rb.head))) ∧
    (∀ c : Call, (∀ x, c ≠ Call.Insert x) → (m.call c).rb.head = m.rb.head) := by
  have hI := hr.inv.1
  have hg := Insert_ok_guard hI.buffer_ne hok
  rw [Insert_eq hI m.mem d hg]
  have hc := insertNext_head_cases hI
  exact ⟨⟨insertNext m.rb, rfl, rfl, hc.1, hc.2.1, hc.2.2⟩, call_head_frame m⟩

/-- Witness of C25 on the wrapped full buffer, whose head is at offset 3 of 5:
the insert is contiguous and lands exactly on the end, so head becomes 0. -/
theorem C25_head_advance_witness :
    Reachable demo_conf demo_full ∧
      (RING_BUFFER_Insert (some demo_full.rb) demo_full.mem (some (bytes2 9 9))).status =
        RING_BUFFER_STATUS_OK ∧
      ∃ rb1, (RING_BUFFER_Insert (some demo_full.rb) demo_full.mem (some (bytes2 9 9))).rb =
          some rb1 ∧
        rb1.head = (demo_full.rb.head + demo_full.rb.conf.element_size)
          % demo_full.rb.conf.buffer_size := by
  refine ⟨⟨by decide, _, _, _, rfl⟩, by decide, ?_⟩
  obtain ⟨rb1, h1, h2, _⟩ := (C25_head_advance demo_conf demo_full (bytes2 9 9)
    ⟨by decide, _, _, _, rfl⟩ (by decide)).1
  exact ⟨rb1, h1, h2⟩

/-- C26: insert byte placement. In every reachable state, after a successful
Insert of `d`, for every `k < element_size` the region byte at offset
`(head + k) mod buffer_size` is `d[k]` - which is offset `head + k` for the
first `buffer_size - head` bytes and offset `k - (buffer_size - head)` for the
rest - and every other byte of memory is unchanged. -/
theorem C26_insert_byte_placement (conf : ring_buffer_conf_t) (m : Machine) (d : Memory)
    (hr : Reachable conf m)
    (hok : (RING_BUFFER_Insert (some m.rb) m.mem (some d)).status = RING_BUFFER_STATUS_OK) :
    (∀ k, k < m.rb.conf.element_size →
      (RING_BUFFER_Insert (some m.rb) m.mem (some d)).mem
        (m.rb.conf.buffer + (m.rb.head + k) % m.rb.conf.buffer_size) = d k) ∧
    (∀ k, k < m.rb.conf.element_size →
      (m.rb.head + k) % m.rb.conf.buffer_size =
        if k < m.rb.conf.buffer_size - m.rb.head then m.rb.head + k
        else k - (m.rb.conf.buffer_size - m.rb.head)) ∧
    (∀ a, (∀ k, k < m.rb.conf.element_size →
        a ≠ m.rb.conf.buffer + (m.rb.head + k) % m.rb.conf.buffer_size) →
      (RING_BUFFER_Insert (some m.rb) m.mem (some d)).mem a = m.mem a) := by
  have hI := hr.inv.1
  have hg := Insert_ok_guard hI.buffer_ne hok
  have h1 := hI.es_le
  have h2 := hI.head_lt
  rw [Insert_eq hI m.mem d hg]
  refine ⟨?_, ?_, ?_⟩
  · intro k hk
    exact wrapWrite_hit m.mem d _ _ _ _ k hI.es_le hI.head_lt hk
  · intro k hk
    by_cases hlt : k < m.rb.conf.buffer_size - m.rb.head
    · rw [if_pos hlt, mod_wrap_lo (by omega)]
    · rw [if_neg hlt, mod_wrap_hi (by omega) (by omega)]
      omega
  · intro a ha
    exact wrapWrite_miss m.mem d _ _ _ _ a hI.es_le hI.head_lt ha

/-- Witness of C26 on the full buffer that has not wrapped: the insert at
offset 4 of 5 is split over offsets 4 and 0. -/
theorem C26_insert_byte_placement_witness :
    Reachable demo_conf demo_two ∧
      (RING_BUFFER_Insert (some demo_two.rb) demo_two.mem (some (bytes2 5 6))).status =
        RING_BUFFER_STATUS_OK ∧
      (RING_BUFFER_Insert (some demo_two.rb) demo_two.mem (some (bytes2 5 6))).mem
        (demo_two.rb.conf.buffer + (demo_two.rb.head + 1) % demo_two.rb.conf.buffer_size) =
          bytes2 5 6 1 :=
  ⟨⟨by decide, _, _, _, rfl⟩, by decide,
    (C26_insert_byte_placement demo_conf demo_two (bytes2 5 6) ⟨by decide, _, _, _, rfl⟩
      (by decide)).1 1 (by decide)⟩

/-- Counterexample to C27 as stated: on a region of 1 byte (element size 1,
no overwrite) Init and one Insert return OK, but `head` is 0 afterwards, not 1:
the insert lands exactly on the end of the region and is normalised to 0. -/
theorem C27_first_insert_counterexample :
    (1 ≤ 1 ∧ 1 ≤ 1024) ∧
    (RING_BUFFER_Insert
      (RING_BUFFER_Init (some ring_buffer_zero) (fun _ => 0)
        { buffer := 100, buffer_size := 1, element_size := 1, overwrite := false }).rb
      (RING_BUFFER_Init (some ring_buffer_zero) (fun _ => 0)
        { buffer := 100, buffer_size := 1, element_size := 1, overwrite := false }).mem
      (some (bytes2 0xAA 0))).status = RING_BUFFER_STATUS_OK ∧
    (RING_BUFFER_Insert
      (RING_BUFFER_Init (some ring_buffer_zero) (fun _ => 0)
        { buffer := 100, buffer_size := 1, element_size := 1, overwrite := false }).rb
      (RING_BUFFER_Init (some ring_buffer_zero) (fun _ => 0)
        { buffer := 100, buffer_size := 1, element_size := 1, overwrite := false }).mem
      (some (bytes2 0xAA 0))).rb.map ring_buffer_t.head = some 0 ∧
    ¬ ((RING_BUFFER_Insert
      (RING_BUFFER_Init (some ring_buffer_zero) (fun _ => 0)
        { buffer := 100, buffer_size := 1, element_size := 1, overwrite := false }).rb
      (RING_BUFFER_Init (some ring_buffer_zero) (fun _ => 0)
        { buffer := 100, buffer_size := 1, element_size := 1, overwrite := false }).mem
      (some (bytes2 0xAA 0))).rb.map ring_buffer_t.head = some 1) := by
  decide

/-- C27, amended: for every region size `n` with `1 ≤ n ≤ 1024`, element size 1
and no overwrite, Init followed by one Insert of a byte returns OK and leaves
`count = 1`, `tail = 0`, and `head = 1` when `n ≥ 2` but `head = 0` when
`n = 1`. -/
theorem C27_first_insert (n b : Nat) (rb0 : ring_buffer_t) (mem0 d : Memory)
    (hn1 : 1 ≤ n) (hn2 : n ≤ 1024) (hb : b ≠ 0) :
    let r0 := RING_BUFFER_Init (some rb0) mem0
      { buffer := b, buffer_size := n, element_size := 1, overwrite := false }
    let r1 := RING_BUFFER_Insert r0.rb r0.mem (some d)
    r0.status = RING_BUFFER_STATUS_OK ∧ r1.status = RING_BUFFER_STATUS_OK ∧
    r1.rb.map ring_buffer_t.count = some 1 ∧ r1.rb.map ring_buffer_t.tail = some 0 ∧
    r1.rb.map ring_buffer_t.head = some (if n = 1 then 0 else 1) := by
  intro r0 r1
  have hv : ValidConf { buffer := b, buffer_size := n, element_size := 1, overwrite := false } := by
    refine ⟨hb, ?_, ?_, hn1⟩
    · show n ≠ 0
      omega
    · show (1 : Nat) ≠ 0
      decide
  have h0 := Inv_init rb0 mem0 hv
  simp only [Machine.init, Init_eq rb0 mem0 hv, Option.getD_some] at h0
  have hg : ¬ ((false = false) ∧ 0 ≥ n / 1) := by
    rw [Nat.div_one]; omega
  have hpos : 0 < n / 1 := by rw [Nat.div_one]; omega
  have hnge : ¬ 0 ≥ n / 1 := by omega
  have hhead : (0 + 1) % n = if n = 1 then 0 else 1 := by
    by_cases h1 : n = 1
    · rw [if_pos h1, h1]
    · rw [if_neg h1]
      exact Nat.mod_eq_of_lt (by omega)
  simp only [r0, r1, Init_eq rb0 mem0 hv, Insert_eq h0 mem0 d hg, Option.map_some', insertNext,
    if_pos hpos, if_neg hnge, hhead, and_self]

/-- Witness of amended C27 at region size 1024. -/
theorem C27_first_insert_witness :
    (1 ≤ 1024 ∧ 1024 ≤ 1024 ∧ 100 ≠ 0) ∧
      (RING_BUFFER_Insert
        (RING_BUFFER_Init (some ring_buffer_zero) (fun _ => 0)
          { buffer := 100, buffer_size := 1024, element_size := 1, overwrite := false }).rb
        (RING_BUFFER_Init (some ring_buffer_zero) (fun _ => 0)
          { buffer := 100, buffer_size := 1024, element_size := 1, overwrite := false }).mem
        (some (bytes2 0xAA 0))).rb.map ring_buffer_t.head = some (if 1024 = 1 then 0 else 1) :=
  ⟨by decide,
    (C27_first_insert 1024 100 ring_buffer_zero (fun _ => 0) (bytes2 0xAA 0) (by decide)
      (by decide) (by decide)).2.2.2.2⟩

/-- C28: tail advance on retrieve. In every reachable state a successful
Retrieve sets `tail` to `tail + element_size` when
`buffer_size - tail ≥ element_size` and to
`element_size - (buffer_size - tail)` otherwise. And for every valid
configuration, Init, Insert, Retrieve all return OK and leave
`tail = element_size`. -/
theorem C28_tail_advance :
    (∀ (conf : ring_buffer_conf_t) (m : Machine) (dst : Memory), Reachable conf m →
      (RING_BUFFER_Retrieve (some m.rb) m.mem (some dst)).status = RING_BUFFER_STATUS_OK →
      ∃ rb1, (RING_BUFFER_Retrieve (some m.rb) m.mem (some dst)).rb = some rb1 ∧
        (m.rb.conf.buffer_size - m.rb.tail ≥ m.rb.conf.element_size →
          rb1.tail = m.rb.tail + m.rb.conf.element_size) ∧
        (¬ m.rb.conf.buffer_size - m.rb.tail ≥ m.rb.conf.element_size →
          rb1.tail = m.rb.conf.element_size - (m.rb.conf.buffer_size - m.rb.tail))) ∧
    (∀ (conf : ring_buffer_conf_t) (rb0 : ring_buffer_t) (mem0 d dst : Memory),
      ValidConf conf →
      let r0 := RING_BUFFER_Init (some rb0) mem0 conf
      let r1 := RING_BUFFER_Insert r0.rb r0.mem (some d)
      let r2 := RING_BUFFER_Retrieve r1.rb r1.mem (some dst)
      r0.status = RING_BUFFER_STATUS_OK ∧ r1.status = RING_BUFFER_STATUS_OK ∧
      r2.status = RING_BUFFER_STATUS_OK ∧
      r2.rb.map ring_buffer_t.tail = some conf.element_size) := by
  constructor
  · intro conf m dst hr hok
    have hI := hr.inv.1
    have hc := Retrieve_ok_count hI.buffer_ne hok
    rw [Retrieve_eq m.rb m.mem dst hI.buffer_ne hc]
    refine ⟨retrieveNext m.rb, rfl, ?_, ?_⟩
    · intro h; simp only [retrieveNext, if_pos h]
    · intro h; simp only [retrieveNext, if_neg h]
  · intro conf rb0 mem0 d dst hv r0 r1 r2
    have h0 := Inv_init rb0 mem0 hv
    simp only [Machine.init, Init_eq rb0 mem0 hv, Option.getD_some] at h0
    have hpos : 0 < conf.buffer_size / conf.element_size :=
      Nat.div_pos hv.2.2.2 (Nat.pos_of_ne_zero hv.2.2.1)
    have hg : ¬ (conf.overwrite = false ∧ 0 ≥ conf.buffer_size / conf.element_size) := by
      omega
    have h1 := Inv_insertNext h0
    have hc1 : (insertNext
        ⟨conf, 0, 0, 0, conf.buffer_size / conf.element_size⟩).count ≠ 0 := by
      simp only [insertNext, if_pos hpos]; omega
    have hnge : ¬ 0 ≥ conf.buffer_size / conf.element_size := by omega
    have hes : conf.buffer_size - 0 ≥ conf.element_size := by
      have := hv.2.2.2; omega
    simp only [r0, r1, r2, Init_eq rb0 mem0 hv, Insert_eq h0 mem0 d hg,
      Retrieve_eq _ _ dst h1.buffer_ne hc1, true_and]
    simp only [Option.map_some', retrieveNext, insertNext, if_neg hnge, if_pos hes,
      Nat.zero_add]

/-- Witness of C28 on the wrapped full buffer, whose tail is at offset 4 of 5:
the read is split and the tail lands on offset 1. -/
theorem C28_tail_advance_witness :
    Reachable demo_conf demo_full ∧
      (RING_BUFFER_Retrieve (some demo_full.rb) demo_full.mem (some (bytes2 0 0))).status =
        RING_BUFFER_STATUS_OK ∧
      ¬ demo_full.rb.conf.buffer_size - demo_full.rb.tail ≥ demo_full.rb.conf.element_size ∧
      ∃ rb1, (RING_BUFFER_Retrieve (some demo_full.rb) demo_full.mem (some (bytes2 0 0))).rb =
          some rb1 ∧
        rb1.tail = demo_full.rb.conf.element_size -
          (demo_full.rb.conf.buffer_size - demo_full.rb.tail) := by
  refine ⟨⟨by decide, _, _, _, rfl⟩, by decide, by decide, ?_⟩
  obtain ⟨rb1, h1, _, h3⟩ := C28_tail_advance.1 demo_conf demo_full (bytes2 0 0)
    ⟨by decide, _, _, _, rfl⟩ (by decide)
  exact ⟨rb1, h1, h3 (by decide)⟩

/-- C29, the code at the failing input: on a region of 1 byte with 1-byte
elements, after Init, Insert(10), Retrieve, Insert(20) the buffer is reachable
and holds one element, yet `tail = 1 = buffer_size`, which is not an offset of
the region; Peek at 0 and Retrieve return the element 20, whose byte is the
region byte at offset 0. -/
theorem C29_tail_at_region_end :
    Reachable { buffer := 100, buffer_size := 1, element_size := 1, overwrite := false }
        demo_tail_end ∧
      0 < demo_tail_end.rb.count ∧
      demo_tail_end.rb.tail = 1 ∧ demo_tail_end.rb.conf.buffer_size = 1 ∧
      ¬ demo_tail_end.rb.tail < demo_tail_end.rb.conf.buffer_size ∧
      Peek_value demo_tail_end.rb demo_tail_end.mem 0 (bytes2 0 0) = some [20] ∧
      Retrieve_value demo_tail_end.rb demo_tail_end.mem (bytes2 0 0) = some [20] ∧
      demo_tail_end.mem (demo_tail_end.rb.conf.buffer + 0) = 20 :=
  ⟨⟨by decide, _, _, _, rfl⟩, by decide, by decide, by decide, by decide, by decide,
    by decide, by decide⟩

/-- Counterexample to C30 as stated: on the region of 5 bytes with 2-byte
elements (`max_elements * element_size = 4`, so offset 4 is the trailing byte),
the third Insert is successful and changes the region byte at offset 4. -/
theorem C30_trailing_bytes_counterexample :
    Reachable demo_conf demo_two ∧
      demo_conf.buffer_size % demo_conf.element_size ≠ 0 ∧
      (RING_BUFFER_Insert (some demo_two.rb) demo_two.mem (some (bytes2 5 6))).status =
        RING_BUFFER_STATUS_OK ∧
      demo_two.rb.max_elements * demo_two.rb.conf.element_size ≤ 4 ∧
      4 < demo_two.rb.conf.buffer_size ∧
      (RING_BUFFER_Insert (some demo_two.rb) demo_two.mem (some (bytes2 5 6))).mem
        (demo_two.rb.conf.buffer + 4) ≠ demo_two.mem (demo_two.rb.conf.buffer + 4) :=
  ⟨⟨by decide, _, _, _, rfl⟩, by decide, by decide, by decide, by decide, by decide⟩

theorem insertAll_eq_run (ds : List Memory) : ∀ (m : Machine),
    (insertAll ds m).2 = m.run (ds.map (fun d => Call.Insert (some d))) := by
  induction ds with
  | nil => intro m; rfl
  | cons d ds ih =>
    intro m
    simp only [insertAll, List.map_cons, Machine.run, List.foldl_cons]
    exact ih _

theorem insertAll_cursors (ds : List Memory) : ∀ {m : Machine}, Inv m.rb →
    m.rb.count + ds.length ≤ m.rb.max_elements →
    (insertAll ds m).2.rb.tail = m.rb.tail ∧
    (insertAll ds m).2.rb.count = m.rb.count + ds.length := by
  induction ds with
  | nil => intro m _ _; exact ⟨rfl, rfl⟩
  | cons d ds ih =>
    intro m h hle
    rw [List.length_cons] at hle
    have hf : m.rb.count < m.rb.max_elements := by omega
    have hf2 : ¬ m.rb.count ≥ m.rb.max_elements := by omega
    have hg : ¬ (m.rb.conf.overwrite = false ∧ m.rb.count ≥ m.rb.max_elements) := by omega
    have hc : (insertNext m.rb).count = m.rb.count + 1 := by simp only [insertNext, if_pos hf]
    have ht : (insertNext m.rb).tail = m.rb.tail := by simp only [insertNext, if_neg hf2]
    have ih2 := @ih ⟨insertNext m.rb, wrapWrite m.mem d m.rb.conf.buffer m.rb.conf.buffer_size
        m.rb.conf.element_size m.rb.head⟩ (Inv_insertNext h)
      (by show (insertNext m.rb).count + ds.length ≤ m.rb.max_elements; omega)
    simp only [insertAll, Insert_eq h m.mem d hg, Option.getD_some]
    refine ⟨ih2.1.trans ht, ?_⟩
    rw [ih2.2, List.length_cons]
    show (insertNext m.rb).count + ds.length = m.rb.count + (ds.length + 1)
    omega

theorem byte_succ_ne (x : uint8_t) : x + 1 ≠ x := by
  intro h
  have h2 := congrArg Fin.val h
  rw [Fin.val_add] at h2
  have h3 := x.isLt
  have h4 : ((1 : uint8_t) : Nat) = 1 := rfl
  rw [h4] at h2
  omega

/-- For a region whose size is not a multiple of the element size, a state is
reachable in which the next Insert starts at the first trailing byte. -/
theorem exists_insert_at_trailing_byte (conf : ring_buffer_conf_t) (rb0 : ring_buffer_t)
    (mem0 : Memory) (hv : ValidConf conf) (hnm : conf.buffer_size % conf.element_size ≠ 0) :
    ∃ m : Machine, Reachable conf m ∧ m.rb.count < m.rb.max_elements ∧
      m.rb.head = m.rb.max_elements * m.rb.conf.element_size ∧
      m.rb.max_elements * m.rb.conf.element_size < m.rb.conf.buffer_size := by
  have h0 := Inv_init rb0 mem0 hv
  have hc0 := init_count rb0 mem0 hv
  have hm0 := init_max rb0 mem0 hv
  have hcf0 := init_conf rb0 mem0 hv
  let ds : List Memory := List.replicate (conf.buffer_size / conf.element_size) (fun _ => 0)
  have hlen : ds.length = conf.buffer_size / conf.element_size := List.length_replicate _ _
  have hle : (Machine.init rb0 mem0 conf).rb.count + ds.length ≤
      (Machine.init rb0 mem0 conf).rb.max_elements := by rw [hc0, hm0, hlen]; omega
  have hs := insertAll_spec ds h0 hle
  have hcur := insertAll_cursors ds h0 hle
  have hI1 := hs.2.1
  have hconf1 : (insertAll ds (Machine.init rb0 mem0 conf)).2.rb.conf = conf :=
    hs.2.2.1.trans hcf0
  have hmax1 : (insertAll ds (Machine.init rb0 mem0 conf)).2.rb.max_elements =
      conf.buffer_size / conf.element_size := by rw [hI1.max_eq, hconf1]
  have htail1 : (insertAll ds (Machine.init rb0 mem0 conf)).2.rb.tail = 0 := by
    rw [hcur.1]
    simp only [Machine.init, Init_eq rb0 mem0 hv, Option.getD_some]
  have hcount1 : (insertAll ds (Machine.init rb0 mem0 conf)).2.rb.count =
      conf.buffer_size / conf.element_size := by rw [hcur.2, hc0, hlen, Nat.zero_add]
  have hlt : conf.buffer_size / conf.element_size * conf.element_size < conf.buffer_size := by
    have e := Nat.div_add_mod conf.buffer_size conf.element_size
    rw [Nat.mul_comm] at e
    omega
  have hhead1 : (insertAll ds (Machine.init rb0 mem0 conf)).2.rb.head =
      conf.buffer_size / conf.element_size * conf.element_size := by
    have hcong := hI1.cursors
    rw [htail1, hcount1, hconf1, Nat.zero_add, Nat.mod_eq_of_lt hlt] at hcong
    have hh := hI1.head_lt
    rw [hconf1] at hh
    rw [← hcong, Nat.mod_eq_of_lt hh]
  have hpos := hI1.max_pos
  have hcne : (insertAll ds (Machine.init rb0 mem0 conf)).2.rb.count ≠ 0 := by
    rw [hcount1, ← hmax1]; omega
  refine ⟨(insertAll ds (Machine.init rb0 mem0 conf)).2.call (.Retrieve (some (fun _ => 0))),
    ?_, ?_, ?_, ?_⟩
  · refine ⟨hv, rb0, mem0,
      ds.map (fun d => Call.Insert (some d)) ++ [Call.Retrieve (some (fun _ => 0))], ?_⟩
    rw [insertAll_eq_run]
    simp only [Machine.run, List.foldl_append, List.foldl_cons, List.foldl_nil]
  · rw [call_Retrieve_ok _ hI1.buffer_ne hcne]
    show (insertAll ds (Machine.init rb0 mem0 conf)).2.rb.count - 1 <
      (insertAll ds (Machine.init rb0 mem0 conf)).2.rb.max_elements
    rw [hcount1, hmax1]; omega
  · rw [call_Retrieve_ok _ hI1.buffer_ne hcne]
    show (insertAll ds (Machine.init rb0 mem0 conf)).2.rb.head =
      (insertAll ds (Machine.init rb0 mem0 conf)).2.rb.max_elements *
        (insertAll ds (Machine.init rb0 mem0 conf)).2.rb.conf.element_size
    rw [hhead1, hmax1, hconf1]
  · rw [call_Retrieve_ok _ hI1.buffer_ne hcne]
    show (insertAll ds (Machine.init rb0 mem0 conf)).2.rb.max_elements *
        (insertAll ds (Machine.init rb0 mem0 conf)).2.rb.conf.element_size <
      (insertAll ds (Machine.init rb0 mem0 conf)).2.rb.conf.buffer_size
    rw [hmax1, hconf1]; exact hlt

/-- C30, amended: (1) in every reachable state, for every valid configuration,
an Insert or a Replace changes only region bytes at the offsets
`(p + k) mod buffer_size` with `k < element_size`, where `p` is `head` for
Insert and `tail + index * element_size` for Replace, and these offsets are
below `buffer_size`; (2) for every valid configuration whose `buffer_size` is
not a multiple of `element_size` there is a reachable state in which a
successful Insert changes the region byte at offset
`max_elements * element_size`, the first trailing byte. -/
theorem C30_writes_within_region :
    (∀ (conf : ring_buffer_conf_t) (m : Machine) (d : Memory) (index : Nat),
      Reachable conf m →
      (∀ a, (RING_BUFFER_Insert (some m.rb) m.mem (some d)).mem a ≠ m.mem a →
        ∃ k, k < m.rb.conf.element_size ∧
          a = m.rb.conf.buffer + (m.rb.head + k) % m.rb.conf.buffer_size ∧
          (m.rb.head + k) % m.rb.conf.buffer_size < m.rb.conf.buffer_size) ∧
      (∀ a, (RING_BUFFER_Replace (some m.rb) m.mem index (some d)).mem a ≠ m.mem a →
        ∃ k, k < m.rb.conf.element_size ∧
          a = m.rb.conf.buffer +
            (m.rb.tail + index * m.rb.conf.element_size + k) % m.rb.conf.buffer_size ∧
          (m.rb.tail + index * m.rb.conf.element_size + k) % m.rb.conf.buffer_size <
            m.rb.conf.buffer_size)) ∧
    (∀ (conf : ring_buffer_conf_t),
      ValidConf conf → conf.buffer_size % conf.element_size ≠ 0 →
      ∃ (m : Machine) (d : Memory), Reachable conf m ∧
        (RING_BUFFER_Insert (some m.rb) m.mem (some d)).status = RING_BUFFER_STATUS_OK ∧
        m.rb.max_elements * m.rb.conf.element_size < m.rb.conf.buffer_size ∧
        (RING_BUFFER_Insert (some m.rb) m.mem (some d)).mem
            (m.rb.conf.buffer + m.rb.max_elements * m.rb.conf.element_size) ≠
          m.mem (m.rb.conf.buffer + m.rb.max_elements * m.rb.conf.element_size)) := by
  constructor
  · intro conf m d index hr
    have hI := hr.inv.1
    have hp := hI.bs_pos
    constructor
    · intro a ha
      by_cases hg : m.rb.conf.overwrite = false ∧ m.rb.count ≥ m.rb.max_elements
      · exfalso; apply ha
        simp only [RING_BUFFER_Insert, if_neg hI.buffer_ne, if_pos hg]
      · rw [Insert_eq hI m.mem d hg] at ha
        by_contra hne
        apply ha
        apply wrapWrite_miss m.mem d _ _ _ _ a hI.es_le hI.head_lt
        intro k hk e
        exact hne ⟨k, hk, e, Nat.mod_lt _ hp⟩
    · intro a ha
      by_cases hi : index < m.rb.count
      · rw [Replace_eq m.rb m.mem d index hI.buffer_ne hi] at ha
        by_contra hne
        apply ha
        apply wrapWrite_miss m.mem d _ _ _ _ a hI.es_le (Nat.mod_lt _ hp)
        intro k hk e
        rw [Nat.mod_add_mod] at e
        exact hne ⟨k, hk, e, Nat.mod_lt _ hp⟩
      · exfalso; apply ha
        have hst : (RING_BUFFER_Replace (some m.rb) m.mem index (some d)).status ≠
            RING_BUFFER_STATUS_OK := by
          rw [Replace_status m.rb m.mem d index hI.buffer_ne]
          split_ifs with h1 h2
          · exact fun e => by cases e
          · exact fun e => by cases e
          · omega
        exact congrFun (Replace_fail (some m.rb) m.mem index (some d) hst).2 a
  · intro conf hv hnm
    obtain ⟨m, hr, hroom, hhead, hlt⟩ :=
      exists_insert_at_trailing_byte conf ring_buffer_zero (fun _ => 0) hv hnm
    have hI := hr.inv.1
    have hg : ¬ (m.rb.conf.overwrite = false ∧ m.rb.count ≥ m.rb.max_elements) := by omega
    obtain ⟨d, hd⟩ : ∃ d : Memory, d 0 =
        m.mem (m.rb.conf.buffer + m.rb.max_elements * m.rb.conf.element_size) + 1 :=
      ⟨fun _ => _, rfl⟩
    refine ⟨m, d, hr, ?_, hlt, ?_⟩
    · rw [Insert_eq hI m.mem _ hg]
    · rw [Insert_eq hI m.mem _ hg]
      have hw := wrapWrite_hit m.mem d m.rb.conf.buffer m.rb.conf.buffer_size
        m.rb.conf.element_size m.rb.head 0 hI.es_le hI.head_lt hI.es_pos
      rw [Nat.add_zero, Nat.mod_eq_of_lt hI.head_lt] at hw
      rw [← hhead] at hd ⊢
      show wrapWrite _ _ _ _ _ _ _ ≠ _
      rw [hw, hd]
      exact byte_succ_ne _

/-- Witness of amended C30: the byte changed at offset 4 by the third insert
into the 5-byte region is one of the offsets `(head + k) mod buffer_size`, and
for the 5-byte configuration a reachable state exists in which an Insert
changes the first trailing byte. -/
theorem C30_writes_within_region_witness :
    (Reachable demo_conf demo_two ∧
      ∃ k, k < demo_two.rb.conf.element_size ∧
        demo_two.rb.conf.buffer + 4 = demo_two.rb.conf.buffer +
          (demo_two.rb.head + k) % demo_two.rb.conf.buffer_size ∧
        (demo_two.rb.head + k) % demo_two.rb.conf.buffer_size <
          demo_two.rb.conf.buffer_size) ∧
    (ValidConf demo_conf ∧ demo_conf.buffer_size % demo_conf.element_size ≠ 0 ∧
      ∃ (m : Machine) (d : Memory), Reachable demo_conf m ∧
        (RING_BUFFER_Insert (some m.rb) m.mem (some d)).status = RING_BUFFER_STATUS_OK ∧
        m.rb.max_elements * m.rb.conf.element_size < m.rb.conf.buffer_size ∧
        (RING_BUFFER_Insert (some m.rb) m.mem (some d)).mem
            (m.rb.conf.buffer + m.rb.max_elements * m.rb.conf.element_size) ≠
          m.mem (m.rb.conf.buffer + m.rb.max_elements * m.rb.conf.element_size)) :=
  ⟨⟨⟨by decide, _, _, _, rfl⟩,
    (C30_writes_within_region.1 demo_conf demo_two (bytes2 5 6) 0
      ⟨by decide, _, _, _, rfl⟩).1 (demo_two.rb.conf.buffer + 4) (by decide)⟩,
   ⟨by decide, by decide,
    C30_writes_within_region.2 demo_conf (by decide) (by decide)⟩⟩

/-- C31: cursor consistency invariant. In every state reached from a
successful Init by any sequence of calls (the API calls with any arguments, and
further Init and DeInit calls), `head` is congruent to
`tail + count * element_size` modulo `buffer_size`; in particular when
`count = 0`, `head` and `tail` are congruent modulo `buffer_size`. -/
theorem C31_cursor_consistency (conf : ring_buffer_conf_t) (rb0 : ring_buffer_t)
    (mem0 : Memory) (cs : List LifeCall) (hv : ValidConf conf) :
    ((Machine.init rb0 mem0 conf).runLife cs).rb.head %
        ((Machine.init rb0 mem0 conf).runLife cs).rb.conf.buffer_size =
      (((Machine.init rb0 mem0 conf).runLife cs).rb.tail +
        ((Machine.init rb0 mem0 conf).runLife cs).rb.count *
          ((Machine.init rb0 mem0 conf).runLife cs).rb.conf.element_size) %
        ((Machine.init rb0 mem0 conf).runLife cs).rb.conf.buffer_size ∧
    (((Machine.init rb0 mem0 conf).runLife cs).rb.count = 0 →
      ((Machine.init rb0 mem0 conf).runLife cs).rb.head %
          ((Machine.init rb0 mem0 conf).runLife cs).rb.conf.buffer_size =
        ((Machine.init rb0 mem0 conf).runLife cs).rb.tail %
          ((Machine.init rb0 mem0 conf).runLife cs).rb.conf.buffer_size) := by
  have key : ((Machine.init rb0 mem0 conf).runLife cs).rb.head %
        ((Machine.init rb0 mem0 conf).runLife cs).rb.conf.buffer_size =
      (((Machine.init rb0 mem0 conf).runLife cs).rb.tail +
        ((Machine.init rb0 mem0 conf).runLife cs).rb.count *
          ((Machine.init rb0 mem0 conf).runLife cs).rb.conf.element_size) %
        ((Machine.init rb0 mem0 conf).runLife cs).rb.conf.buffer_size := by
    rcases Inv_runLife cs (Or.inl (Inv_init rb0 mem0 hv)) with h | h
    · exact h.cursors
    · rw [h]; rfl
  refine ⟨key, ?_⟩
  intro h0
  rw [key, h0, Nat.zero_mul, Nat.add_zero]

/-- Witness of C31: three inserts with a wrap, a retrieve, a DeInit and a new
Init followed by an insert, on the 5-byte region. -/
theorem C31_cursor_consistency_witness :
    ValidConf demo_conf ∧
      demo_life.rb.head % demo_life.rb.conf.buffer_size =
        (demo_life.rb.tail + demo_life.rb.count * demo_life.rb.conf.element_size) %
          demo_life.rb.conf.buffer_size :=
  ⟨by decide,
    (C31_cursor_consistency demo_conf ring_buffer_zero (fun _ => 0)
      [.api (.Insert (some (bytes2 1 2))), .api (.Insert (some (bytes2 3 4))),
       .api (.Insert (some (bytes2 5 6))), .api (.Retrieve (some (bytes2 0 0))),
       .DeInit, .Init demo_conf, .api (.Insert (some (bytes2 7 8)))] (by decide)).1⟩

theorem retrieveNext_tail_range {rb : ring_buffer_t} (h : Inv rb) :
    1 ≤ (retrieveNext rb).tail ∧ (retrieveNext rb).tail ≤ rb.conf.buffer_size ∧
      ((retrieveNext rb).tail = rb.conf.buffer_size ↔
        (rb.tail + (rb.conf.element_size - 1)) % rb.conf.buffer_size =
          rb.conf.buffer_size - 1) := by
  have h1 := h.es_pos
  have h2 := h.es_le
  have h3 := h.tail_le
  by_cases hc : rb.conf.buffer_size - rb.tail ≥ rb.conf.element_size
  · have e : (retrieveNext rb).tail = rb.tail + rb.conf.element_size := by
      simp only [retrieveNext, if_pos hc]
    have em : (rb.tail + (rb.conf.element_size - 1)) % rb.conf.buffer_size =
        rb.tail + (rb.conf.element_size - 1) := Nat.mod_eq_of_lt (by omega)
    rw [e, em]
    refine ⟨by omega, by omega, ?_⟩
    constructor <;> intro _ <;> omega
  · have e : (retrieveNext rb).tail =
        rb.conf.element_size - (rb.conf.buffer_size - rb.tail) := by
      simp only [retrieveNext, if_neg hc]
    have em : (rb.tail + (rb.conf.element_size - 1)) % rb.conf.buffer_size =
        rb.tail + (rb.conf.element_size - 1) - rb.conf.buffer_size :=
      mod_wrap_hi (by omega) (by omega)
    rw [e, em]
    refine ⟨by omega, by omega, ?_⟩
    constructor <;> intro _ <;> omega

/-- C32: cursor range invariant. In every reachable state `head < buffer_size`
and `tail ≤ buffer_size`. A successful Insert that reaches `buffer_size` sets
`head` to 0. Retrieve does not normalise `tail`: after every successful
Retrieve `1 ≤ tail ≤ buffer_size`, and `tail = buffer_size` exactly when the
last byte of the retrieved element was the last byte of the region (offset
`buffer_size - 1`). -/
theorem C32_cursor_range (conf : ring_buffer_conf_t) (m : Machine) (d dst : Memory)
    (hr : Reachable conf m) :
    m.rb.head < m.rb.conf.buffer_size ∧ m.rb.tail ≤ m.rb.conf.buffer_size ∧
    ((RING_BUFFER_Insert (some m.rb) m.mem (some d)).status = RING_BUFFER_STATUS_OK →
      m.rb.head + m.rb.conf.element_size = m.rb.conf.buffer_size →
      (RING_BUFFER_Insert (some m.rb) m.mem (some d)).rb.map ring_buffer_t.head = some 0) ∧
    ((RING_BUFFER_Retrieve (some m.rb) m.mem (some dst)).status = RING_BUFFER_STATUS_OK →
      ∃ rb1, (RING_BUFFER_Retrieve (some m.rb) m.mem (some dst)).rb = some rb1 ∧
        1 ≤ rb1.tail ∧ rb1.tail ≤ m.rb.conf.buffer_size ∧
        (rb1.tail = m.rb.conf.buffer_size ↔
          (m.rb.tail + (m.rb.conf.element_size - 1)) % m.rb.conf.buffer_size =
            m.rb.conf.buffer_size - 1)) := by
  have hI := hr.inv.1
  refine ⟨hI.head_lt, hI.tail_le, ?_, ?_⟩
  · intro hok heq
    have hg := Insert_ok_guard hI.buffer_ne hok
    rw [Insert_eq hI m.mem d hg]
    exact congrArg some ((insertNext_head_cases hI).2.1 heq)
  · intro hok
    have hc := Retrieve_ok_count hI.buffer_ne hok
    rw [Retrieve_eq m.rb m.mem dst hI.buffer_ne hc]
    have ht := retrieveNext_tail_range hI
    exact ⟨retrieveNext m.rb, rfl, ht.1, ht.2.1, ht.2.2⟩

/-- Witness of C32 on the 1-byte region holding one element with
`tail = buffer_size`: the retrieve leaves `tail = buffer_size` again. -/
theorem C32_cursor_range_witness :
    Reachable { buffer := 100, buffer_size := 1, element_size := 1, overwrite := false }
        demo_tail_end ∧
      demo_tail_end.rb.tail ≤ demo_tail_end.rb.conf.buffer_size ∧
      (RING_BUFFER_Retrieve (some demo_tail_end.rb) demo_tail_end.mem
        (some (bytes2 0 0))).status = RING_BUFFER_STATUS_OK ∧
      ∃ rb1, (RING_BUFFER_Retrieve (some demo_tail_end.rb) demo_tail_end.mem
          (some (bytes2 0 0))).rb = some rb1 ∧
        1 ≤ rb1.tail ∧ rb1.tail ≤ demo_tail_end.rb.conf.buffer_size :=
  have h := C32_cursor_range
    { buffer := 100, buffer_size := 1, element_size := 1, overwrite := false }
    demo_tail_end (bytes2 9 9) (bytes2 0 0) ⟨by decide, _, _, _, rfl⟩
  ⟨⟨by decide, _, _, _, rfl⟩, h.2.1, by decide,
    (h.2.2.2 (by decide)).imp (fun _ p => ⟨p.1, p.2.1, p.2.2.1⟩)⟩

/-- C34: live elements never overlap. In every reachable state
`count * element_size ≤ max_elements * element_size ≤ buffer_size`, and for
distinct `i`, `j` below `count` no byte offset of element `i` is a byte offset
of element `j`. -/
theorem C34_no_overlap (conf : ring_buffer_conf_t) (m : Machine) (i j k l : Nat)
    (hr : Reachable conf m) (hi : i < m.rb.count) (hj : j < m.rb.count) (hij : i ≠ j)
    (hk : k < m.rb.conf.element_size) (hl : l < m.rb.conf.element_size) :
    m.rb.count * m.rb.conf.element_size ≤ m.rb.max_elements * m.rb.conf.element_size ∧
    m.rb.max_elements * m.rb.conf.element_size ≤ m.rb.conf.buffer_size ∧
    (m.rb.tail + i * m.rb.conf.element_size + k) % m.rb.conf.buffer_size ≠
      (m.rb.tail + j * m.rb.conf.element_size + l) % m.rb.conf.buffer_size := by
  have hI := hr.inv.1
  refine ⟨Nat.mul_le_mul_right _ hI.count_le, hI.max_mul_le, ?_⟩
  have h1 := mul_add_lt (Nat.lt_of_lt_of_le hi hI.count_le) hk
  have h2 := mul_add_lt (Nat.lt_of_lt_of_le hj hI.count_le) hl
  have h3 := hI.max_mul_le
  rw [Nat.add_assoc, Nat.add_assoc]
  exact mod_add_ne_of_ne (mul_add_ne hij hk hl) (by omega) (by omega)

/-- Witness of C34 on the wrapped full buffer: the second byte of element 0
(offset 0) is not the first byte of element 1 (offset 1). -/
theorem C34_no_overlap_witness :
    Reachable demo_conf demo_full ∧
      (demo_full.rb.tail + 0 * demo_full.rb.conf.element_size + 1)
          % demo_full.rb.conf.buffer_size ≠
        (demo_full.rb.tail + 1 * demo_full.rb.conf.element_size + 0)
          % demo_full.rb.conf.buffer_size :=
  ⟨⟨by decide, _, _, _, rfl⟩,
    (C34_no_overlap demo_conf demo_full 0 1 1 0 ⟨by decide, _, _, _, rfl⟩ (by decide)
      (by decide) (by decide) (by decide) (by decide)).2.2⟩

theorem MEMCPY_eq_foldl (dst : Memory) (dstp : Nat) (src : Memory) (srcp len : Nat) :
    MEMCPY dst dstp src srcp len =
      (List.range len).foldl
        (fun (m : Memory) (i : Nat) => Function.update m (dstp + i) (src (srcp + i))) dst := by
  induction len with
  | zero => rfl
  | succ n ih =>
    rw [List.range_succ, List.foldl_append, ← ih]
    rfl

theorem wrapWrite_eq_apply_writes (mem d : Memory) (buf rs es pos : Nat) :
    wrapWrite mem d buf rs es pos = apply_writes mem d buf (copy_accesses rs es pos) := by
  unfold wrapWrite apply_writes copy_accesses
  split
  · rw [MEMCPY_eq_foldl, List.foldl_map]
    simp only [Nat.zero_add, Nat.add_assoc]
  · rw [MEMCPY_eq_foldl, MEMCPY_eq_foldl, List.foldl_append, List.foldl_map, List.foldl_map]
    simp only [Nat.zero_add, Nat.add_assoc]

theorem wrapRead_eq_apply_reads (dst mem : Memory) (buf rs es pos : Nat) :
    wrapRead dst mem buf rs es pos = apply_reads dst mem buf (copy_accesses rs es pos) := by
  unfold wrapRead apply_reads copy_accesses
  split
  · rw [MEMCPY_eq_foldl, List.foldl_map]
    simp only [Nat.zero_add, Nat.add_assoc]
  · rw [MEMCPY_eq_foldl, MEMCPY_eq_foldl, List.foldl_append, List.foldl_map, List.foldl_map]
    simp only [Nat.zero_add, Nat.add_assoc]

theorem copy_accesses_bounds {rs es pos : Nat} (hes : es ≤ rs) (hpos : pos ≤ rs) :
    ∀ a, a ∈ copy_accesses rs es pos → a.1 < rs ∧ a.2 < es := by
  intro a ha
  unfold copy_accesses at ha
  split at ha
  · obtain ⟨i, hi, rfl⟩ := List.mem_map.mp ha
    have := List.mem_range.mp hi
    exact ⟨by show pos + i < rs; omega, this⟩
  · rcases List.mem_append.mp ha with h | h
    · obtain ⟨i, hi, rfl⟩ := List.mem_map.mp h
      have := List.mem_range.mp hi
      exact ⟨by show pos + i < rs; omega, by show i < es; omega⟩
    · obtain ⟨i, hi, rfl⟩ := List.mem_map.mp h
      have := List.mem_range.mp hi
      exact ⟨by show i < rs; omega, by show rs - pos + i < es; omega⟩

theorem MEMCPY_checked_eq_some (dst : Memory) (dlo dhi dstp : Nat) (src : Memory)
    (slo shi srcp len : Nat)
    (h : ∀ i, i < len → dlo ≤ dstp + i ∧ dstp + i < dhi ∧ slo ≤ srcp + i ∧ srcp + i < shi) :
    MEMCPY_checked dst dlo dhi dstp src slo shi srcp len =
      some (MEMCPY dst dstp src srcp len) := by
  induction len with
  | zero => rfl
  | succ n ih =>
    simp only [MEMCPY_checked, ih (fun i hi => h i (by omega)), if_pos (h n (by omega)), MEMCPY]

/-- A checked copy that succeeds has touched only indices inside both objects. -/
theorem MEMCPY_checked_some_bounds (dst : Memory) (dlo dhi dstp : Nat) (src : Memory)
    (slo shi srcp : Nat) : ∀ (len : Nat) (r : Memory),
    MEMCPY_checked dst dlo dhi dstp src slo shi srcp len = some r →
    ∀ i, i < len → dlo ≤ dstp + i ∧ dstp + i < dhi ∧ slo ≤ srcp + i ∧ srcp + i < shi := by
  intro len
  induction len with
  | zero => intro r _ i hi; omega
  | succ n ih =>
    intro r hr i hi
    simp only [MEMCPY_checked] at hr
    cases hm : MEMCPY_checked dst dlo dhi dstp src slo shi srcp n with
    | none => rw [hm] at hr; cases hr
    | some m0 =>
      rw [hm] at hr
      simp only at hr
      by_cases hc : dlo ≤ dstp + n ∧ dstp + n < dhi ∧ slo ≤ srcp + n ∧ srcp + n < shi
      · by_cases hin : i < n
        · exact ih m0 hm i hin
        · have e : i = n := by omega
          rw [e]; exact hc
      · rw [if_neg hc] at hr; cases hr

theorem checked_write_eq (mem d : Memory) {buf rs es pos : Nat} (hes : es ≤ rs)
    (hpos : pos ≤ rs) :
    (if rs - pos ≥ es then MEMCPY_checked mem buf (buf + rs) (buf + pos) d 0 es 0 es
      else (MEMCPY_checked mem buf (buf + rs) (buf + pos) d 0 es 0 (rs - pos)).bind
        (fun m1 => MEMCPY_checked m1 buf (buf + rs) buf d 0 es (rs - pos) (es - (rs - pos)))) =
      some (wrapWrite mem d buf rs es pos) := by
  unfold wrapWrite
  split
  · exact MEMCPY_checked_eq_some _ _ _ _ _ _ _ _ _ (fun i hi => by omega)
  · rw [MEMCPY_checked_eq_some _ _ _ _ _ _ _ _ _ (fun i hi => by omega), Option.some_bind]
    exact MEMCPY_checked_eq_some _ _ _ _ _ _ _ _ _ (fun i hi => by omega)

theorem checked_read_eq (dst mem : Memory) {buf rs es pos : Nat} (hes : es ≤ rs)
    (hpos : pos ≤ rs) :
    (if rs - pos ≥ es then MEMCPY_checked dst 0 es 0 mem buf (buf + rs) (buf + pos) es
      else (MEMCPY_checked dst 0 es 0 mem buf (buf + rs) (buf + pos) (rs - pos)).bind
        (fun o => MEMCPY_checked o 0 es (rs - pos) mem buf (buf + rs) buf (es - (rs - pos)))) =
      some (wrapRead dst mem buf rs es pos) := by
  unfold wrapRead
  split
  · exact MEMCPY_checked_eq_some _ _ _ _ _ _ _ _ _ (fun i hi => by omega)
  · rw [MEMCPY_checked_eq_some _ _ _ _ _ _ _ _ _ (fun i hi => by omega), Option.some_bind]
    exact MEMCPY_checked_eq_some _ _ _ _ _ _ _ _ _ (fun i hi => by omega)

theorem Insert_checked_eq {rb : ring_buffer_t} (h : Inv rb) (mem : Memory)
    (data : Option Memory) :
    RING_BUFFER_Insert_checked (some rb) mem data = some (RING_BUFFER_Insert (some rb) mem data) := by
  cases data with
  | none => rfl
  | some d =>
    by_cases h1 : rb.conf.buffer = 0
    · simp only [RING_BUFFER_Insert_checked, RING_BUFFER_Insert, if_pos h1]
    · by_cases h2 : rb.conf.overwrite = false ∧ rb.count ≥ rb.max_elements
      · simp only [RING_BUFFER_Insert_checked, RING_BUFFER_Insert, if_neg h1, if_pos h2]
      · rw [Insert_eq h mem d h2]
        simp only [RING_BUFFER_Insert_checked, if_neg h1, if_neg h2,
          checked_write_eq mem d h.es_le (Nat.le_of_lt h.head_lt), Option.map_some']
        have e := Insert_eq h mem d h2
        simp only [RING_BUFFER_Insert, if_neg h1, if_neg h2] at e
        have e2 := congrArg StateResult.rb e
        simp only at e2
        rw [e2]

theorem Retrieve_checked_eq {rb : ring_buffer_t} (h : Inv rb) (mem : Memory)
    (data : Option Memory) :
    RING_BUFFER_Retrieve_checked (some rb) mem data =
      some (RING_BUFFER_Retrieve (some rb) mem data) := by
  cases data with
  | none => rfl
  | some d =>
    by_cases h1 : rb.conf.buffer = 0
    · simp only [RING_BUFFER_Retrieve_checked, RING_BUFFER_Retrieve, if_pos h1]
    · by_cases h2 : rb.count = 0
      · simp only [RING_BUFFER_Retrieve_checked, RING_BUFFER_Retrieve, if_neg h1, if_pos h2]
      · rw [Retrieve_eq rb mem d h1 h2]
        simp only [RING_BUFFER_Retrieve_checked, if_neg h1, if_neg h2,
          checked_read_eq d mem h.es_le h.tail_le, Option.map_some', retrieveNext]
        by_cases hc : rb.conf.buffer_size - rb.tail ≥ rb.conf.element_size
        · simp only [if_pos hc]
        · simp only [if_neg hc]

theorem Peek_checked_eq {rb : ring_buffer_t} (h : Inv rb) (mem : Memory) (index : Nat)
    (data : Option Memory) :
    RING_BUFFER_Peek_checked (some rb) mem index data =
      some (RING_BUFFER_Peek (some rb) mem index data) := by
  cases data with
  | none => rfl
  | some d =>
    by_cases h1 : rb.conf.buffer = 0
    · simp only [RING_BUFFER_Peek_checked, RING_BUFFER_Peek, if_pos h1]
    · by_cases h2 : rb.count = 0
      · simp only [RING_BUFFER_Peek_checked, RING_BUFFER_Peek, if_neg h1, if_pos h2]
      · by_cases h3 : index ≥ rb.count
        · simp only [RING_BUFFER_Peek_checked, RING_BUFFER_Peek, if_neg h1, if_neg h2,
            if_pos h3]
        · rw [Peek_eq rb mem d index h1 (by omega)]
          simp only [RING_BUFFER_Peek_checked, if_neg h1, if_neg h2, if_neg h3,
            checked_read_eq d mem h.es_le (Nat.le_of_lt (Nat.mod_lt _ h.bs_pos)),
            Option.map_some']

theorem Replace_checked_eq {rb : ring_buffer_t} (h : Inv rb) (mem : Memory) (index : Nat)
    (data : Option Memory) :
    RING_BUFFER_Replace_checked (some rb) mem index data =
      some (RING_BUFFER_Replace (some rb) mem index data) := by
  cases data with
  | none => rfl
  | some d =>
    by_cases h1 : rb.conf.buffer = 0
    · simp only [RING_BUFFER_Replace_checked, RING_BUFFER_Replace, if_pos h1]
    · by_cases h2 : rb.count = 0
      · simp only [RING_BUFFER_Replace_checked, RING_BUFFER_Replace, if_neg h1, if_pos h2]
      · by_cases h3 : index ≥ rb.count
        · simp only [RING_BUFFER_Replace_checked, RING_BUFFER_Replace, if_neg h1, if_neg h2,
            if_pos h3]
        · rw [Replace_eq rb mem d index h1 (by omega)]
          simp only [RING_BUFFER_Replace_checked, if_neg h1, if_neg h2, if_neg h3,
            checked_write_eq mem d h.es_le (Nat.le_of_lt (Nat.mod_lt _ h.bs_pos)),
            Option.map_some']

/-- The checked copies do reject an access past the region: on a record with a
3-byte element in a 1-byte region (which Init never produces) the checked Peek
and Insert have no result, while the unchecked ones return OK. -/
theorem checked_rejects_out_of_bounds :
    RING_BUFFER_Peek_checked (some demo_oversized) (fun _ => 0) 0 (some (bytes2 0 0)) = none ∧
    (RING_BUFFER_Peek (some demo_oversized) (fun _ => 0) 0 (some (bytes2 0 0))).status =
      RING_BUFFER_STATUS_OK ∧
    (RING_BUFFER_Insert_checked
      (some { demo_oversized with count := 0 }) (fun _ => 0) (some (bytes2 0 0))).isNone =
      true := by
  refine ⟨?_, by decide, ?_⟩
  · cases h : RING_BUFFER_Peek_checked (some demo_oversized) (fun _ => 0) 0
        (some (bytes2 0 0)) with
    | none => rfl
    | some r =>
      exfalso
      have : (RING_BUFFER_Peek_checked (some demo_oversized) (fun _ => 0) 0
          (some (bytes2 0 0))).isSome = false := by decide
      rw [h] at this
      cases this
  · decide

/-- A checked copy that succeeds produces the memory of the unchecked copy. -/
theorem MEMCPY_checked_some_eq (dst : Memory) (dlo dhi dstp : Nat) (src : Memory)
    (slo shi srcp len : Nat) (r : Memory)
    (h : MEMCPY_checked dst dlo dhi dstp src slo shi srcp len = some r) :
    r = MEMCPY dst dstp src srcp len := by
  have e := MEMCPY_checked_eq_some dst dlo dhi dstp src slo shi srcp len
    (MEMCPY_checked_some_bounds dst dlo dhi dstp src slo shi srcp len r h)
  rw [h] at e
  exact Option.some.inj e

/-- C33: in-bounds access and no underflow. The operations are run with
bounds-checked copies (`RING_BUFFER_Insert_checked` and the like), in which
every iteration of `MEMCPY` checks that the region address it touches lies in
`[buffer, buffer + buffer_size)` and that the index into the caller's element
lies in `[0, element_size)`, and which have no result as soon as one access is
outside. In every reachable state each checked operation has a result, and it
is the result of the source operation: no access of Insert, Retrieve, Peek or
Replace is out of bounds (also when `tail = buffer_size`, where the first
copy has length 0). Moreover the copies of a successful Insert, Retrieve, Peek
and Replace are exactly the accesses listed by `copy_accesses` at `head`,
`tail` and `element_pos` respectively, and every such access has a region
offset below `buffer_size` and an element-buffer index below `element_size`.
The subtractions do not underflow: `head ≤ buffer_size`,
`tail ≤ buffer_size`, `element_pos ≤ buffer_size`, `end_space ≤ element_size`
wherever `element_size - end_space` is computed, `count ≤ max_elements`, and
`1 ≤ count` whenever Retrieve reaches `count--`. -/
theorem C33_in_bounds (conf : ring_buffer_conf_t) (m : Machine) (index : Nat)
    (d dst : Memory) (hr : Reachable conf m) :
    (RING_BUFFER_Insert_checked (some m.rb) m.mem (some d) =
        some (RING_BUFFER_Insert (some m.rb) m.mem (some d)) ∧
      RING_BUFFER_Retrieve_checked (some m.rb) m.mem (some dst) =
        some (RING_BUFFER_Retrieve (some m.rb) m.mem (some dst)) ∧
      RING_BUFFER_Peek_checked (some m.rb) m.mem index (some dst) =
        some (RING_BUFFER_Peek (some m.rb) m.mem index (some dst)) ∧
      RING_BUFFER_Replace_checked (some m.rb) m.mem index (some d) =
        some (RING_BUFFER_Replace (some m.rb) m.mem index (some d))) ∧
    ((RING_BUFFER_Insert (some m.rb) m.mem (some d)).status = RING_BUFFER_STATUS_OK →
      (RING_BUFFER_Insert (some m.rb) m.mem (some d)).mem =
        apply_writes m.mem d m.rb.conf.buffer
          (copy_accesses m.rb.conf.buffer_size m.rb.conf.element_size m.rb.head) ∧
      ∀ a, a ∈ copy_accesses m.rb.conf.buffer_size m.rb.conf.element_size m.rb.head →
        a.1 < m.rb.conf.buffer_size ∧ a.2 < m.rb.conf.element_size) ∧
    ((RING_BUFFER_Retrieve (some m.rb) m.mem (some dst)).status = RING_BUFFER_STATUS_OK →
      (RING_BUFFER_Retrieve (some m.rb) m.mem (some dst)).data =
        some (apply_reads dst m.mem m.rb.conf.buffer
          (copy_accesses m.rb.conf.buffer_size m.rb.conf.element_size m.rb.tail)) ∧
      (∀ a, a ∈ copy_accesses m.rb.conf.buffer_size m.rb.conf.element_size m.rb.tail →
        a.1 < m.rb.conf.buffer_size ∧ a.2 < m.rb.conf.element_size) ∧
      1 ≤ m.rb.count) ∧
    (index < m.rb.count →
      (RING_BUFFER_Peek (some m.rb) m.mem index (some dst)).data =
        some (apply_reads dst m.mem m.rb.conf.buffer
          (copy_accesses m.rb.conf.buffer_size m.rb.conf.element_size
            ((m.rb.tail + index * m.rb.conf.element_size) % m.rb.conf.buffer_size))) ∧
      (RING_BUFFER_Replace (some m.rb) m.mem index (some d)).mem =
        apply_writes m.mem d m.rb.conf.buffer
          (copy_accesses m.rb.conf.buffer_size m.rb.conf.element_size
            ((m.rb.tail + index * m.rb.conf.element_size) % m.rb.conf.buffer_size)) ∧
      ∀ a, a ∈ copy_accesses m.rb.conf.buffer_size m.rb.conf.element_size
          ((m.rb.tail + index * m.rb.conf.element_size) % m.rb.conf.buffer_size) →
        a.1 < m.rb.conf.buffer_size ∧ a.2 < m.rb.conf.element_size) ∧
    m.rb.head ≤ m.rb.conf.buffer_size ∧ m.rb.tail ≤ m.rb.conf.buffer_size ∧
    (m.rb.tail + index * m.rb.conf.element_size) % m.rb.conf.buffer_size ≤
      m.rb.conf.buffer_size ∧
    (∀ pos, ¬ m.rb.conf.buffer_size - pos ≥ m.rb.conf.element_size →
      m.rb.conf.buffer_size - pos ≤ m.rb.conf.element_size) ∧
    m.rb.count ≤ m.rb.max_elements := by
  have hI := hr.inv.1
  have hpos := Nat.le_of_lt (Nat.mod_lt (m.rb.tail + index * m.rb.conf.element_size) hI.bs_pos)
  refine ⟨⟨Insert_checked_eq hI _ _, Retrieve_checked_eq hI _ _, Peek_checked_eq hI _ _ _,
    Replace_checked_eq hI _ _ _⟩, ?_, ?_, ?_, Nat.le_of_lt hI.head_lt, hI.tail_le, hpos, ?_,
    hI.count_le⟩
  · intro hok
    have hg := Insert_ok_guard hI.buffer_ne hok
    rw [Insert_eq hI m.mem d hg]
    exact ⟨wrapWrite_eq_apply_writes _ _ _ _ _ _,
      copy_accesses_bounds hI.es_le (Nat.le_of_lt hI.head_lt)⟩
  · intro hok
    have hc := Retrieve_ok_count hI.buffer_ne hok
    rw [Retrieve_eq m.rb m.mem dst hI.buffer_ne hc]
    exact ⟨congrArg some (wrapRead_eq_apply_reads _ _ _ _ _ _),
      copy_accesses_bounds hI.es_le hI.tail_le, by omega⟩
  · intro hi
    rw [Peek_eq m.rb m.mem dst index hI.buffer_ne hi,
      Replace_eq m.rb m.mem d index hI.buffer_ne hi]
    exact ⟨congrArg some (wrapRead_eq_apply_reads _ _ _ _ _ _),
      wrapWrite_eq_apply_writes _ _ _ _ _ _, copy_accesses_bounds hI.es_le hpos⟩
  · intro pos h
    omega

/-- Witness of C33 on the 1-byte region with `tail = buffer_size`: the
bounds-checked Retrieve there has the result of the source Retrieve, which is
OK, and it reads exactly region offset 0 into index 0. -/
theorem C33_in_bounds_witness :
    Reachable { buffer := 100, buffer_size := 1, element_size := 1, overwrite := false }
        demo_tail_end ∧
      demo_tail_end.rb.tail = demo_tail_end.rb.conf.buffer_size ∧
      RING_BUFFER_Retrieve_checked (some demo_tail_end.rb) demo_tail_end.mem
          (some (bytes2 0 0)) =
        some (RING_BUFFER_Retrieve (some demo_tail_end.rb) demo_tail_end.mem
          (some (bytes2 0 0))) ∧
      (RING_BUFFER_Retrieve (some demo_tail_end.rb) demo_tail_end.mem
        (some (bytes2 0 0))).status = RING_BUFFER_STATUS_OK ∧
      copy_accesses demo_tail_end.rb.conf.buffer_size demo_tail_end.rb.conf.element_size
        demo_tail_end.rb.tail = [(0, 0)] ∧
      ∀ a, a ∈ copy_accesses demo_tail_end.rb.conf.buffer_size
          demo_tail_end.rb.conf.element_size demo_tail_end.rb.tail →
        a.1 < demo_tail_end.rb.conf.buffer_size ∧ a.2 < demo_tail_end.rb.conf.element_size :=
  ⟨⟨by decide, _, _, _, rfl⟩, by decide,
    (C33_in_bounds { buffer := 100, buffer_size := 1, element_size := 1, overwrite := false }
      demo_tail_end 0 (bytes2 9 9) (bytes2 0 0) ⟨by decide, _, _, _, rfl⟩).1.2.1,
    by decide, by decide,
    ((C33_in_bounds { buffer := 100, buffer_size := 1, element_size := 1, overwrite := false }
      demo_tail_end 0 (bytes2 9 9) (bytes2 0 0) ⟨by decide, _, _, _, rfl⟩).2.2.1
      (by decide)).2.1⟩

/-- C35: offset arithmetic does not wrap. In every reachable state and for
every `index < count`, `index * element_size ≤ (max_elements - 1) * element_size
< buffer_size` and `tail + index * element_size < 2 * buffer_size`; hence on a
machine with `w`-bit `size_t` and `buffer_size ≤ 2^(w-1)`, the machine
computation of `element_pos` in Peek and Replace and of
`(tail + element_size) % buffer_size` in Insert give the mathematical values. -/
theorem C35_offset_arithmetic (conf : ring_buffer_conf_t) (m : Machine) (index w : Nat)
    (hr : Reachable conf m) (hi : index < m.rb.count)
    (hrs : m.rb.conf.buffer_size ≤ 2 ^ (w - 1)) :
    index * m.rb.conf.element_size ≤ (m.rb.max_elements - 1) * m.rb.conf.element_size ∧
    (m.rb.max_elements - 1) * m.rb.conf.element_size < m.rb.conf.buffer_size ∧
    m.rb.tail + index * m.rb.conf.element_size < 2 * m.rb.conf.buffer_size ∧
    element_pos_w w m.rb index =
      (m.rb.tail + index * m.rb.conf.element_size) % m.rb.conf.buffer_size ∧
    evicted_tail_w w m.rb =
      (m.rb.tail + m.rb.conf.element_size) % m.rb.conf.buffer_size := by
  have hI := hr.inv.1
  have h1 := hI.es_pos
  have h2 := hI.es_le
  have h3 := hI.tail_le
  have h4 := hI.count_le
  have h5 := hI.max_mul_le
  have hle : index * m.rb.conf.element_size ≤ (m.rb.max_elements - 1) * m.rb.conf.element_size :=
    Nat.mul_le_mul_right _ (by omega)
  have hsplit : (m.rb.max_elements - 1) * m.rb.conf.element_size + m.rb.conf.element_size =
      m.rb.max_elements * m.rb.conf.element_size := by
    have e : m.rb.max_elements = (m.rb.max_elements - 1) + 1 := by omega
    conv_rhs => rw [e, Nat.add_mul, Nat.one_mul]
  refine ⟨hle, by omega, by omega, ?_⟩
  by_cases hw : w = 0
  · have hb1 : m.rb.conf.buffer_size = 1 := by
      rw [hw] at hrs
      have : 2 ^ (0 - 1) = 1 := rfl
      omega
    unfold element_pos_w evicted_tail_w
    rw [hb1, Nat.mod_one, Nat.mod_one, Nat.mod_one, Nat.mod_one]
    exact ⟨rfl, rfl⟩
  have hpow : 2 ^ w = 2 * 2 ^ (w - 1) := by
    obtain ⟨v, rfl⟩ : ∃ v, w = v + 1 := ⟨w - 1, by omega⟩
    rw [Nat.add_sub_cancel, Nat.pow_succ, Nat.mul_comm]
  refine ⟨?_, ?_⟩
  · unfold element_pos_w size_add size_mul
    rw [Nat.mod_eq_of_lt (by omega : index * m.rb.conf.element_size < 2 ^ w),
      Nat.mod_eq_of_lt (by omega : m.rb.tail + index * m.rb.conf.element_size < 2 ^ w)]
  · unfold evicted_tail_w size_add
    by_cases hlt : m.rb.tail + m.rb.conf.element_size < 2 ^ w
    · rw [Nat.mod_eq_of_lt hlt]
    · have e1 : m.rb.tail + m.rb.conf.element_size = 2 ^ w := by omega
      have e2 : 2 ^ w = m.rb.conf.buffer_size + m.rb.conf.buffer_size := by omega
      rw [e1, Nat.mod_self, e2, Nat.add_mod_right, Nat.mod_self, Nat.zero_mod]

/-- Witness of C35 on the wrapped full buffer with a 16-bit `size_t`. -/
theorem C35_offset_arithmetic_witness :
    Reachable demo_conf demo_full ∧ 1 < demo_full.rb.count ∧
      demo_full.rb.conf.buffer_size ≤ 2 ^ (16 - 1) ∧
      element_pos_w 16 demo_full.rb 1 =
        (demo_full.rb.tail + 1 * demo_full.rb.conf.element_size)
          % demo_full.rb.conf.buffer_size :=
  ⟨⟨by decide, _, _, _, rfl⟩, by decide, by decide,
    (C35_offset_arithmetic demo_conf demo_full 1 16 ⟨by decide, _, _, _, rfl⟩ (by decide)
      (by decide)).2.2.2.1⟩

theorem Insert_conf_max (rb : ring_buffer_t) (mem : Memory) (data : Option Memory) :
    conf_max (RING_BUFFER_Insert (some rb) mem data).rb = some (rb.conf, rb.max_elements) := by
  cases data with
  | none => rfl
  | some d =>
    by_cases h1 : rb.conf.buffer = 0
    · simp only [RING_BUFFER_Insert, if_pos h1]; rfl
    · by_cases h2 : rb.conf.overwrite = false ∧ rb.count ≥ rb.max_elements
      · simp only [RING_BUFFER_Insert, if_neg h1, if_pos h2]; rfl
      · simp only [RING_BUFFER_Insert, if_neg h1, if_neg h2, conf_max, Option.map_some',
          apply_ite ring_buffer_t.conf, apply_ite ring_buffer_t.max_elements, ite_self]

theorem Retrieve_conf_max (rb : ring_buffer_t) (mem : Memory) (data : Option Memory) :
    conf_max (RING_BUFFER_Retrieve (some rb) mem data).rb = some (rb.conf, rb.max_elements) := by
  cases data with
  | none => rfl
  | some d =>
    simp only [RING_BUFFER_Retrieve]
    split_ifs <;> rfl

theorem Replace_frame (rb : ring_buffer_t) (mem : Memory) (index : Nat)
    (data : Option Memory) : (RING_BUFFER_Replace (some rb) mem index data).rb = some rb := by
  cases data with
  | none => rfl
  | some d =>
    simp only [RING_BUFFER_Replace]
    split_ifs <;> rfl

theorem GetFreeElements_frame (rb : Option ring_buffer_t) (mem : Memory) (result : Option Nat) :
    (RING_BUFFER_GetFreeElements rb mem result).rb = rb ∧
      (RING_BUFFER_GetFreeElements rb mem result).mem = mem := by
  cases rb with
  | none => exact ⟨rfl, rfl⟩
  | some rb0 =>
    cases result with
    | none => exact ⟨rfl, rfl⟩
    | some r =>
      simp only [RING_BUFFER_GetFreeElements]
      split_ifs <;> exact ⟨rfl, rfl⟩

theorem GetElementSize_frame (rb : Option ring_buffer_t) (mem : Memory) (result : Option Nat) :
    (RING_BUFFER_GetElementSize rb mem result).rb = rb ∧
      (RING_BUFFER_GetElementSize rb mem result).mem = mem := by
  cases rb with
  | none => exact ⟨rfl, rfl⟩
  | some rb0 =>
    cases result with
    | none => exact ⟨rfl, rfl⟩
    | some r =>
      simp only [RING_BUFFER_GetElementSize]
      split_ifs <;> exact ⟨rfl, rfl⟩

theorem Retrieve_mem (rb : Option ring_buffer_t) (mem : Memory) (data : Option Memory) :
    (RING_BUFFER_Retrieve rb mem data).mem = mem := by
  cases rb with
  | none => rfl
  | some rb0 =>
    cases data with
    | none => rfl
    | some d =>
      simp only [RING_BUFFER_Retrieve]
      split_ifs <;> rfl

theorem Init_mem (rb : Option ring_buffer_t) (mem : Memory) (conf : ring_buffer_conf_t) :
    (RING_BUFFER_Init rb mem conf).mem = mem := by
  cases rb with
  | none => rfl
  | some rb0 =>
    simp only [RING_BUFFER_Init]
    split_ifs <;> rfl

theorem DeInit_mem (rb : Option ring_buffer_t) (mem : Memory) :
    (RING_BUFFER_DeInit rb mem).mem = mem := by
  cases rb with
  | none => rfl
  | some rb0 =>
    simp only [RING_BUFFER_DeInit]
    split_ifs <;> rfl

/-- C36: configuration is immutable after Init. After a successful Init with
`conf` the record holds `conf`, `max_elements ≥ 1` and
`max_elements * element_size ≤ buffer_size`; and on every record, with any
arguments and whatever status they return, Insert, Retrieve, Peek, Replace,
IsEmpty, IsFull, GetFreeElements and GetElementSize leave `conf` (`buffer`,
`buffer_size`, `element_size`, `overwrite`) and `max_elements` as they were. -/
theorem C36_conf_immutable :
    (∀ (conf : ring_buffer_conf_t) (rb0 : ring_buffer_t) (mem0 : Memory), ValidConf conf →
      ∃ rb1, (RING_BUFFER_Init (some rb0) mem0 conf).rb = some rb1 ∧ rb1.conf = conf ∧
        1 ≤ rb1.max_elements ∧
        rb1.max_elements * rb1.conf.element_size ≤ rb1.conf.buffer_size) ∧
    (∀ (rb : ring_buffer_t) (mem : Memory) (index : Nat) (data : Option Memory)
      (result : Option Nat),
      conf_max (RING_BUFFER_Insert (some rb) mem data).rb = some (rb.conf, rb.max_elements) ∧
      conf_max (RING_BUFFER_Retrieve (some rb) mem data).rb =
        some (rb.conf, rb.max_elements) ∧
      conf_max (RING_BUFFER_Peek (some rb) mem index data).rb =
        some (rb.conf, rb.max_elements) ∧
      conf_max (RING_BUFFER_Replace (some rb) mem index data).rb =
        some (rb.conf, rb.max_elements) ∧
      conf_max (RING_BUFFER_IsEmpty (some rb) mem).rb = some (rb.conf, rb.max_elements) ∧
      conf_max (RING_BUFFER_IsFull (some rb) mem).rb = some (rb.conf, rb.max_elements) ∧
      conf_max (RING_BUFFER_GetFreeElements (some rb) mem result).rb =
        some (rb.conf, rb.max_elements) ∧
      conf_max (RING_BUFFER_GetElementSize (some rb) mem result).rb =
        some (rb.conf, rb.max_elements)) := by
  constructor
  · intro conf rb0 mem0 hv
    rw [Init_eq rb0 mem0 hv]
    exact ⟨_, rfl, rfl, Nat.div_pos hv.2.2.2 (Nat.pos_of_ne_zero hv.2.2.1),
      Nat.div_mul_le_self _ _⟩
  · intro rb mem index data result
    refine ⟨Insert_conf_max rb mem data, Retrieve_conf_max rb mem data, ?_, ?_, ?_, ?_, ?_, ?_⟩
    · rw [(Peek_frame rb mem index data).1]; rfl
    · rw [Replace_frame rb mem index data]; rfl
    · rw [(IsEmpty_frame (some rb) mem).1]; rfl
    · rw [(IsFull_frame (some rb) mem).1]; rfl
    · rw [(GetFreeElements_frame (some rb) mem result).1]; rfl
    · rw [(GetElementSize_frame (some rb) mem result).1]; rfl

/-- Witness of C36: Init with the 5-byte configuration gives capacity 2, and 2
elements of 2 bytes fit. -/
theorem C36_conf_immutable_witness :
    ValidConf demo_conf ∧
      ∃ rb1, (RING_BUFFER_Init (some demo_garbage) (fun _ => 0) demo_conf).rb = some rb1 ∧
        rb1.conf = demo_conf ∧ 1 ≤ rb1.max_elements ∧
        rb1.max_elements * rb1.conf.element_size ≤ rb1.conf.buffer_size :=
  ⟨by decide, C36_conf_immutable.1 demo_conf demo_garbage (fun _ => 0) (by decide)⟩

/-- C37: Retrieve and the queries do not touch storage. Retrieve never changes
a byte of memory, and a successful Retrieve on any record changes only `tail`
and `count` of the record (`head`, `conf` and `max_elements` are unchanged);
Init, DeInit, IsEmpty, IsFull, GetFreeElements and GetElementSize never change
a byte of memory, with any arguments and whatever status they return. -/
theorem C37_storage_untouched (rb : Option ring_buffer_t) (rb0 : ring_buffer_t)
    (mem : Memory) (conf : ring_buffer_conf_t) (data : Option Memory) (dst : Memory)
    (result : Option Nat) :
    (RING_BUFFER_Retrieve rb mem data).mem = mem ∧
    ((RING_BUFFER_Retrieve (some rb0) mem (some dst)).status = RING_BUFFER_STATUS_OK →
      ∃ rb1, (RING_BUFFER_Retrieve (some rb0) mem (some dst)).rb = some rb1 ∧
        rb1 = { rb0 with tail := rb1.tail, count := rb1.count } ∧
        rb1.head = rb0.head ∧ rb1.conf = rb0.conf ∧ rb1.max_elements = rb0.max_elements) ∧
    (RING_BUFFER_Init rb mem conf).mem = mem ∧
    (RING_BUFFER_DeInit rb mem).mem = mem ∧
    (RING_BUFFER_IsEmpty rb mem).mem = mem ∧
    (RING_BUFFER_IsFull rb mem).mem = mem ∧
    (RING_BUFFER_GetFreeElements rb mem result).mem = mem ∧
    (RING_BUFFER_GetElementSize rb mem result).mem = mem := by
  refine ⟨Retrieve_mem rb mem data, ?_, Init_mem rb mem conf, DeInit_mem rb mem,
    (IsEmpty_frame rb mem).2, (IsFull_frame rb mem).2,
    (GetFreeElements_frame rb mem result).2, (GetElementSize_frame rb mem result).2⟩
  intro hok
  have hb : rb0.conf.buffer ≠ 0 := by
    intro hb
    simp only [RING_BUFFER_Retrieve, if_pos hb] at hok
    cases hok
  have hc := Retrieve_ok_count hb hok
  rw [Retrieve_eq rb0 mem dst hb hc]
  exact ⟨retrieveNext rb0, rfl, rfl, rfl, rfl, rfl⟩

/-- Witness of C37 on the wrapped full buffer. -/
theorem C37_storage_untouched_witness :
    (RING_BUFFER_Retrieve (some demo_full.rb) demo_full.mem (some (bytes2 0 0))).status =
        RING_BUFFER_STATUS_OK ∧
      ∃ rb1, (RING_BUFFER_Retrieve (some demo_full.rb) demo_full.mem (some (bytes2 0 0))).rb =
          some rb1 ∧ rb1.head = demo_full.rb.head :=
  ⟨by decide,
    ((C37_storage_untouched none demo_full.rb demo_full.mem demo_conf none (bytes2 0 0)
      none).2.1 (by decide)).imp (fun _ p => ⟨p.1, p.2.2.1⟩)⟩

/-- C38: re-initialisation resets. For every prior record (also an initialised
buffer holding elements) and every valid configuration, Init returns OK and
yields exactly the record and memory that Init on a never-initialised record
yields: `conf` stored, `count = head = tail = 0`, `max_elements` recomputed.
Right after it, Peek at any index and Retrieve return BUFFER_EMPTY and change
nothing: every element stored before is unreachable. -/
theorem C38_reinit_resets (rb0 : ring_buffer_t) (mem : Memory) (conf : ring_buffer_conf_t)
    (index : Nat) (dst : Memory) (hv : ValidConf conf) :
    RING_BUFFER_Init (some rb0) mem conf = RING_BUFFER_Init (some ring_buffer_zero) mem conf ∧
    RING_BUFFER_Init (some rb0) mem conf =
      ⟨RING_BUFFER_STATUS_OK,
        some { conf := conf, head := 0, tail := 0, count := 0,
               max_elements := conf.buffer_size / conf.element_size }, mem⟩ ∧
    RING_BUFFER_Peek (RING_BUFFER_Init (some rb0) mem conf).rb
        (RING_BUFFER_Init (some rb0) mem conf).mem index (some dst) =
      ⟨RING_BUFFER_STATUS_ERROR_BUFFER_EMPTY, (RING_BUFFER_Init (some rb0) mem conf).rb, mem,
        some dst⟩ ∧
    RING_BUFFER_Retrieve (RING_BUFFER_Init (some rb0) mem conf).rb
        (RING_BUFFER_Init (some rb0) mem conf).mem (some dst) =
      ⟨RING_BUFFER_STATUS_ERROR_BUFFER_EMPTY, (RING_BUFFER_Init (some rb0) mem conf).rb, mem,
        some dst⟩ := by
  have hb : conf.buffer ≠ 0 := hv.1
  rw [Init_eq rb0 mem hv, Init_eq ring_buffer_zero mem hv]
  refine ⟨rfl, rfl, ?_, ?_⟩
  · simp only [RING_BUFFER_Peek, if_neg hb, if_true]
  · simp only [RING_BUFFER_Retrieve, if_neg hb, if_true]

/-- Witness of C38: Init with a 1-byte configuration over the wrapped full
5-byte buffer. -/
theorem C38_reinit_resets_witness :
    ValidConf { buffer := 200, buffer_size := 1, element_size := 1, overwrite := false } ∧
      RING_BUFFER_Init (some demo_full.rb) demo_full.mem
          { buffer := 200, buffer_size := 1, element_size := 1, overwrite := false } =
        RING_BUFFER_Init (some ring_buffer_zero) demo_full.mem
          { buffer := 200, buffer_size := 1, element_size := 1, overwrite := false } :=
  ⟨by decide,
    (C38_reinit_resets demo_full.rb demo_full.mem
      { buffer := 200, buffer_size := 1, element_size := 1, overwrite := false } 0
      (bytes2 0 0) (by decide)).1⟩

end RingBuffer
